import Mathlib

/-! Datalog interpreter (`src/scanner.cpp`, `src/parser.cpp`, `src/interpreter.cpp`):
embedding and verified properties.

The scanner, the recursive-descent parser, the relational-algebra engine
(`Relation`), the query evaluator, the rule evaluator and the fixed-point driver
are embedded as executable Lean functions, and the properties of the
specification are stated and proved about them.

Modelling conventions.

* `std::string` is `String`, one character for each `char`; `std::vector<T>` is
  `List T`.
* `std::set<Tuple>` is `TupleSet`: the list of its elements in iteration
  (ascending) order together with the proof that the list is strictly
  ascending for `Tuple::operator<`.  Every set operation the source uses
  (`insert`, `erase`, `size`, iteration) is a function on that list.
* `std::map<string, Relation>` is a total function `String → Relation` whose
  value at a name never stored is the default-constructed `Relation()`: this is
  what `relations[name]` returns (and stores) for an absent key, and the source
  never iterates over the map.
* `int` column indices and line numbers are `Int`; the conversions `size_t → int`
  of the source are taken as exact (arities below `2^31`).
* An unchecked `operator[]` past the end of a vector, and an exception thrown
  by `vector::at`, make the embedded function of the interpreter return `none`.
  In the parser, which throws on purpose, the ways a call can end are kept
  apart in `Outcome`.
* A loop or recursion whose length is not that of a list takes a bound on the
  number of its iterations as an argument; the results say which bound is
  enough for it to end.
-/

namespace Datalog

/-! ## Orders: `std::lexicographical_compare` -/

/-- Lexicographic comparison of two sequences, as
`std::lexicographical_compare` does it with an element comparison `lt`. -/
def lexLt {α : Type} (lt : α → α → Bool) : List α → List α → Bool
  | _, [] => false
  | [], _ :: _ => true
  | a :: as, b :: bs =>
    if lt a b then true else if lt b a then false else lexLt lt as bs

/-- Comparison of two characters (by code). -/
def charLt (a b : Char) : Bool := decide (a.toNat < b.toNat)

/-- The order `operator<` of `std::string`: lexicographic on the characters
(the byte order of UTF-8 text is the order of its code points). -/
def strLt (a b : String) : Bool := lexLt charLt a.data b.data

/-! ## Data model -/

/-- A `Scheme` is a `vector<string>` of attribute names. -/
abbrev Scheme := List String

/-- A `Tuple` is a `vector<string>` of values. -/
abbrev Tuple := List String

/-- The order `Tuple::operator<`: the lexicographic order of `vector<string>`. -/
def Tuple.lt (a b : Tuple) : Bool := lexLt strLt a b

/-- Insertion into the ascending list of a `std::set<Tuple>`: the element is
placed before the first larger one, and is not inserted when an equivalent
element (neither smaller nor larger) is met. -/
def insertSorted (t : Tuple) : List Tuple → List Tuple
  | [] => [t]
  | h :: rest =>
    if Tuple.lt t h then t :: h :: rest
    else if Tuple.lt h t then h :: insertSorted t rest
    else h :: rest

/-- Removal of the element equivalent to `t` from the ascending list of a
`std::set<Tuple>`. -/
def eraseSorted (t : Tuple) : List Tuple → List Tuple
  | [] => []
  | h :: rest =>
    if Tuple.lt t h then h :: rest
    else if Tuple.lt h t then h :: eraseSorted t rest
    else rest

/-! ### The order of tuples is a strict total order -/

theorem lexLt_irrefl {α : Type} (lt : α → α → Bool) (hirr : ∀ a, lt a a = false)
    (l : List α) : lexLt lt l l = false := by
  induction l with
  | nil => rfl
  | cons a as ih => simp [lexLt, hirr, ih]

theorem lexLt_trans {α : Type} (lt : α → α → Bool)
    (htr : ∀ a b c, lt a b = true → lt b c = true → lt a c = true)
    (htri : ∀ a b, lt a b = false → lt b a = false → a = b) :
    ∀ l₁ l₂ l₃ : List α, lexLt lt l₁ l₂ = true → lexLt lt l₂ l₃ = true →
      lexLt lt l₁ l₃ = true := by
  intro l₁
  induction l₁ with
  | nil =>
    intro l₂ l₃ h₁ h₂
    cases l₂ with
    | nil => simp [lexLt] at h₁
    | cons b bs =>
      cases l₃ with
      | nil => simp [lexLt] at h₂
      | cons c cs => simp [lexLt]
  | cons a as ih =>
    intro l₂ l₃ h₁ h₂
    cases l₂ with
    | nil => simp [lexLt] at h₁
    | cons b bs =>
      cases l₃ with
      | nil => simp [lexLt] at h₂
      | cons c cs =>
        simp only [lexLt] at h₁ h₂ ⊢
        by_cases hab : lt a b = true
        · by_cases hbc : lt b c = true
          · simp [htr a b c hab hbc]
          · by_cases hcb : lt c b = true
            · simp [hbc, hcb] at h₂
            · have hbc' : b = c := htri b c (by simpa using hbc) (by simpa using hcb)
              subst hbc'
              simp [hab]
        · by_cases hba : lt b a = true
          · simp [hab, hba] at h₁
          · have hab' : a = b := htri a b (by simpa using hab) (by simpa using hba)
            subst hab'
            simp only [hab, hba] at h₁
            by_cases hac : lt a c = true
            · simp [hac]
            · by_cases hca : lt c a = true
              · simp [hac, hca] at h₂
              · simp only [hac, hca] at h₂ ⊢
                exact ih bs cs (by simpa using h₁) (by simpa using h₂)

theorem lexLt_tri {α : Type} (lt : α → α → Bool)
    (htri : ∀ a b, lt a b = false → lt b a = false → a = b) :
    ∀ l₁ l₂ : List α, lexLt lt l₁ l₂ = false → lexLt lt l₂ l₁ = false → l₁ = l₂ := by
  intro l₁
  induction l₁ with
  | nil =>
    intro l₂ h₁ _
    cases l₂ with
    | nil => rfl
    | cons b bs => simp [lexLt] at h₁
  | cons a as ih =>
    intro l₂ h₁ h₂
    cases l₂ with
    | nil => simp [lexLt] at h₂
    | cons b bs =>
      simp only [lexLt] at h₁ h₂
      by_cases hab : lt a b = true
      · simp [hab] at h₁
      · by_cases hba : lt b a = true
        · simp [hba] at h₂
        · have hab' : a = b := htri a b (by simpa using hab) (by simpa using hba)
          subst hab'
          simp only [hab] at h₁ h₂
          rw [ih bs (by simpa using h₁) (by simpa using h₂)]

theorem charLt_irrefl (a : Char) : charLt a a = false := by simp [charLt]

theorem charLt_trans (a b c : Char) (h₁ : charLt a b = true) (h₂ : charLt b c = true) :
    charLt a c = true := by
  simp only [charLt, decide_eq_true_eq] at *
  omega

theorem charLt_tri (a b : Char) (h₁ : charLt a b = false) (h₂ : charLt b a = false) :
    a = b := by
  simp only [charLt, decide_eq_false_iff_not, not_lt] at *
  have h : a.toNat = b.toNat := le_antisymm h₂ h₁
  apply Char.ext
  apply UInt32.ext
  exact h

theorem strLt_irrefl (a : String) : strLt a a = false :=
  lexLt_irrefl charLt charLt_irrefl a.data

theorem strLt_trans (a b c : String) (h₁ : strLt a b = true) (h₂ : strLt b c = true) :
    strLt a c = true :=
  lexLt_trans charLt charLt_trans charLt_tri a.data b.data c.data h₁ h₂

theorem strLt_tri (a b : String) (h₁ : strLt a b = false) (h₂ : strLt b a = false) :
    a = b :=
  String.ext (lexLt_tri charLt charLt_tri a.data b.data h₁ h₂)

theorem Tuple.lt_irrefl (a : Tuple) : Tuple.lt a a = false :=
  lexLt_irrefl strLt strLt_irrefl a

theorem Tuple.lt_trans {a b c : Tuple} (h₁ : Tuple.lt a b = true)
    (h₂ : Tuple.lt b c = true) : Tuple.lt a c = true :=
  lexLt_trans strLt strLt_trans strLt_tri a b c h₁ h₂

theorem Tuple.lt_tri {a b : Tuple} (h₁ : Tuple.lt a b = false)
    (h₂ : Tuple.lt b a = false) : a = b :=
  lexLt_tri strLt strLt_tri a b h₁ h₂

/-! ### Insertion and removal keep the list of a set ascending -/

/-- The representation invariant of `std::set<Tuple>`: strictly ascending. -/
abbrev Ascending (l : List Tuple) : Prop :=
  l.Pairwise (fun a b => Tuple.lt a b = true)

theorem mem_insertSorted (t x : Tuple) (l : List Tuple) :
    x ∈ insertSorted t l ↔ x = t ∨ x ∈ l := by
  induction l with
  | nil => simp [insertSorted]
  | cons h rest ih =>
    unfold insertSorted
    by_cases h₁ : Tuple.lt t h = true
    · simp [h₁]
    · by_cases h₂ : Tuple.lt h t = true
      · simp only [h₁, h₂, if_true, if_false, List.mem_cons, ih, Bool.false_eq_true]
        tauto
      · have hth : t = h := Tuple.lt_tri (by simpa using h₁) (by simpa using h₂)
        subst hth
        simp [h₁]

theorem ascending_insertSorted (t : Tuple) (l : List Tuple) (hl : Ascending l) :
    Ascending (insertSorted t l) := by
  induction l with
  | nil => simp [insertSorted, Ascending]
  | cons h rest ih =>
    unfold insertSorted
    have hl' := List.pairwise_cons.mp hl
    by_cases h₁ : Tuple.lt t h = true
    · simp only [h₁, if_true]
      refine List.pairwise_cons.mpr ⟨?_, hl⟩
      intro b hb
      rcases List.mem_cons.mp hb with rfl | hb
      · exact h₁
      · exact Tuple.lt_trans h₁ (hl'.1 b hb)
    · by_cases h₂ : Tuple.lt h t = true
      · simp only [h₁, h₂, if_true, if_false, Bool.false_eq_true]
        refine List.pairwise_cons.mpr ⟨?_, ih hl'.2⟩
        intro b hb
        rcases (mem_insertSorted t b rest).mp hb with rfl | hb
        · exact h₂
        · exact hl'.1 b hb
      · simpa [h₁, h₂] using hl

theorem eraseSorted_sublist (t : Tuple) (l : List Tuple) :
    List.Sublist (eraseSorted t l) l := by
  induction l with
  | nil => simp [eraseSorted]
  | cons h rest ih =>
    unfold eraseSorted
    by_cases h₁ : Tuple.lt t h = true
    · simp [h₁]
    · by_cases h₂ : Tuple.lt h t = true
      · simpa [h₁, h₂] using ih
      · simp [h₁, h₂]

theorem ascending_eraseSorted (t : Tuple) (l : List Tuple) (hl : Ascending l) :
    Ascending (eraseSorted t l) :=
  List.Pairwise.sublist (eraseSorted_sublist t l) hl

theorem mem_eraseSorted (t x : Tuple) (l : List Tuple) (hl : Ascending l) :
    x ∈ eraseSorted t l ↔ x ∈ l ∧ x ≠ t := by
  induction l with
  | nil => simp [eraseSorted]
  | cons h rest ih =>
    have hl' := List.pairwise_cons.mp hl
    unfold eraseSorted
    by_cases h₁ : Tuple.lt t h = true
    · simp only [h₁, if_true]
      constructor
      · intro hx
        refine ⟨hx, ?_⟩
        rintro rfl
        rcases List.mem_cons.mp hx with rfl | hx
        · simp [Tuple.lt_irrefl] at h₁
        · have := Tuple.lt_trans h₁ (hl'.1 x hx)
          simp [Tuple.lt_irrefl] at this
      · exact fun hx => hx.1
    · by_cases h₂ : Tuple.lt h t = true
      · simp only [h₁, h₂, if_true, if_false, Bool.false_eq_true, List.mem_cons, ih hl'.2]
        constructor
        · rintro (rfl | hx)
          · refine ⟨Or.inl rfl, ?_⟩
            rintro rfl
            simp [Tuple.lt_irrefl] at h₂
          · exact ⟨Or.inr hx.1, hx.2⟩
        · rintro ⟨rfl | hx, hne⟩
          · exact Or.inl rfl
          · exact Or.inr ⟨hx, hne⟩
      · have hth : t = h := Tuple.lt_tri (by simpa using h₁) (by simpa using h₂)
        subst hth
        simp only [h₁, if_false, Bool.false_eq_true, List.mem_cons]
        constructor
        · intro hx
          refine ⟨Or.inr hx, ?_⟩
          rintro rfl
          have := hl'.1 x hx
          simp [Tuple.lt_irrefl] at this
        · rintro ⟨rfl | hx, hne⟩
          · exact absurd rfl hne
          · exact hx

/-! ## Sets of tuples and relations -/

/-- The container `std::set<Tuple>`: its elements in iteration order. -/
structure TupleSet where
  /-- The elements, in ascending order. -/
  elems : List Tuple
  /-- The elements are strictly ascending. -/
  ascending : Ascending elems

namespace TupleSet

/-- An empty `std::set<Tuple>`. -/
def empty : TupleSet := ⟨[], List.Pairwise.nil⟩

/-- `std::set::insert`. -/
def insert (s : TupleSet) (t : Tuple) : TupleSet :=
  ⟨insertSorted t s.elems, ascending_insertSorted t s.elems s.ascending⟩

/-- `std::set::erase` by key. -/
def erase (s : TupleSet) (t : Tuple) : TupleSet :=
  ⟨eraseSorted t s.elems, ascending_eraseSorted t s.elems s.ascending⟩

/-- `std::set::size`. -/
def size (s : TupleSet) : Nat := s.elems.length

instance : Membership Tuple TupleSet := ⟨fun s t => t ∈ s.elems⟩

instance : DecidableEq TupleSet := fun a b =>
  decidable_of_iff (a.elems = b.elems) (by
    cases a; cases b; simp)

instance (t : Tuple) (s : TupleSet) : Decidable (t ∈ s) :=
  inferInstanceAs (Decidable (t ∈ s.elems))

end TupleSet

/-- The single-quote character. -/
def quote : Char := Char.ofNat 39

/-- The test `!value.empty() && value.front() == quote` by which `evaluateQuery`
tells a literal from a variable. -/
def startsWithQuote (value : String) : Bool :=
  match value.data with
  | [] => false
  | c :: _ => c == quote

/-- The quote stripping of `Tuple::toString`: when the value is not empty and
both its first and its last character are the quote, `value.substr(1, size - 2)`
(the length `size - 2` is computed in `size_t`, so it wraps for `size = 1`). -/
def stripQuotes (value : String) : String :=
  match value.data with
  | [] => value
  | c :: cs =>
    if c == quote && (c :: cs).getLast (List.cons_ne_nil c cs) == quote then
      String.mk (cs.take ((cs.length + 1 + 2 ^ 64 - 2) % 2 ^ 64))
    else value

/-- The loop of `Tuple::toString` from column `i` on, `ss` being the text written
so far.  `at(i)` throws when the tuple has no column `i`: the result is `none`. -/
def Tuple.toStringFrom (tuple : Tuple) : Nat → List String → String → Option String
  | _, [], ss => some ss
  | i, attr :: rest, ss =>
    match tuple[i]? with
    | none => none
    | some value =>
      Tuple.toStringFrom tuple (i + 1) rest
        ((if i > 0 then ss ++ ", " else ss) ++ attr ++ "='" ++ stripQuotes value ++ "'")

/-- The method `Tuple::toString(scheme)`. -/
def Tuple.toString (tuple : Tuple) (scheme : Scheme) : Option String :=
  Tuple.toStringFrom tuple 0 scheme ""

/-- The class `Relation`: a name, a scheme and a set of tuples. -/
structure Relation where
  /-- The relation name. -/
  name : String
  /-- The attribute names. -/
  scheme : Scheme
  /-- The tuples. -/
  tuples : TupleSet
deriving DecidableEq

namespace Relation

/-- The default constructor `Relation()`. -/
def default : Relation := ⟨"", [], TupleSet.empty⟩

/-- The method `addTuple`. -/
def addTuple (r : Relation) (tuple : Tuple) : Relation :=
  { r with tuples := r.tuples.insert tuple }

/-- The method `size`. -/
def size (r : Relation) : Nat := r.tuples.size

/-- The method `select(int index, const string& value)`. -/
def select (r : Relation) (index : Int) (value : String) : Relation :=
  r.tuples.elems.foldl
    (fun result tuple =>
      if 0 ≤ index ∧ index < (tuple.length : Int) ∧ tuple[index.toNat]? = some value then
        result.addTuple tuple
      else result)
    ⟨r.name, r.scheme, TupleSet.empty⟩

/-- The method `select(int index1, int index2)`. -/
def select2 (r : Relation) (index1 index2 : Int) : Relation :=
  r.tuples.elems.foldl
    (fun result tuple =>
      if 0 ≤ index1 ∧ index1 < (tuple.length : Int) ∧
          0 ≤ index2 ∧ index2 < (tuple.length : Int) ∧
          tuple[index1.toNat]? = tuple[index2.toNat]? then
        result.addTuple tuple
      else result)
    ⟨r.name, r.scheme, TupleSet.empty⟩

/-- The column-copying loop of `project`, run on a scheme or on a tuple `v`: the
entries of `v` at the listed indices that are in range, the others skipped. -/
def pickColumns (v : List String) : List Int → List String
  | [] => []
  | index :: rest =>
    if 0 ≤ index ∧ index < (v.length : Int) then
      match v[index.toNat]? with
      | some x => x :: pickColumns v rest
      | none => pickColumns v rest
    else pickColumns v rest

/-- The method `project`. -/
def project (r : Relation) (indices : List Int) : Relation :=
  r.tuples.elems.foldl
    (fun result tuple => result.addTuple (pickColumns tuple indices))
    ⟨r.name, pickColumns r.scheme indices, TupleSet.empty⟩

/-- The method `rename`. -/
def rename (r : Relation) (newAttributes : List String) : Relation :=
  r.tuples.elems.foldl (fun result tuple => result.addTuple tuple)
    ⟨r.name, newAttributes, TupleSet.empty⟩

/-- The scheme computed by `join`: the attributes of `other` not yet present
are appended one by one. -/
def joinScheme (scheme other : Scheme) : Scheme :=
  other.foldl (fun newScheme attr => if attr ∈ newScheme then newScheme else newScheme ++ [attr])
    scheme

/-- The innermost loop of `join` from position `i` of `other.scheme` on, with
the current `newTuple` and `isJoinable`; a mismatch on a shared attribute
leaves the loop (`break`). -/
def joinTuples (scheme : Scheme) (tuple1 tuple2 : Tuple) :
    List String → Nat → Tuple → Bool → Tuple × Bool
  | [], _, newTuple, isJoinable => (newTuple, isJoinable)
  | attr :: rest, i, newTuple, isJoinable =>
    let index := scheme.indexOf attr
    if index < scheme.length then
      if index ≥ tuple1.length ∨ i ≥ tuple2.length ∨ tuple1[index]? ≠ tuple2[i]? then
        (newTuple, false)
      else joinTuples scheme tuple1 tuple2 rest (i + 1) newTuple isJoinable
    else
      match tuple2[i]? with
      | some v => joinTuples scheme tuple1 tuple2 rest (i + 1) (newTuple ++ [v]) isJoinable
      | none => joinTuples scheme tuple1 tuple2 rest (i + 1) newTuple false

/-- The method `join`. -/
def join (r other : Relation) : Relation :=
  r.tuples.elems.foldl
    (fun result tuple1 =>
      other.tuples.elems.foldl
        (fun result tuple2 =>
          let joined := joinTuples r.scheme tuple1 tuple2 other.scheme 0 tuple1 true
          if joined.2 then result.addTuple joined.1 else result)
        result)
    ⟨r.name, joinScheme r.scheme other.scheme, TupleSet.empty⟩

/-- The method `unionWith`. -/
def unionWith (r other : Relation) : Relation :=
  other.tuples.elems.foldl (fun result tuple => result.addTuple tuple) r

/-- The method `toString`; `none` when `Tuple::toString` throws. -/
def toString (r : Relation) : Option String :=
  r.tuples.elems.foldlM
    (fun ss tuple => (Tuple.toString tuple r.scheme).map (fun line => ss ++ "  " ++ line ++ "\n"))
    ""

end Relation

/-- The class `Database`: `map<string, Relation>`, read through `relations[name]`. -/
abbrev Database := String → Relation

namespace Database

/-- A database without entries: every name reads as `Relation()`. -/
def empty : Database := fun _ => Relation.default

/-- The method `addRelation`. -/
def addRelation (db : Database) (name : String) (relation : Relation) : Database :=
  fun n => if n = name then relation else db n

/-- The method `getRelation`. -/
def getRelation (db : Database) (name : String) : Relation := db name

end Database

/-! ## The parsed program (`src/parser.cpp`) -/

/-- The class `Parameter`. -/
structure Parameter where
  /-- The text of the parameter. -/
  value : String
deriving DecidableEq

/-- The class `Predicate`. -/
structure Predicate where
  /-- The relation name. -/
  name : String
  /-- The parameters. -/
  parameters : List Parameter
deriving DecidableEq

/-- The class `Rule`. -/
structure Rule where
  /-- The head. -/
  headPredicate : Predicate
  /-- The body atoms. -/
  bodyPredicates : List Predicate
deriving DecidableEq

/-- The class `DatalogProgram` (its `domain`, which the interpreter never reads,
is left out). -/
structure DatalogProgram where
  /-- The schemes. -/
  schemes : List Predicate
  /-- The facts. -/
  facts : List Predicate
  /-- The rules. -/
  rules : List Rule
  /-- The queries. -/
  queries : List Predicate

/-- Joins texts with commas, as the loops of the `toString` methods do. -/
def commaSeparated : List String → String
  | [] => ""
  | [x] => x
  | x :: y :: rest => x ++ "," ++ commaSeparated (y :: rest)

/-- The method `Predicate::toString`. -/
def Predicate.toString (p : Predicate) : String :=
  p.name ++ "(" ++ commaSeparated (p.parameters.map (fun q => q.value)) ++ ")"

/-- The method `Rule::toString`. -/
def Rule.toString (r : Rule) : String :=
  r.headPredicate.toString ++ " :- " ++
    commaSeparated (r.bodyPredicates.map Predicate.toString) ++ "."

/-- The function `trimTrailingPeriod`. -/
def trimTrailingPeriod (s : String) : String :=
  match s.data.getLast? with
  | some c => if c == Char.ofNat 46 then String.mk s.data.dropLast else s
  | none => s

/-! ## The interpreter -/

namespace Interpreter

/-- The method `evaluateSchemes`, run on a database. -/
def evaluateSchemes (schemes : List Predicate) (database : Database) : Database :=
  schemes.foldl
    (fun db scheme =>
      db.addRelation scheme.name
        ⟨scheme.name, scheme.parameters.map (fun q => q.value), TupleSet.empty⟩)
    database

/-- The method `evaluateFacts`, run on a database. -/
def evaluateFacts (facts : List Predicate) (database : Database) : Database :=
  facts.foldl
    (fun db fact =>
      db.addRelation fact.name
        ((db.getRelation fact.name).addTuple (fact.parameters.map (fun q => q.value))))
    database

/-- The local variables of `evaluateQuery`. -/
structure QueryState where
  /-- The working relation. -/
  relation : Relation
  /-- The columns to keep. -/
  projectIndices : List Int
  /-- The names of the kept columns. -/
  renameAttributes : List String
  /-- The `map<string, int>` from a variable to the column of its first
  occurrence, as the list of its entries. -/
  variableIndices : List (String × Int)

/-- One turn of the loop of `evaluateQuery`, for parameter `param` at column `i`. -/
def evaluateQueryStep (i : Nat) (param : Parameter) (st : QueryState) : QueryState :=
  if startsWithQuote param.value then
    { st with relation := st.relation.select (i : Int) param.value }
  else
    match st.variableIndices.lookup param.value with
    | some first => { st with relation := st.relation.select2 first (i : Int) }
    | none =>
      { st with
        variableIndices := (param.value, (i : Int)) :: st.variableIndices
        projectIndices := st.projectIndices ++ [(i : Int)]
        renameAttributes := st.renameAttributes ++ [param.value] }

/-- The loop of `evaluateQuery` over the parameters from column `i` on. -/
def evaluateQueryLoop : List Parameter → Nat → QueryState → QueryState
  | [], _, st => st
  | param :: rest, i, st => evaluateQueryLoop rest (i + 1) (evaluateQueryStep i param st)

/-- The method `evaluateQuery`. -/
def evaluateQuery (database : Database) (query : Predicate) : Relation :=
  let st := evaluateQueryLoop query.parameters 0
    ⟨database.getRelation query.name, [], [], []⟩
  (st.relation.project st.projectIndices).rename st.renameAttributes

/-- The head loop of `evaluateRule` from head position `j` on: for each head
parameter found in the scheme of `result`, its column and the `j`-th attribute
of the target scheme are recorded.  Reading `targetScheme[j]` past the end of
the target scheme is an out-of-range access: the result is `none`. -/
def headColumns (resultScheme targetScheme : Scheme) :
    List Parameter → Nat → List Int → List String → Option (List Int × List String)
  | [], _, indices, newAttributes => some (indices, newAttributes)
  | param :: rest, j, indices, newAttributes =>
    let i := resultScheme.indexOf param.value
    if i < resultScheme.length then
      match targetScheme[j]? with
      | none => none
      | some attr =>
        headColumns resultScheme targetScheme rest (j + 1) (indices ++ [(i : Int)])
          (newAttributes ++ [attr])
    else headColumns resultScheme targetScheme rest (j + 1) indices newAttributes

/-- The join of the intermediate results in `evaluateRule`: `Relation()` for no
body atom, otherwise the first result joined with the others from left to
right. -/
def joinAll : List Relation → Relation
  | [] => Relation.default
  | first :: rest => rest.foldl Relation.join first

/-- The method `evaluateRule`; `none` on an out-of-range access. -/
def evaluateRule (database : Database) (rule : Rule) : Option Relation :=
  let result := joinAll (rule.bodyPredicates.map (evaluateQuery database))
  let targetScheme := (database.getRelation rule.headPredicate.name).scheme
  match headColumns result.scheme targetScheme rule.headPredicate.parameters 0 [] [] with
  | none => none
  | some (indices, newAttributes) => some ((result.project indices).rename newAttributes)

/-- The state of the loop of `evaluateRules`. -/
structure RulesState where
  /-- The database. -/
  database : Database
  /-- The flag `databaseChanged`. -/
  databaseChanged : Bool
  /-- The text written to `cout` so far. -/
  output : String

/-- The relation `newTuples` of `evaluateRules`: the copy of `result` after the
loop that erases from it every tuple of the existing relation. -/
def newTuplesOf (existingRelation result : Relation) : Relation :=
  { result with
    tuples := existingRelation.tuples.elems.foldl (fun s tuple => s.erase tuple)
      result.tuples }

/-- The body of the inner loop of `evaluateRules`, for one rule; `none` on an
out-of-range access in `evaluateRule` or when printing the new tuples throws. -/
def evaluateRulesStep (st : RulesState) (rule : Rule) : Option RulesState :=
  match evaluateRule st.database rule with
  | none => none
  | some result =>
    let existingRelation := st.database.getRelation rule.headPredicate.name
    let initialSize := existingRelation.size
    let newTuples := newTuplesOf existingRelation result
    let unioned := existingRelation.unionWith result
    match newTuples.toString with
    | none => none
    | some text =>
      some
        { database := st.database.addRelation rule.headPredicate.name unioned
          databaseChanged := if unioned.size > initialSize then true else st.databaseChanged
          output := st.output ++ trimTrailingPeriod rule.toString ++ "\n" ++ text }

/-- One pass of `evaluateRules` over all rules in program order. -/
def evaluateRulesPass (rules : List Rule) (st : RulesState) : Option RulesState :=
  rules.foldlM evaluateRulesStep st

/-- How a run of the fixed-point loop ends. -/
inductive Run (α : Type) where
  /-- The loop was left normally. -/
  | done (result : α)
  /-- An out-of-range access or an uncaught exception. -/
  | fault
  /-- The bound on the number of passes was reached. -/
  | unfinished
deriving DecidableEq

/-- The `while` loop of `evaluateRules`, for at most `fuel` passes: the final
database, `iterationCount` and the text written. -/
def evaluateRulesLoop (rules : List Rule) :
    Nat → Database → Nat → String → Run (Database × Nat × String)
  | 0, _, _, _ => Run.unfinished
  | fuel + 1, database, iterationCount, output =>
    match evaluateRulesPass rules ⟨database, false, output⟩ with
    | none => Run.fault
    | some st =>
      if st.databaseChanged then
        evaluateRulesLoop rules fuel st.database (iterationCount + 1) st.output
      else Run.done (st.database, iterationCount + 1, st.output)

/-- The method `evaluateRules`, for at most `fuel` passes. -/
def evaluateRules (rules : List Rule) (fuel : Nat) (database : Database) :
    Run (Database × Nat × String) :=
  match evaluateRulesLoop rules fuel database 0 "Rule Evaluation\n" with
  | Run.done (db, iterationCount, output) =>
    Run.done (db, iterationCount,
      output ++ "\nSchemes populated after " ++ ToString.toString iterationCount ++
        " passes through the Rules.\n")
  | Run.fault => Run.fault
  | Run.unfinished => Run.unfinished

/-- The text `evaluateQueries` writes for one query; `none` when printing throws. -/
def evaluateQueriesStep (database : Database) (output : String) (query : Predicate) :
    Option String :=
  let result := evaluateQuery database query
  let head := output ++ trimTrailingPeriod query.toString ++ "? "
  if result.size = 0 then some (head ++ "No\n")
  else
    match result.toString with
    | none => none
    | some text => some (head ++ "Yes(" ++ ToString.toString result.size ++ ")\n" ++ text)

/-- The method `evaluateQueries`: the text written to `cout`. -/
def evaluateQueries (queries : List Predicate) (database : Database) : Option String :=
  queries.foldlM (evaluateQueriesStep database) "\nQuery Evaluation\n"

end Interpreter

open Interpreter

/-! ## Vocabulary of the properties -/

/-- The relation `res'` is `res` with the tuples satisfying `P` added. -/
def Relation.Adds (res' res : Relation) (P : Tuple → Prop) : Prop :=
  res'.name = res.name ∧ res'.scheme = res.scheme ∧
    ∀ t, t ∈ res'.tuples ↔ t ∈ res.tuples ∨ P t

/-- A relation is well formed when every tuple has as many values as the
scheme has attributes. -/
def Relation.WellFormed (r : Relation) : Prop :=
  ∀ t ∈ r.tuples.elems, t.length = r.scheme.length

instance (r : Relation) : Decidable r.WellFormed :=
  inferInstanceAs (Decidable (∀ t ∈ r.tuples.elems, t.length = r.scheme.length))

/-- The relation `R(A,B)` of scenario 2, with the tuples `('x','x')` and `('x','y')`. -/
def scenario2Relation : Relation :=
  ((Relation.mk "R" ["A", "B"] TupleSet.empty).addTuple ["'x'", "'x'"]).addTuple ["'x'", "'y'"]

/-- The texts of the parameters of an atom. -/
def Predicate.values (p : Predicate) : List String := p.parameters.map (fun q => q.value)

/-- Position `i` of the parameter texts `vals` holds a variable (a text that is
not a quoted literal) that does not occur at an earlier position. -/
def isFirstVariable (vals : List String) (i : Nat) : Bool :=
  match vals[i]? with
  | some x => !startsWithQuote x && vals.indexOf x == i
  | none => false

/-- The first-occurrence positions of the distinct variables, ascending. -/
def variablePositions (vals : List String) : List Nat :=
  (List.range vals.length).filter (isFirstVariable vals)

/-- The distinct variables in first-occurrence order. -/
def distinctVariables (vals : List String) : List String :=
  (variablePositions vals).filterMap (fun c => vals[c]?)

/-- The tuple `t` passes the selections of an atom with parameter texts `vals`:
it has the literal at every literal position, and at every later occurrence of
a variable the value it has at the first occurrence. -/
def Selects (vals : List String) (t : Tuple) : Prop :=
  ∀ i x, vals[i]? = some x →
    (startsWithQuote x = true → t[i]? = some x) ∧
    (startsWithQuote x = false → vals.indexOf x < i →
      ∃ a, t[vals.indexOf x]? = some a ∧ t[i]? = some a)

/-- The invariant of the loop of `evaluateQuery` on a relation `R`, after the
parameters with texts `vals` have been processed. -/
def QueryInv (R : Relation) (vals : List String) (st : QueryState) : Prop :=
  st.relation.name = R.name ∧ st.relation.scheme = R.scheme ∧
  (∀ t, t ∈ st.relation.tuples ↔ t ∈ R.tuples ∧ Selects vals t) ∧
  (∀ x, st.variableIndices.lookup x =
    if x ∈ vals ∧ startsWithQuote x = false then some ((vals.indexOf x : Nat) : Int) else none) ∧
  st.projectIndices = (variablePositions vals).map (fun (c : Nat) => (c : Int)) ∧
  st.renameAttributes = distinctVariables vals

/-- The atom with name `name` and parameter texts `params`. -/
def atom (name : String) (params : List String) : Predicate :=
  ⟨name, params.map Parameter.mk⟩

/-- The database of scenario 2: scheme `R(A,B)`, facts `R('x','x')` and `R('x','y')`. -/
def scenario2Database : Database :=
  evaluateFacts [atom "R" ["'x'", "'x'"], atom "R" ["'x'", "'y'"]]
    (evaluateSchemes [atom "R" ["A", "B"]] Database.empty)

/-- The database of scenarios 4 and 5: scheme `p(A)`, fact `p('x')`. -/
def scenario4Database : Database :=
  evaluateFacts [atom "p" ["'x'"]] (evaluateSchemes [atom "p" ["A"]] Database.empty)

/-- The distinct entries of a list, each once, in first-occurrence order. -/
def firstOccurrences : List String → List String
  | [] => []
  | x :: xs => x :: (firstOccurrences xs).filter (fun y => y ≠ x)

/-- The values of `tuple2` at the positions of `scheme2` whose attribute does not
occur in `scheme1`, in order. -/
def unsharedValues (scheme1 scheme2 : Scheme) (tuple2 : Tuple) : Tuple :=
  ((scheme2.zip tuple2).filter (fun av => av.1 ∉ scheme1)).map Prod.snd

/-- A relation `S(B,C)` with the tuples `('x','1')` and `('z','2')`. -/
def sampleRelationBC : Relation :=
  ((Relation.mk "S" ["B", "C"] TupleSet.empty).addTuple ["'x'", "'1'"]).addTuple ["'z'", "'2'"]

/-- The tuple an atom with parameter texts `vals` stands for under the
assignment `s`: a variable is replaced by its value, a literal stays. -/
def instantiate (s : String → String) (vals : List String) : Tuple :=
  vals.map (fun x => if startsWithQuote x then x else s x)

/-- Every atom of `body` is, under the assignment `s`, a tuple of its relation. -/
def Satisfies (database : Database) (s : String → String) (body : List Predicate) : Prop :=
  ∀ b ∈ body, instantiate s b.values ∈ (database b.name).tuples

/-- The tuples of `rel` are the values, along its scheme, of the assignments
with the property `P`; the scheme has no repeated attribute and `P` depends on
the attributes of the scheme only. -/
def Denotes (rel : Relation) (P : (String → String) → Prop) : Prop :=
  rel.scheme.Nodup ∧
  (∀ s s' : String → String, (∀ x ∈ rel.scheme, s x = s' x) → (P s ↔ P s')) ∧
  ∀ u, u ∈ rel.tuples ↔ ∃ s, P s ∧ u = rel.scheme.map s

/-- The database of scenario 3 before rule evaluation: schemes `e(X,Y)` and
`tc(X,Y)`, facts `e('1','2')`, `e('2','3')`, `e('3','4')`. -/
def scenario3Database : Database :=
  evaluateFacts [atom "e" ["'1'", "'2'"], atom "e" ["'2'", "'3'"], atom "e" ["'3'", "'4'"]]
    (evaluateSchemes [atom "e" ["X", "Y"], atom "tc" ["X", "Y"]] Database.empty)

/-- The rules of scenario 3: `tc(X,Y) :- e(X,Y)` and `tc(X,Y) :- e(X,Z),tc(Z,Y)`. -/
def scenario3Rules : List Rule :=
  [⟨atom "tc" ["X", "Y"], [atom "e" ["X", "Y"]]⟩,
   ⟨atom "tc" ["X", "Y"], [atom "e" ["X", "Z"], atom "tc" ["Z", "Y"]]⟩]

/-- The database of scenario 3 after the tuples of `e` have been copied to `tc`
(the effect of the first rule). -/
def scenario3AfterFirstRule : Database :=
  evaluateFacts [atom "tc" ["'1'", "'2'"], atom "tc" ["'2'", "'3'"], atom "tc" ["'3'", "'4'"]]
    scenario3Database

/-- The result of `rule` on `database` is already contained in its head
relation. -/
def Stable (database : Database) (rule : Rule) : Prop :=
  ∃ result, evaluateRule database rule = some result ∧
    ∀ t, t ∈ result.tuples → t ∈ (database rule.headPredicate.name).tuples

/-- The database left by `evaluateRules` on scenario 3 (three passes). -/
def scenario3Final : Database :=
  match evaluateRules scenario3Rules 3 scenario3Database with
  | Run.done r => r.1
  | _ => Database.empty

/-- The text `evaluateRules` writes on scenario 3. -/
def scenario3Output : String :=
  "Rule Evaluation\ntc(X,Y) :- e(X,Y)\n  X='1', Y='2'\n  X='2', Y='3'\n  X='3', Y='4'\n" ++
  "tc(X,Y) :- e(X,Z),tc(Z,Y)\n  X='1', Y='3'\n  X='2', Y='4'\n" ++
  "tc(X,Y) :- e(X,Y)\ntc(X,Y) :- e(X,Z),tc(Z,Y)\n  X='1', Y='4'\n" ++
  "tc(X,Y) :- e(X,Y)\ntc(X,Y) :- e(X,Z),tc(Z,Y)\n" ++
  "\nSchemes populated after 3 passes through the Rules.\n"

/-- The relation names a list of rules mentions, in heads and bodies. -/
def ruleNames (rules : List Rule) : List String :=
  rules.flatMap (fun r => r.headPredicate.name :: r.bodyPredicates.map (fun b => b.name))

/-- The values occurring in the relations of `database` with the given names. -/
def valuesOf (database : Database) (names : List String) : List String :=
  names.flatMap (fun n => (database n).tuples.elems.flatten)

/-- A rule fits the schemes of a database: it has a body atom, its head has as
many parameters as the declared scheme of the head relation, each body atom
has the arity of its relation, and every head parameter occurs as a variable
in the body. -/
def Rule.WellFormedIn (database : Database) (rule : Rule) : Prop :=
  rule.bodyPredicates ≠ [] ∧
  rule.headPredicate.parameters.length = (database rule.headPredicate.name).scheme.length ∧
  (∀ b ∈ rule.bodyPredicates, b.parameters.length = (database b.name).scheme.length) ∧
  (∀ x ∈ rule.headPredicate.values,
    ∃ b ∈ rule.bodyPredicates, x ∈ b.values ∧ startsWithQuote x = false)

instance (database : Database) (rule : Rule) : Decidable (rule.WellFormedIn database) :=
  inferInstanceAs (Decidable (_ ∧ _ ∧ _ ∧ _))

/-- The invariant of the fixed-point loop relative to the initial database
`initial`: the schemes are those of `initial`, and every relation the rules
mention is well formed with values among those of `initial`. -/
def LoopInv (rules : List Rule) (initial database : Database) : Prop :=
  (∀ name, (database name).scheme = (initial name).scheme) ∧
  ∀ name ∈ ruleNames rules, (database name).WellFormed ∧
    ∀ t ∈ (database name).tuples.elems, ∀ x ∈ t, x ∈ valuesOf initial (ruleNames rules)

/-- All tuples of length `k` with values from `dom`. -/
def allTuples (dom : List String) : Nat → List Tuple
  | 0 => [[]]
  | k + 1 => dom.flatMap (fun x => (allTuples dom k).map (fun t => x :: t))

/-- The number of tuples stored under the given names. -/
def totalSize (names : List String) (database : Database) : Nat :=
  (names.toFinset).sum (fun n => (database n).size)

/-- A bound on `totalSize` under the loop invariant. -/
def sizeBound (names : List String) (initial : Database) : Nat :=
  (names.toFinset).sum
    (fun n => (allTuples (valuesOf initial names) (initial n).scheme.length).length)

/-- The database `database` is contained in `model`, relation by relation, and
has the same schemes. -/
def Database.Le (database model : Database) : Prop :=
  (∀ name, (database name).scheme = (model name).scheme) ∧
  ∀ name t, t ∈ (database name).tuples → t ∈ (model name).tuples

/-- The database `model` is closed under `rule`: evaluating the rule against it
yields only tuples already in its head relation. -/
def Database.ClosedUnder (model : Database) (rule : Rule) : Prop :=
  ∀ result, evaluateRule model rule = some result →
    ∀ t, t ∈ result.tuples → t ∈ (model rule.headPredicate.name).tuples

/-- The database `interpret` hands to `evaluateRules`: the schemes declared,
then the facts loaded. -/
def DatalogProgram.initialDatabase (prog : DatalogProgram) : Database :=
  evaluateFacts prog.facts (evaluateSchemes prog.schemes Database.empty)

/-- A program is well formed (as far as its rules are concerned) when every
relation its rules mention is well formed once the facts are loaded and every
rule fits the declared schemes. -/
def DatalogProgram.WellFormed (prog : DatalogProgram) : Prop :=
  (∀ name ∈ ruleNames prog.rules, (prog.initialDatabase name).WellFormed) ∧
  ∀ rule ∈ prog.rules, rule.WellFormedIn prog.initialDatabase

instance (prog : DatalogProgram) : Decidable prog.WellFormed :=
  inferInstanceAs (Decidable (_ ∧ _))

/-- The program of scenario 3. -/
def scenario3Program : DatalogProgram :=
  { schemes := [atom "e" ["X", "Y"], atom "tc" ["X", "Y"]]
    facts := [atom "e" ["'1'", "'2'"], atom "e" ["'2'", "'3'"], atom "e" ["'3'", "'4'"]]
    rules := scenario3Rules
    queries := [atom "tc" ["'1'", "W"]] }

/-- A program the parser accepts in which the only rule head, `q(X,Y)`, has the
two parameters of its declared scheme `q(A,B)`, while the body atom `p(X,Y)`
has one parameter more than the scheme `p(A)`:
`Schemes: p(A) q(A,B)  Facts: p('x').  Rules: q(X,Y) :- p(X,Y).  Queries: p(X)?` -/
def shortTupleProgram : DatalogProgram :=
  { schemes := [atom "p" ["A"], atom "q" ["A", "B"]]
    facts := [atom "p" ["'x'"]]
    rules := [⟨atom "q" ["X", "Y"], [atom "p" ["X", "Y"]]⟩]
    queries := [atom "p" ["X"]] }

/-- A well-formed relation whose scheme repeats the attribute `A`: scheme `(A,A)`,
one tuple `('1','2')`. -/
def repeatedAttributeRelation : Relation :=
  (Relation.mk "R" ["A", "A"] TupleSet.empty).addTuple ["'1'", "'2'"]

/-- The relation `B` is `A` with its columns reordered: for a rearrangement
`perm` of the column positions of `A`, column `k` of `B` is column `perm[k]` of
`A`, in the scheme and in every tuple. -/
def ColumnReorder (A B : Relation) : Prop :=
  ∃ perm : List Nat, perm.Perm (List.range A.scheme.length) ∧
    B.scheme = perm.map (fun c => A.scheme.getD c "") ∧
    ∀ u, u ∈ B.tuples ↔ ∃ t, t ∈ A.tuples ∧ u = perm.map (fun c => t.getD c "")

/-- A well-formed relation `R(A)` with the tuple `('1')`. -/
def sampleRelationA : Relation :=
  (Relation.mk "R" ["A"] TupleSet.empty).addTuple ["'1'"]

/-- A well-formed relation whose scheme repeats the attribute `B`: scheme `(B,B)`,
one tuple `('2','3')`. -/
def sampleRelationBB : Relation :=
  (Relation.mk "S" ["B", "B"] TupleSet.empty).addTuple ["'2'", "'3'"]

/-- The first rule of scenario 3, `tc(X,Y) :- e(X,Y)`. -/
def scenario3FirstRule : Rule := ⟨atom "tc" ["X", "Y"], [atom "e" ["X", "Y"]]⟩

/-- The relation `evaluateRule` returns for the first rule of scenario 3 on the
database of scenario 3: the tuples of `e` under the scheme of `tc`. -/
def scenario3FirstResult : Relation :=
  (((Relation.mk "e" ["X", "Y"] TupleSet.empty).addTuple ["'1'", "'2'"]).addTuple
    ["'2'", "'3'"]).addTuple ["'3'", "'4'"]

/-- Some head relation of `rules` has more tuples in `after` than in `before`. -/
def Enlarges (rules : List Rule) (before after : Database) : Prop :=
  ∃ rule ∈ rules,
    (before rule.headPredicate.name).size < (after rule.headPredicate.name).size

/-- `ProductivePasses rules k db out db' out'`: starting from the database `db`
and the text `out`, `k` successive passes over `rules`, each of which enlarges
some head relation, lead to the database `db'` and the text `out'`. -/
inductive ProductivePasses (rules : List Rule) :
    Nat → Database → String → Database → String → Prop
  | none (db : Database) (out : String) : ProductivePasses rules 0 db out db out
  | next (k : Nat) (db : Database) (out : String) (st : RulesState) (db' : Database)
      (out' : String) :
      evaluateRulesPass rules ⟨db, false, out⟩ = some st →
      Enlarges rules db st.database →
      ProductivePasses rules k st.database st.output db' out' →
      ProductivePasses rules (k + 1) db out db' out'

/-- Insertion into the ascending list of a `std::set<int>`. -/
def insertId (id : Nat) : List Nat → List Nat
  | [] => [id]
  | h :: rest =>
    if id < h then id :: h :: rest
    else if h < id then h :: insertId id rest
    else h :: rest

/-- The class `Node`: the `set<int>` of adjacent node ids, in ascending order
(node ids are rule positions, never negative). -/
structure Node where
  /-- The adjacent node ids, ascending. -/
  adjacentNodeIDs : List Nat
deriving DecidableEq

/-- The method `Node::addEdge`. -/
def Node.addEdge (node : Node) (adjacentNodeID : Nat) : Node :=
  ⟨insertId adjacentNodeID node.adjacentNodeIDs⟩

/-- The method `Node::toString`. -/
def Node.toString (node : Node) : String :=
  commaSeparated (node.adjacentNodeIDs.map (fun nodeID => "R" ++ ToString.toString nodeID))

/-- The class `Graph`: the entries of its `map<int, Node>` in ascending key order. -/
structure Graph where
  /-- The entries, by ascending key. -/
  nodes : List (Nat × Node)
deriving DecidableEq

/-- The assignment `nodes[key] = node` on the entries of a `map<int, Node>`. -/
def Graph.store (key : Nat) (node : Node) : List (Nat × Node) → List (Nat × Node)
  | [] => [(key, node)]
  | (k, n) :: rest =>
    if key < k then (key, node) :: (k, n) :: rest
    else if k < key then (k, n) :: Graph.store key node rest
    else (key, node) :: rest

/-- The value of `nodes[key]`: the node stored under `key`, a default-constructed
`Node` when there is none. -/
def Graph.fetch (key : Nat) : List (Nat × Node) → Node
  | [] => ⟨[]⟩
  | (k, n) :: rest => if k = key then n else Graph.fetch key rest

/-- The constructor `Graph(int size)`. -/
def Graph.new (size : Nat) : Graph :=
  ⟨(List.range size).foldl (fun nodes nodeID => Graph.store nodeID ⟨[]⟩ nodes) []⟩

/-- The method `Graph::addEdge`. -/
def Graph.addEdge (graph : Graph) (fromNodeID toNodeID : Nat) : Graph :=
  ⟨Graph.store fromNodeID ((Graph.fetch fromNodeID graph.nodes).addEdge toNodeID) graph.nodes⟩

/-- The method `Graph::toString`. -/
def Graph.toString (graph : Graph) : String :=
  graph.nodes.foldl
    (fun oss pair => oss ++ "R" ++ ToString.toString pair.1 ++ ":" ++ pair.2.toString ++ "\n") ""

/-- The function `Interpreter::makeGraph`. -/
def Interpreter.makeGraph (rules : List Rule) : Graph :=
  rules.enum.foldl
    (fun graph ir =>
      ir.2.bodyPredicates.foldl
        (fun graph bodyPred =>
          rules.enum.foldl
            (fun graph jr =>
              if bodyPred.name = jr.2.headPredicate.name then graph.addEdge ir.1 jr.1
              else graph)
            graph)
        graph)
    (Graph.new rules.length)

/-- Some body atom of rule `i` has the name of the head predicate of rule `j`. -/
def dependsOn (rules : List Rule) (i j : Nat) : Bool :=
  match rules[i]?, rules[j]? with
  | some ri, some rj => ri.bodyPredicates.any (fun b => b.name == rj.headPredicate.name)
  | _, _ => false

/-- The line of node `i` in the text of the dependency graph of `rules`. -/
def graphLine (rules : List Rule) (i : Nat) : String :=
  "R" ++ ToString.toString i ++ ":" ++
    commaSeparated
      (((List.range rules.length).filter (dependsOn rules i)).map
        (fun j => "R" ++ ToString.toString j)) ++ "\n"

/-- The rules of scenario 6: `A(X) :- B(X)`, `B(X) :- A(X),C(X)`, `C(X) :- C(X)`. -/
def scenario6Rules : List Rule :=
  [⟨atom "A" ["X"], [atom "B" ["X"]]⟩,
   ⟨atom "B" ["X"], [atom "A" ["X"], atom "C" ["X"]]⟩,
   ⟨atom "C" ["X"], [atom "C" ["X"]]⟩]

/-- The adjacency list stored for node `i`. -/
def Graph.adjacent (graph : Graph) (i : Nat) : List Nat :=
  (Graph.fetch i graph.nodes).adjacentNodeIDs

/-- The invariant of a graph with the keys `0 .. m-1`: the keys are exactly
these, in order, and every adjacency list is strictly ascending. -/
def Graph.Inv (m : Nat) (graph : Graph) : Prop :=
  graph.nodes.map Prod.fst = List.range m ∧
  ∀ i, (graph.adjacent i).Sorted (· < ·)

/-- The graph `g'` is `g` with the edges `E` added (for graphs with the keys
`0 .. m-1`). -/
def Graph.Adds (m : Nat) (g' g : Graph) (E : Nat → Nat → Prop) : Prop :=
  g.Inv m → g'.Inv m ∧ ∀ i j, j ∈ g'.adjacent i ↔ j ∈ g.adjacent i ∨ E i j

/-- The database of scenario 1: scheme `snap(S,N)`, facts `snap('1','a')` and
`snap('2','b')`. -/
def scenario1Database : Database :=
  evaluateFacts [atom "snap" ["'1'", "'a'"], atom "snap" ["'2'", "'b'"]]
    (evaluateSchemes [atom "snap" ["S", "N"]] Database.empty)

/-- A program the parser accepts whose rule head `q(X,Y)` has one parameter more
than the declared scheme `q(A)`:
`Schemes: p(A,B) q(A)  Facts: p('x','y').  Rules: q(X,Y) :- p(X,Y).  Queries: q(X)?` -/
def longHeadProgram : DatalogProgram :=
  { schemes := [atom "p" ["A", "B"], atom "q" ["A"]]
    facts := [atom "p" ["'x'", "'y'"]]
    rules := [⟨atom "q" ["X", "Y"], [atom "p" ["X", "Y"]]⟩]
    queries := [atom "q" ["X"]] }

/-- The database after `evaluateSchemes`. -/
def DatalogProgram.schemesDatabase (prog : DatalogProgram) : Database :=
  evaluateSchemes prog.schemes Database.empty

/-- Every fact has as many parameters as the scheme declared under its name has
attributes. -/
def DatalogProgram.FactsFit (prog : DatalogProgram) : Prop :=
  ∀ f ∈ prog.facts, f.parameters.length = (prog.schemesDatabase f.name).scheme.length

instance (prog : DatalogProgram) : Decidable prog.FactsFit :=
  inferInstanceAs (Decidable (∀ f ∈ prog.facts, _))

/-- Every relation of the database is well formed. -/
def Database.WellFormed (database : Database) : Prop :=
  ∀ name, (database name).WellFormed

/-- `RuleReachable rules db db'`: the driver gets from the database `db` to `db'`
by processing rules of `rules`, one after the other, any number of times. -/
inductive RuleReachable (rules : List Rule) (db : Database) : Database → Prop
  | start : RuleReachable rules db db
  | step (st st' : RulesState) (rule : Rule) :
      RuleReachable rules db st.database → rule ∈ rules →
      evaluateRulesStep st rule = some st' → RuleReachable rules db st'.database

/-- A program the parser accepts whose fact `p('x')` has one parameter and whose
scheme `p(A,B)` two: `Schemes: p(A,B)  Facts: p('x').  Rules:  Queries: p(X,Y)?` -/
def shortFactProgram : DatalogProgram :=
  { schemes := [atom "p" ["A", "B"]]
    facts := [atom "p" ["'x'"]]
    rules := []
    queries := [atom "p" ["X", "Y"]] }

/-- A program the parser accepts whose query `p(X,Y)` has one parameter more than
the declared scheme `p(A)` and its fact `p('x')`:
`Schemes: p(A)  Facts: p('x').  Rules:  Queries: p(X,Y)?` -/
def longQueryProgram : DatalogProgram :=
  { schemes := [atom "p" ["A"]]
    facts := [atom "p" ["'x'"]]
    rules := []
    queries := [atom "p" ["X", "Y"]] }

/-! ## The scanner (`src/scanner.h`, `src/scanner.cpp`) -/

/-- The enumeration `TokenType`. -/
inductive TokenType where
  | COMMA | STRING | COMMENT | QUERIES | RULES | SCHEMES | FACTS | COLON | COLON_DASH
  | ID | LEFT_PAREN | RIGHT_PAREN | Q_MARK | PERIOD | ADD | MULTIPLY | END | UNDEFINED
deriving DecidableEq

/-- The method `Token::tokenTypeToString`. -/
def TokenType.toString : TokenType → String
  | COMMA => "COMMA" | STRING => "STRING" | COMMENT => "COMMENT" | QUERIES => "QUERIES"
  | RULES => "RULES" | SCHEMES => "SCHEMES" | FACTS => "FACTS" | COLON => "COLON"
  | COLON_DASH => "COLON_DASH" | ID => "ID" | LEFT_PAREN => "LEFT_PAREN"
  | RIGHT_PAREN => "RIGHT_PAREN" | Q_MARK => "Q_MARK" | PERIOD => "PERIOD" | ADD => "ADD"
  | MULTIPLY => "MULTIPLY" | END => "END" | UNDEFINED => "UNDEFINED"

/-- The class `Token`. -/
structure Token where
  /-- The type. -/
  type : TokenType
  /-- The text. -/
  value : String
  /-- The line on which the token starts. -/
  lineNumber : Int
deriving DecidableEq

/-- The method `Token::toString`. -/
def Token.toString (token : Token) : String :=
  "(" ++ token.type.toString ++ ",'" ++ token.value ++ "'," ++
    ToString.toString token.lineNumber ++ ")"

namespace Scanner

/-- The line feed. -/
def newline : Char := Char.ofNat 10

/-- The function `isspace` in the "C" locale (no locale is ever set): blank, tab,
line feed, vertical tab, form feed, carriage return. -/
def isspace (c : Char) : Bool := c.toNat = 32 ∨ (9 ≤ c.toNat ∧ c.toNat ≤ 13)

/-- The function `isalpha` in the "C" locale: `A..Z` and `a..z`. -/
def isalpha (c : Char) : Bool :=
  (65 ≤ c.toNat ∧ c.toNat ≤ 90) ∨ (97 ≤ c.toNat ∧ c.toNat ≤ 122)

/-- The function `isalnum` in the "C" locale: a letter or a digit. -/
def isalnum (c : Char) : Bool := isalpha c || decide (48 ≤ c.toNat ∧ c.toNat ≤ 57)

/-- The type given to an identifier: one of the four keywords, or `ID`. -/
def wordType (value : String) : TokenType :=
  if value = "Queries" then TokenType.QUERIES
  else if value = "Rules" then TokenType.RULES
  else if value = "Schemes" then TokenType.SCHEMES
  else if value = "Facts" then TokenType.FACTS
  else TokenType.ID

/-- One iteration of the loop of `scan` at the character `c = input[i]`, `rest`
being the input after it: the input from the new position `i` on, the new
`lineNumber`, and the token pushed, if any.  The inner loops advance `i` over
the longest run of characters that pass their test: that run is the
`takeWhile` of the input from `i` on, what follows it the `dropWhile`, and
`input.substr(start, i - start)` the characters gone over since `start`. -/
def scanStep (c : Char) (rest : List Char) (lineNumber : Int) :
    List Char × Int × Option Token :=
  if isspace c then
    (rest, (if c = newline then lineNumber + 1 else lineNumber), none)
  else if c = Char.ofNat 44 then
    (rest, lineNumber, some ⟨TokenType.COMMA, ",", lineNumber⟩)
  else if c = quote then
    let body := rest.takeWhile (fun d => d != quote)
    let lineAfter := lineNumber + (body.count newline : Nat)
    match rest.dropWhile (fun d => d != quote) with
    | closing :: after =>
      (after, lineAfter, some ⟨TokenType.STRING, String.mk (c :: body ++ [closing]), lineNumber⟩)
    | [] => ([], lineAfter, some ⟨TokenType.UNDEFINED, String.mk (c :: body), lineNumber⟩)
  else if c = Char.ofNat 35 then
    ((c :: rest).dropWhile (fun d => d != newline), lineNumber, none)
  else if isalpha c then
    let value := String.mk ((c :: rest).takeWhile (fun d => isalnum d || d == Char.ofNat 95))
    ((c :: rest).dropWhile (fun d => isalnum d || d == Char.ofNat 95), lineNumber,
      some ⟨wordType value, value, lineNumber⟩)
  else if c = Char.ofNat 58 then
    match rest with
    | d :: after =>
      if d = Char.ofNat 45 then
        (after, lineNumber, some ⟨TokenType.COLON_DASH, ":-", lineNumber⟩)
      else (rest, lineNumber, some ⟨TokenType.COLON, ":", lineNumber⟩)
    | [] => (rest, lineNumber, some ⟨TokenType.COLON, ":", lineNumber⟩)
  else if c = Char.ofNat 40 then
    (rest, lineNumber, some ⟨TokenType.LEFT_PAREN, "(", lineNumber⟩)
  else if c = Char.ofNat 41 then
    (rest, lineNumber, some ⟨TokenType.RIGHT_PAREN, ")", lineNumber⟩)
  else if c = Char.ofNat 63 then
    (rest, lineNumber, some ⟨TokenType.Q_MARK, "?", lineNumber⟩)
  else if c = Char.ofNat 46 then
    (rest, lineNumber, some ⟨TokenType.PERIOD, ".", lineNumber⟩)
  else if c = Char.ofNat 43 then
    (rest, lineNumber, some ⟨TokenType.ADD, "+", lineNumber⟩)
  else if c = Char.ofNat 42 then
    (rest, lineNumber, some ⟨TokenType.MULTIPLY, "*", lineNumber⟩)
  else
    (rest, lineNumber, some ⟨TokenType.UNDEFINED, String.mk [c], lineNumber⟩)

/-- The loop of `scan`: the input from position `i` on, `lineNumber` and `tokens`.
One unit of the first argument is used for each iteration, and `none` means
that it was too small. -/
def scanLoop : Nat → List Char → Int → List Token → Option (List Token × Int)
  | _, [], lineNumber, tokens => some (tokens, lineNumber)
  | 0, _ :: _, _, _ => none
  | fuel + 1, c :: rest, lineNumber, tokens =>
    let step := scanStep c rest lineNumber
    scanLoop fuel step.1 step.2.1
      (match step.2.2 with
        | some token => tokens ++ [token]
        | none => tokens)

/-- The method `Scanner::scan` followed by `getTokens`: the tokens of `input`.
On the empty input the loop makes no iteration and the token `END` of line 1
is the only one, which is what the early return of the source gives.  The loop
never needs more iterations than the input has characters (`scanLoop_isSome`). -/
def scan (input : String) : List Token :=
  match scanLoop input.data.length input.data 1 [] with
  | some (tokens, lineNumber) => tokens ++ [⟨TokenType.END, "", lineNumber⟩]
  | none => []

end Scanner

/-- What `scan` guarantees of a token it pushes inside its loop: the type is not
`END`, a `STRING` is a quote, a body and a quote, and an `ID` starts with a
letter. -/
def Scanner.Emitted (token : Token) : Prop :=
  token.type ≠ TokenType.END ∧
  (token.type = TokenType.STRING →
    ∃ body : List Char, token.value = String.mk (quote :: body ++ [quote])) ∧
  (token.type = TokenType.ID →
    ∃ (c : Char) (cs : List Char), token.value = String.mk (c :: cs) ∧ Scanner.isalpha c = true)

/-! ## The parser (`src/parser.cpp`) -/

deriving instance DecidableEq for DatalogProgram

/-- The method `Predicate::addParameter`. -/
def Predicate.addParameter (p : Predicate) (q : Parameter) : Predicate :=
  { p with parameters := p.parameters ++ [q] }

/-- The method `Rule::addBodyPredicate`. -/
def Rule.addBodyPredicate (r : Rule) (p : Predicate) : Rule :=
  { r with bodyPredicates := r.bodyPredicates ++ [p] }

/-- The class `Parser`: the tokens, the program built so far and the index of
the current token. -/
structure Parser where
  /-- The tokens. -/
  tokens : List Token
  /-- The program built so far. -/
  datalogProgram : DatalogProgram
  /-- The index of the current token. -/
  currentTokenIndex : Nat
deriving DecidableEq

/-- How a call of a method of the parser ends. -/
inductive Outcome (α : Type) where
  /-- The call returns `value` and leaves the parser in the state `parser`. -/
  | ok (value : α) (parser : Parser)
  /-- The method `match` throws `runtime_error(message)`. -/
  | thrown (message : String)
  /-- The call reads `tokens[currentTokenIndex]` in the state `parser`, in which
  `currentTokenIndex` is not below `tokens.size()`.  What the program does from
  there is not defined; the run is followed no further. -/
  | outOfRange (parser : Parser)
  /-- The depth allowed to the recursion is used up. -/
  | unfinished
deriving DecidableEq

/-- A method of the parser: from the state to the way the call ends.  The
recursive list methods are written with the state as an explicit argument,
`Parser → Outcome α`, which is this type. -/
def ParserM (α : Type) : Type := Parser → Outcome α

/-- A call that returns `value` and does nothing else. -/
def ParserM.pure {α : Type} (value : α) : ParserM α := fun parser => Outcome.ok value parser

/-- A call followed by what is done with its result; anything but a return ends
the whole. -/
def ParserM.bind {α β : Type} (m : ParserM α) (f : α → ParserM β) : ParserM β :=
  fun parser =>
    match m parser with
    | Outcome.ok value parser' => f value parser'
    | Outcome.thrown message => Outcome.thrown message
    | Outcome.outOfRange parser' => Outcome.outOfRange parser'
    | Outcome.unfinished => Outcome.unfinished

instance : Monad ParserM where
  pure := ParserM.pure
  bind := ParserM.bind

namespace Parser

/-- The read `tokens[currentTokenIndex]`. -/
def currentToken : ParserM Token := fun parser =>
  match parser.tokens[parser.currentTokenIndex]? with
  | some token => Outcome.ok token parser
  | none => Outcome.outOfRange parser

/-- The statement `currentTokenIndex++`. -/
def advance : ParserM Unit := fun parser =>
  Outcome.ok () { parser with currentTokenIndex := parser.currentTokenIndex + 1 }

/-- The statement `throw runtime_error(message)`. -/
def throwRuntimeError {α : Type} (message : String) : ParserM α := fun _ => Outcome.thrown message

/-- A change of `datalogProgram`. -/
def modifyProgram (f : DatalogProgram → DatalogProgram) : ParserM Unit := fun parser =>
  Outcome.ok () { parser with datalogProgram := f parser.datalogProgram }

/-- The loop of `skipComments`; `rest` holds the tokens from index `i` on.  It ends
at the first token that is neither a `COMMENT` nor `UNDEFINED`, or by the read
of `tokens[i]` past the last token. -/
def skipCommentsLoop (parser : Parser) : List Token → Nat → Outcome Unit
  | [], i => Outcome.outOfRange { parser with currentTokenIndex := i }
  | token :: rest, i =>
    if token.type = TokenType.COMMENT ∨ token.type = TokenType.UNDEFINED then
      skipCommentsLoop parser rest (i + 1)
    else Outcome.ok () { parser with currentTokenIndex := i }

/-- The method `skipComments`. -/
def skipComments : ParserM Unit := fun parser =>
  skipCommentsLoop parser (parser.tokens.drop parser.currentTokenIndex) parser.currentTokenIndex

/-- Where the loop of `skipComments` stops on the tokens from index `i` on: the
index, and whether the token read there exists. -/
def skipCommentsFrom : List Token → Nat → Nat × Bool
  | [], i => (i, false)
  | token :: rest, i =>
    if token.type = TokenType.COMMENT ∨ token.type = TokenType.UNDEFINED then
      skipCommentsFrom rest (i + 1)
    else (i, true)

/-- The method `match`. -/
def matchToken (expectedType : TokenType) : ParserM Unit := do
  skipComments
  let token ← currentToken
  if token.type = expectedType then do
    advance
    skipComments
  else
    throwRuntimeError token.toString

/-- The method `idList`. -/
def idList : Nat → Predicate → Parser → Outcome Predicate
  | 0, _, _ => Outcome.unfinished
  | fuel + 1, p, parser =>
    (do
      let token ← currentToken
      if token.type = TokenType.RIGHT_PAREN then pure p
      else do
        matchToken TokenType.COMMA
        let token ← currentToken
        matchToken TokenType.ID
        idList fuel (p.addParameter ⟨token.value⟩) : ParserM Predicate) parser

/-- The method `stringList`. -/
def stringList : Nat → Predicate → Parser → Outcome Predicate
  | 0, _, _ => Outcome.unfinished
  | fuel + 1, p, parser =>
    (do
      let token ← currentToken
      if token.type = TokenType.RIGHT_PAREN then pure p
      else do
        matchToken TokenType.COMMA
        let token ← currentToken
        matchToken TokenType.STRING
        stringList fuel (p.addParameter ⟨token.value⟩) : ParserM Predicate) parser

/-- The method `parameterList`. -/
def parameterList : Nat → Predicate → Parser → Outcome Predicate
  | 0, _, _ => Outcome.unfinished
  | fuel + 1, p, parser =>
    (do
      let token ← currentToken
      if token.type = TokenType.RIGHT_PAREN then pure p
      else do
        matchToken TokenType.COMMA
        let token ← currentToken
        if token.type = TokenType.STRING then do
          matchToken TokenType.STRING
          parameterList fuel (p.addParameter ⟨token.value⟩)
        else do
          matchToken TokenType.ID
          parameterList fuel (p.addParameter ⟨token.value⟩) : ParserM Predicate) parser

/-- The method `headPredicate`; the methods `scheme` use the same statements. -/
def headPredicate (fuel : Nat) : ParserM Predicate := do
  let nameToken ← currentToken
  matchToken TokenType.ID
  matchToken TokenType.LEFT_PAREN
  let token ← currentToken
  matchToken TokenType.ID
  let p ← idList fuel ((Predicate.mk nameToken.value []).addParameter ⟨token.value⟩)
  matchToken TokenType.RIGHT_PAREN
  pure p

/-- The method `scheme`. -/
def scheme (fuel : Nat) : ParserM Unit := do
  let nameToken ← currentToken
  matchToken TokenType.ID
  matchToken TokenType.LEFT_PAREN
  let token ← currentToken
  matchToken TokenType.ID
  let p ← idList fuel ((Predicate.mk nameToken.value []).addParameter ⟨token.value⟩)
  matchToken TokenType.RIGHT_PAREN
  modifyProgram (fun program => { program with schemes := program.schemes ++ [p] })

/-- The method `fact`. -/
def fact (fuel : Nat) : ParserM Unit := do
  let nameToken ← currentToken
  matchToken TokenType.ID
  matchToken TokenType.LEFT_PAREN
  let token ← currentToken
  matchToken TokenType.STRING
  let p ← stringList fuel ((Predicate.mk nameToken.value []).addParameter ⟨token.value⟩)
  matchToken TokenType.RIGHT_PAREN
  matchToken TokenType.PERIOD
  modifyProgram (fun program => { program with facts := program.facts ++ [p] })

/-- The method `predicate`. -/
def predicate (fuel : Nat) : ParserM Predicate := do
  let nameToken ← currentToken
  matchToken TokenType.ID
  matchToken TokenType.LEFT_PAREN
  let token ← currentToken
  if token.type = TokenType.STRING then do
    matchToken TokenType.STRING
    let p ← parameterList fuel ((Predicate.mk nameToken.value []).addParameter ⟨token.value⟩)
    matchToken TokenType.RIGHT_PAREN
    pure p
  else do
    matchToken TokenType.ID
    let p ← parameterList fuel ((Predicate.mk nameToken.value []).addParameter ⟨token.value⟩)
    matchToken TokenType.RIGHT_PAREN
    pure p

/-- The method `predicateList`. -/
def predicateList : Nat → Rule → Parser → Outcome Rule
  | 0, _, _ => Outcome.unfinished
  | fuel + 1, r, parser =>
    (do
      let token ← currentToken
      if token.type = TokenType.PERIOD then pure r
      else do
        matchToken TokenType.COMMA
        let p ← predicate (fuel + 1)
        predicateList fuel (r.addBodyPredicate p) : ParserM Rule) parser

/-- The method `rule`. -/
def rule (fuel : Nat) : ParserM Unit := do
  let head ← headPredicate fuel
  matchToken TokenType.COLON_DASH
  let p ← predicate fuel
  let r ← predicateList fuel ((Rule.mk head []).addBodyPredicate p)
  matchToken TokenType.PERIOD
  modifyProgram (fun program => { program with rules := program.rules ++ [r] })

/-- The method `query`. -/
def query (fuel : Nat) : ParserM Unit := do
  let p ← predicate fuel
  matchToken TokenType.Q_MARK
  modifyProgram (fun program => { program with queries := program.queries ++ [p] })

/-- The method `schemeList`. -/
def schemeList : Nat → Parser → Outcome Unit
  | 0, _ => Outcome.unfinished
  | fuel + 1, parser =>
    (do
      let token ← currentToken
      if token.type = TokenType.FACTS then pure ()
      else do
        scheme (fuel + 1)
        schemeList fuel : ParserM Unit) parser

/-- The method `factList`. -/
def factList : Nat → Parser → Outcome Unit
  | 0, _ => Outcome.unfinished
  | fuel + 1, parser =>
    (do
      let token ← currentToken
      if token.type = TokenType.RULES then pure ()
      else do
        fact (fuel + 1)
        factList fuel : ParserM Unit) parser

/-- The method `ruleList`. -/
def ruleList : Nat → Parser → Outcome Unit
  | 0, _ => Outcome.unfinished
  | fuel + 1, parser =>
    (do
      let token ← currentToken
      if token.type = TokenType.QUERIES then pure ()
      else do
        rule (fuel + 1)
        ruleList fuel : ParserM Unit) parser

/-- The method `queryList`. -/
def queryList : Nat → Parser → Outcome Unit
  | 0, _ => Outcome.unfinished
  | fuel + 1, parser =>
    (do
      let token ← currentToken
      if token.type = TokenType.END then pure ()
      else do
        query (fuel + 1)
        queryList fuel : ParserM Unit) parser

/-- The method `datalogProgramParse`. -/
def datalogProgramParse (fuel : Nat) : ParserM Unit := do
  matchToken TokenType.SCHEMES
  matchToken TokenType.COLON
  scheme fuel
  schemeList fuel
  matchToken TokenType.FACTS
  matchToken TokenType.COLON
  factList fuel
  matchToken TokenType.RULES
  matchToken TokenType.COLON
  ruleList fuel
  matchToken TokenType.QUERIES
  matchToken TokenType.COLON
  query fuel
  queryList fuel
  matchToken TokenType.END

/-- The constructor `Parser(tokens)` followed by the method `parse`.  No list
method recurses deeper than the number of tokens. -/
def parse (tokens : List Token) : Outcome Unit :=
  datalogProgramParse (tokens.length + 1) ⟨tokens, ⟨[], [], [], []⟩, 0⟩

end Parser

/-- The call returns or throws: it makes no read past the end of the tokens and
stays within the depth allowed; when it returns, `Q` holds of the value and of
the state. -/
def Outcome.Returns {α : Type} (outcome : Outcome α) (Q : α → Parser → Prop) : Prop :=
  match outcome with
  | Outcome.ok value parser => Q value parser
  | Outcome.thrown _ => True
  | Outcome.outOfRange _ => False
  | Outcome.unfinished => False

/-- The token list is as `scan` builds it: the last token has the type `END` and
no other token has. -/
def ScannerLike (tokens : List Token) : Prop :=
  ∃ (pushed : List Token) (last : Token), tokens = pushed ++ [last] ∧
    last.type = TokenType.END ∧ ∀ token ∈ pushed, token.type ≠ TokenType.END

/-- The current token, when there is one, is neither a `COMMENT` nor `UNDEFINED`:
the state `skipComments` leaves. -/
def Parser.Settled (parser : Parser) : Prop :=
  ∀ token, parser.tokens[parser.currentTokenIndex]? = some token →
    token.type ≠ TokenType.COMMENT ∧ token.type ≠ TokenType.UNDEFINED

/-- Every parameter of the atom is the text of a token of `tokens` whose type is
one of `allowed`. -/
def Predicate.FromTokens (tokens : List Token) (allowed : List TokenType) (p : Predicate) :
    Prop :=
  ∀ q ∈ p.parameters, ∃ token ∈ tokens, token.type ∈ allowed ∧ token.value = q.value

/-- The parameters of a rule come from the tokens: identifiers in the head,
strings or identifiers in the body. -/
def Rule.FromTokens (tokens : List Token) (r : Rule) : Prop :=
  r.headPredicate.FromTokens tokens [TokenType.ID] ∧
  ∀ b ∈ r.bodyPredicates, b.FromTokens tokens [TokenType.STRING, TokenType.ID]

/-- The parameters of a program come from the tokens: identifiers in the schemes
and the rule heads, strings in the facts, strings or identifiers in the rule
bodies and the queries. -/
def DatalogProgram.FromTokens (tokens : List Token) (program : DatalogProgram) : Prop :=
  (∀ p ∈ program.schemes, p.FromTokens tokens [TokenType.ID]) ∧
  (∀ p ∈ program.facts, p.FromTokens tokens [TokenType.STRING]) ∧
  (∀ r ∈ program.rules, r.FromTokens tokens) ∧
  (∀ p ∈ program.queries, p.FromTokens tokens [TokenType.STRING, TokenType.ID])

/-- The states of the parser between two calls of its methods on the tokens
`tokens`: the current index is at least `i` and inside the tokens, the current
token is settled, and the program built so far comes from the tokens. -/
def Parser.Inv (tokens : List Token) (i : Nat) (parser : Parser) : Prop :=
  parser.tokens = tokens ∧ i ≤ parser.currentTokenIndex ∧
  parser.currentTokenIndex < tokens.length ∧ parser.Settled ∧
  parser.datalogProgram.FromTokens tokens

/-- The call throws, or it reads `tokens[currentTokenIndex]` past the end of the
tokens in a state of which `E` holds; it does not return. -/
def Outcome.ReadsPastEnd {α : Type} (outcome : Outcome α) (E : Parser → Prop) : Prop :=
  match outcome with
  | Outcome.ok _ _ => False
  | Outcome.thrown _ => True
  | Outcome.outOfRange parser => E parser
  | Outcome.unfinished => False

/-- The program `parse` has built when it has gone through the grammar: when it
returns, or when the run ends at a read past the end of the tokens (on the
tokens of `scan` that read is the last action of `match(END)`, see
`Parser.parse_spec`); `none` when it throws. -/
def Parser.parsed (tokens : List Token) : Option DatalogProgram :=
  match Parser.parse tokens with
  | Outcome.ok _ parser => some parser.datalogProgram
  | Outcome.outOfRange parser => some parser.datalogProgram
  | Outcome.thrown _ => none
  | Outcome.unfinished => none

/-- The smallest kind of program text the grammar accepts: one scheme, no fact,
no rule, one query. -/
def smallProgramText : String := "Schemes: p(A) Facts: Rules: Queries: p(X)?"

/-- The program of `smallProgramText`. -/
def smallProgram : DatalogProgram :=
  { schemes := [atom "p" ["A"]], facts := [], rules := [], queries := [atom "p" ["X"]] }

/-- The text of scenario 3. -/
def scenario3Text : String :=
  "Schemes: e(X,Y) tc(X,Y)\nFacts: e('1','2'). e('2','3'). e('3','4').\n" ++
    "Rules: tc(X,Y) :- e(X,Y). tc(X,Y) :- e(X,Z),tc(Z,Y).\nQueries: tc('1',W)?\n"

/-! ## Lemmas on sets of tuples and on the relational operations -/

theorem TupleSet.mem_def (s : TupleSet) (t : Tuple) : t ∈ s ↔ t ∈ s.elems := Iff.rfl

theorem TupleSet.not_mem_empty (t : Tuple) : ¬ t ∈ TupleSet.empty := by
  simp [TupleSet.mem_def, TupleSet.empty]

theorem TupleSet.mem_insert (s : TupleSet) (t x : Tuple) :
    x ∈ s.insert t ↔ x = t ∨ x ∈ s := by
  simp [TupleSet.mem_def, TupleSet.insert, mem_insertSorted]

theorem TupleSet.mem_erase (s : TupleSet) (t x : Tuple) :
    x ∈ s.erase t ↔ x ∈ s ∧ x ≠ t := by
  simp [TupleSet.mem_def, TupleSet.erase, mem_eraseSorted _ _ _ s.ascending]

theorem ascending_nodup (l : List Tuple) (hl : Ascending l) : l.Nodup := by
  refine List.Pairwise.imp ?_ hl
  intro a b hab heq
  subst heq
  simp [Tuple.lt_irrefl] at hab

theorem ascending_ext (l₁ l₂ : List Tuple) (h₁ : Ascending l₁) (h₂ : Ascending l₂)
    (h : ∀ t, t ∈ l₁ ↔ t ∈ l₂) : l₁ = l₂ := by
  have hperm : l₁.Perm l₂ :=
    (List.perm_ext_iff_of_nodup (ascending_nodup l₁ h₁) (ascending_nodup l₂ h₂)).mpr h
  haveI : IsAntisymm Tuple (fun a b => Tuple.lt a b = true) :=
    ⟨fun a b hab hba => by
      have := Tuple.lt_trans hab hba
      simp [Tuple.lt_irrefl] at this⟩
  exact List.eq_of_perm_of_sorted hperm h₁ h₂

theorem TupleSet.ext (a b : TupleSet) (h : ∀ t, t ∈ a ↔ t ∈ b) : a = b := by
  cases a with
  | mk ea ha =>
    cases b with
    | mk eb hb =>
      have : ea = eb := ascending_ext ea eb ha hb h
      subst this
      rfl


theorem Relation.adds_refl (res : Relation) (P : Tuple → Prop) (h : ∀ t, ¬ P t) :
    Relation.Adds res res P :=
  ⟨rfl, rfl, fun t => by simp [h t]⟩

theorem Relation.adds_addTuple (res : Relation) (x : Tuple) :
    Relation.Adds (res.addTuple x) res (fun t => t = x) :=
  ⟨rfl, rfl, fun t => by simp [Relation.addTuple, TupleSet.mem_insert, or_comm]⟩

theorem Relation.adds_congr {res' res : Relation} {P Q : Tuple → Prop}
    (h : Relation.Adds res' res P) (hPQ : ∀ t, P t ↔ Q t) : Relation.Adds res' res Q :=
  ⟨h.1, h.2.1, fun t => by rw [h.2.2 t, hPQ t]⟩

theorem Relation.foldl_adds {α : Type} (step : Relation → α → Relation)
    (S : α → Tuple → Prop) (l : List α)
    (h : ∀ res x, x ∈ l → Relation.Adds (step res x) res (S x)) (init : Relation) :
    Relation.Adds (l.foldl step init) init (fun t => ∃ x ∈ l, S x t) := by
  induction l generalizing init with
  | nil => exact ⟨rfl, rfl, fun t => by simp⟩
  | cons a as ih =>
    have h₁ := h init a (List.mem_cons_self a as)
    have h₂ := ih (fun res x hx => h res x (List.mem_cons_of_mem a hx)) (step init a)
    refine ⟨h₂.1.trans h₁.1, h₂.2.1.trans h₁.2.1, fun t => ?_⟩
    simp only [List.foldl_cons, h₂.2.2 t, h₁.2.2 t, List.mem_cons, exists_eq_or_imp]
    tauto

theorem Relation.adds_ite (res : Relation) (c : Prop) [Decidable c] (x : Tuple) :
    Relation.Adds (if c then res.addTuple x else res) res (fun t => c ∧ t = x) := by
  by_cases hc : c
  · rw [if_pos hc]
    exact Relation.adds_congr (Relation.adds_addTuple res x) (fun t => by simp [hc])
  · rw [if_neg hc]
    exact Relation.adds_refl res _ (fun t ht => hc ht.1)

theorem Relation.select_adds (r : Relation) (index : Int) (value : String) :
    Relation.Adds (r.select index value) ⟨r.name, r.scheme, TupleSet.empty⟩
      (fun t => ∃ x ∈ r.tuples.elems,
        (0 ≤ index ∧ index < (x.length : Int) ∧ x[index.toNat]? = some value) ∧ t = x) := by
  unfold Relation.select
  exact Relation.foldl_adds _
    (fun x t => (0 ≤ index ∧ index < (x.length : Int) ∧ x[index.toNat]? = some value) ∧ t = x)
    r.tuples.elems (fun res x _ => Relation.adds_ite res _ x) _

theorem Relation.mem_select (r : Relation) (index : Int) (value : String) (t : Tuple) :
    t ∈ (r.select index value).tuples ↔
      t ∈ r.tuples ∧ 0 ≤ index ∧ index < (t.length : Int) ∧
        t[index.toNat]? = some value := by
  rw [(Relation.select_adds r index value).2.2 t]
  simp only [TupleSet.mem_def, TupleSet.empty, List.not_mem_nil, false_or]
  constructor
  · rintro ⟨x, hx, hc, rfl⟩
    exact ⟨hx, hc⟩
  · rintro ⟨hx, hc⟩
    exact ⟨t, hx, hc, rfl⟩

theorem Relation.scheme_select (r : Relation) (index : Int) (value : String) :
    (r.select index value).scheme = r.scheme :=
  (Relation.select_adds r index value).2.1

theorem Relation.name_select (r : Relation) (index : Int) (value : String) :
    (r.select index value).name = r.name :=
  (Relation.select_adds r index value).1

theorem Relation.select2_adds (r : Relation) (index1 index2 : Int) :
    Relation.Adds (r.select2 index1 index2) ⟨r.name, r.scheme, TupleSet.empty⟩
      (fun t => ∃ x ∈ r.tuples.elems,
        (0 ≤ index1 ∧ index1 < (x.length : Int) ∧ 0 ≤ index2 ∧ index2 < (x.length : Int) ∧
          x[index1.toNat]? = x[index2.toNat]?) ∧ t = x) := by
  unfold Relation.select2
  exact Relation.foldl_adds _
    (fun x t => (0 ≤ index1 ∧ index1 < (x.length : Int) ∧ 0 ≤ index2 ∧
      index2 < (x.length : Int) ∧ x[index1.toNat]? = x[index2.toNat]?) ∧ t = x)
    r.tuples.elems (fun res x _ => Relation.adds_ite res _ x) _

theorem Relation.mem_select2 (r : Relation) (index1 index2 : Int) (t : Tuple) :
    t ∈ (r.select2 index1 index2).tuples ↔
      t ∈ r.tuples ∧ 0 ≤ index1 ∧ index1 < (t.length : Int) ∧
        0 ≤ index2 ∧ index2 < (t.length : Int) ∧
        t[index1.toNat]? = t[index2.toNat]? := by
  rw [(Relation.select2_adds r index1 index2).2.2 t]
  simp only [TupleSet.mem_def, TupleSet.empty, List.not_mem_nil, false_or]
  constructor
  · rintro ⟨x, hx, hc, rfl⟩
    exact ⟨hx, hc⟩
  · rintro ⟨hx, hc⟩
    exact ⟨t, hx, hc, rfl⟩

theorem Relation.scheme_select2 (r : Relation) (index1 index2 : Int) :
    (r.select2 index1 index2).scheme = r.scheme :=
  (Relation.select2_adds r index1 index2).2.1

theorem Relation.name_select2 (r : Relation) (index1 index2 : Int) :
    (r.select2 index1 index2).name = r.name :=
  (Relation.select2_adds r index1 index2).1

theorem Relation.project_adds (r : Relation) (indices : List Int) :
    Relation.Adds (r.project indices)
      ⟨r.name, Relation.pickColumns r.scheme indices, TupleSet.empty⟩
      (fun t => ∃ x ∈ r.tuples.elems, t = Relation.pickColumns x indices) := by
  unfold Relation.project
  exact Relation.foldl_adds _ (fun x t => t = Relation.pickColumns x indices)
    r.tuples.elems (fun res x _ => Relation.adds_addTuple res _) _

theorem Relation.mem_project (r : Relation) (indices : List Int) (t : Tuple) :
    t ∈ (r.project indices).tuples ↔
      ∃ x, x ∈ r.tuples ∧ t = Relation.pickColumns x indices := by
  rw [(Relation.project_adds r indices).2.2 t]
  simp [TupleSet.mem_def, TupleSet.empty]

theorem Relation.scheme_project (r : Relation) (indices : List Int) :
    (r.project indices).scheme = Relation.pickColumns r.scheme indices :=
  (Relation.project_adds r indices).2.1

theorem Relation.name_project (r : Relation) (indices : List Int) :
    (r.project indices).name = r.name :=
  (Relation.project_adds r indices).1

theorem Relation.rename_adds (r : Relation) (newAttributes : List String) :
    Relation.Adds (r.rename newAttributes) ⟨r.name, newAttributes, TupleSet.empty⟩
      (fun t => ∃ x ∈ r.tuples.elems, t = x) := by
  unfold Relation.rename
  exact Relation.foldl_adds _ (fun x t => t = x)
    r.tuples.elems (fun res x _ => Relation.adds_addTuple res _) _

theorem Relation.tuples_rename (r : Relation) (newAttributes : List String) :
    (r.rename newAttributes).tuples = r.tuples := by
  apply TupleSet.ext
  intro t
  rw [(Relation.rename_adds r newAttributes).2.2 t]
  simp [TupleSet.mem_def, TupleSet.empty]

theorem Relation.scheme_rename (r : Relation) (newAttributes : List String) :
    (r.rename newAttributes).scheme = newAttributes :=
  (Relation.rename_adds r newAttributes).2.1

theorem Relation.name_rename (r : Relation) (newAttributes : List String) :
    (r.rename newAttributes).name = r.name :=
  (Relation.rename_adds r newAttributes).1

theorem Relation.unionWith_adds (r other : Relation) :
    Relation.Adds (r.unionWith other) r (fun t => ∃ x ∈ other.tuples.elems, t = x) := by
  unfold Relation.unionWith
  exact Relation.foldl_adds _ (fun x t => t = x)
    other.tuples.elems (fun res x _ => Relation.adds_addTuple res _) _

theorem Relation.mem_unionWith (r other : Relation) (t : Tuple) :
    t ∈ (r.unionWith other).tuples ↔ t ∈ r.tuples ∨ t ∈ other.tuples := by
  rw [(Relation.unionWith_adds r other).2.2 t]
  simp [TupleSet.mem_def]

theorem Relation.join_adds (r other : Relation) :
    Relation.Adds (r.join other)
      ⟨r.name, Relation.joinScheme r.scheme other.scheme, TupleSet.empty⟩
      (fun t => ∃ t₁ ∈ r.tuples.elems, ∃ t₂ ∈ other.tuples.elems,
        (Relation.joinTuples r.scheme t₁ t₂ other.scheme 0 t₁ true).2 = true ∧
          t = (Relation.joinTuples r.scheme t₁ t₂ other.scheme 0 t₁ true).1) := by
  unfold Relation.join
  exact Relation.foldl_adds _
    (fun t₁ t => ∃ t₂ ∈ other.tuples.elems,
      (Relation.joinTuples r.scheme t₁ t₂ other.scheme 0 t₁ true).2 = true ∧
        t = (Relation.joinTuples r.scheme t₁ t₂ other.scheme 0 t₁ true).1)
    r.tuples.elems
    (fun res t₁ _ =>
      Relation.foldl_adds _
        (fun t₂ t => (Relation.joinTuples r.scheme t₁ t₂ other.scheme 0 t₁ true).2 = true ∧
          t = (Relation.joinTuples r.scheme t₁ t₂ other.scheme 0 t₁ true).1)
        other.tuples.elems
        (fun res' t₂ _ => Relation.adds_ite res' _ _) res) _

theorem Relation.mem_join (r other : Relation) (t : Tuple) :
    t ∈ (r.join other).tuples ↔
      ∃ t₁, t₁ ∈ r.tuples ∧ ∃ t₂, t₂ ∈ other.tuples ∧
        (Relation.joinTuples r.scheme t₁ t₂ other.scheme 0 t₁ true).2 = true ∧
          t = (Relation.joinTuples r.scheme t₁ t₂ other.scheme 0 t₁ true).1 := by
  rw [(Relation.join_adds r other).2.2 t]
  simp [TupleSet.mem_def, TupleSet.empty]

theorem Relation.scheme_join (r other : Relation) :
    (r.join other).scheme = Relation.joinScheme r.scheme other.scheme :=
  (Relation.join_adds r other).2.1

theorem Relation.name_join (r other : Relation) : (r.join other).name = r.name :=
  (Relation.join_adds r other).1

theorem Relation.ext' (a b : Relation) (hn : a.name = b.name) (hs : a.scheme = b.scheme)
    (ht : ∀ t, t ∈ a.tuples ↔ t ∈ b.tuples) : a = b := by
  cases a with
  | mk na sa ta =>
    cases b with
    | mk nb sb tb =>
      simp only at hn hs ht
      subst hn hs
      rw [TupleSet.ext ta tb ht]

/-- C10: for a well-formed relation `R` and columns `i`, `j` of its scheme,
`select(i, v)` keeps the scheme and exactly the tuples with `t[i] = v`,
`select(i, j)` keeps the scheme and exactly the tuples with `t[i] = t[j]`;
selecting twice by the same value changes nothing more, and `select(i, i)` is `R`. -/
theorem select_exact_filter (R : Relation) (i j : Nat) (v : String)
    (hR : R.WellFormed) (hi : i < R.scheme.length) (hj : j < R.scheme.length) :
    (R.select (i : Int) v).scheme = R.scheme ∧
    (∀ t, t ∈ (R.select (i : Int) v).tuples ↔ t ∈ R.tuples ∧ t[i]? = some v) ∧
    (R.select2 (i : Int) (j : Int)).scheme = R.scheme ∧
    (∀ t, t ∈ (R.select2 (i : Int) (j : Int)).tuples ↔ t ∈ R.tuples ∧ t[i]? = t[j]?) ∧
    (R.select (i : Int) v).select (i : Int) v = R.select (i : Int) v ∧
    R.select2 (i : Int) (i : Int) = R := by
  have hlen : ∀ t, t ∈ R.tuples → i < t.length ∧ j < t.length := by
    intro t ht
    have := hR t ht
    omega
  have hsel : ∀ t, t ∈ (R.select (i : Int) v).tuples ↔ t ∈ R.tuples ∧ t[i]? = some v := by
    intro t
    rw [Relation.mem_select]
    constructor
    · rintro ⟨ht, _, _, h⟩
      exact ⟨ht, by simpa using h⟩
    · rintro ⟨ht, h⟩
      have := (hlen t ht).1
      exact ⟨ht, by omega, by omega, by simpa using h⟩
  refine ⟨Relation.scheme_select R _ v, hsel, Relation.scheme_select2 R _ _, ?_, ?_, ?_⟩
  · intro t
    rw [Relation.mem_select2]
    constructor
    · rintro ⟨ht, _, _, _, _, h⟩
      exact ⟨ht, by simpa using h⟩
    · rintro ⟨ht, h⟩
      have := hlen t ht
      exact ⟨ht, by omega, by omega, by omega, by omega, by simpa using h⟩
  · apply Relation.ext'
    · rw [Relation.name_select]
    · rw [Relation.scheme_select]
    · intro t
      rw [Relation.mem_select _ _ _ t]
      constructor
      · exact fun h => h.1
      · intro h
        exact ⟨h, ((Relation.mem_select R _ v t).mp h).2⟩
  · apply Relation.ext'
    · rw [Relation.name_select2]
    · rw [Relation.scheme_select2]
    · intro t
      rw [Relation.mem_select2]
      constructor
      · exact fun h => h.1
      · intro ht
        have := hlen t ht
        exact ⟨ht, by omega, by omega, by omega, by omega, rfl⟩

/-- C10 at the relation of scenario 2, columns 0 and 1, value `'x'`. -/
theorem select_exact_filter_witness :
    scenario2Relation.WellFormed ∧
    (scenario2Relation.select 0 "'x'").scheme = scenario2Relation.scheme ∧
    (∀ t, t ∈ (scenario2Relation.select 0 "'x'").tuples ↔
      t ∈ scenario2Relation.tuples ∧ t[0]? = some "'x'") ∧
    (scenario2Relation.select2 0 1).scheme = scenario2Relation.scheme ∧
    (∀ t, t ∈ (scenario2Relation.select2 0 1).tuples ↔
      t ∈ scenario2Relation.tuples ∧ t[0]? = t[1]?) ∧
    (scenario2Relation.select 0 "'x'").select 0 "'x'" = scenario2Relation.select 0 "'x'" ∧
    scenario2Relation.select2 0 0 = scenario2Relation :=
  ⟨by decide, select_exact_filter scenario2Relation 0 1 "'x'" (by decide) (by decide) (by decide)⟩

theorem isFirstVariable_append_of_lt (pre : List String) (x : String) (i : Nat)
    (hi : i < pre.length) :
    isFirstVariable (pre ++ [x]) i = isFirstVariable pre i := by
  unfold isFirstVariable
  rw [List.getElem?_append_left hi]
  have hget : pre[i]? = some pre[i] := List.getElem?_eq_getElem hi
  rw [hget]
  have hmem : pre[i] ∈ pre := List.getElem_mem hi
  simp only [List.indexOf_append_of_mem hmem]

theorem isFirstVariable_append_self (pre : List String) (x : String) :
    isFirstVariable (pre ++ [x]) pre.length = (!startsWithQuote x && decide (x ∉ pre)) := by
  unfold isFirstVariable
  simp only [List.getElem?_concat_length]
  by_cases hx : x ∈ pre
  · have h1 : (pre ++ [x]).indexOf x = pre.indexOf x := List.indexOf_append_of_mem hx
    have h2 : pre.indexOf x < pre.length := List.indexOf_lt_length.mpr hx
    have h3 : ((pre ++ [x]).indexOf x == pre.length) = false := by
      rw [h1]
      simp only [beq_eq_false_iff_ne, ne_eq]
      omega
    simp [h3, hx]
  · have h1 : (pre ++ [x]).indexOf x = pre.length := by
      rw [List.indexOf_append_of_not_mem hx]
      simp
    simp [h1, hx]

theorem variablePositions_append (pre : List String) (x : String) :
    variablePositions (pre ++ [x]) =
      variablePositions pre ++
        (if startsWithQuote x = false ∧ x ∉ pre then [pre.length] else []) := by
  unfold variablePositions
  rw [List.length_append, List.length_singleton, List.range_succ, List.filter_append]
  congr 1
  · apply List.filter_congr
    intro i hi
    exact isFirstVariable_append_of_lt pre x i (List.mem_range.mp hi)
  · simp only [List.filter_cons, List.filter_nil, isFirstVariable_append_self]
    by_cases h1 : startsWithQuote x = true <;> by_cases h2 : x ∈ pre <;> simp [h1, h2]

theorem variablePositions_lt (vals : List String) (c : Nat) (hc : c ∈ variablePositions vals) :
    c < vals.length := by
  unfold variablePositions at hc
  exact List.mem_range.mp (List.mem_filter.mp hc).1

theorem distinctVariables_append (pre : List String) (x : String) :
    distinctVariables (pre ++ [x]) =
      distinctVariables pre ++
        (if startsWithQuote x = false ∧ x ∉ pre then [x] else []) := by
  unfold distinctVariables
  rw [variablePositions_append, List.filterMap_append]
  congr 1
  · apply List.filterMap_congr
    intro c hc
    exact List.getElem?_append_left (variablePositions_lt pre c hc)
  · by_cases h : startsWithQuote x = false ∧ x ∉ pre
    · simp [h]
    · simp [h]

theorem selects_append (pre : List String) (x : String) (t : Tuple) :
    Selects (pre ++ [x]) t ↔
      Selects pre t ∧
        (startsWithQuote x = true → t[pre.length]? = some x) ∧
        (startsWithQuote x = false → x ∈ pre →
          ∃ a, t[pre.indexOf x]? = some a ∧ t[pre.length]? = some a) := by
  constructor
  · intro h
    refine ⟨?_, ?_, ?_⟩
    · intro i y hy
      have hi : i < pre.length := (List.getElem?_eq_some.mp hy).1
      have hy' : (pre ++ [x])[i]? = some y := by
        rw [List.getElem?_append_left hi]; exact hy
      have hmem : y ∈ pre := List.getElem?_mem hy
      have := h i y hy'
      rw [List.indexOf_append_of_mem hmem] at this
      exact this
    · intro hq
      exact (h pre.length x (by simp)).1 hq
    · intro hq hx
      have := (h pre.length x (by simp)).2 hq
      rw [List.indexOf_append_of_mem hx] at this
      exact this (List.indexOf_lt_length.mpr hx)
  · rintro ⟨h₁, h₂, h₃⟩ i y hy
    have hi : i < (pre ++ [x]).length := (List.getElem?_eq_some.mp hy).1
    rw [List.length_append, List.length_singleton] at hi
    by_cases hlt : i < pre.length
    · rw [List.getElem?_append_left hlt] at hy
      have hmem : y ∈ pre := List.getElem?_mem hy
      rw [List.indexOf_append_of_mem hmem]
      exact h₁ i y hy
    · have hik : i = pre.length := by omega
      subst hik
      simp only [List.getElem?_concat_length, Option.some.injEq] at hy
      subst hy
      refine ⟨h₂, ?_⟩
      intro hq hidx
      by_cases hx : x ∈ pre
      · rw [List.indexOf_append_of_mem hx]
        exact h₃ hq hx
      · rw [List.indexOf_append_of_not_mem hx] at hidx
        simp at hidx

theorem queryInv_init (R : Relation) : QueryInv R [] ⟨R, [], [], []⟩ := by
  refine ⟨rfl, rfl, ?_, ?_, ?_, ?_⟩
  · intro t
    simp [Selects]
  · intro x
    simp
  · simp [variablePositions]
  · simp [distinctVariables, variablePositions]

theorem queryInv_step (R : Relation) (pre : List String) (param : Parameter)
    (st : QueryState) (h : QueryInv R pre st) :
    QueryInv R (pre ++ [param.value]) (evaluateQueryStep pre.length param st) := by
  obtain ⟨hn, hs, ht, hl, hp, hr⟩ := h
  unfold evaluateQueryStep
  by_cases hq : startsWithQuote param.value = true
  · rw [if_pos hq]
    refine ⟨?_, ?_, ?_, ?_, ?_, ?_⟩
    · simp [Relation.name_select, hn]
    · simp [Relation.scheme_select, hs]
    · intro t
      simp only [Relation.mem_select, ht, selects_append, hq]
      constructor
      · rintro ⟨⟨h1, h2⟩, _, _, h3⟩
        exact ⟨h1, h2, fun _ => by simpa using h3, by simp⟩
      · rintro ⟨h1, h2, h3, _⟩
        have h3' := h3 trivial
        have hlt : pre.length < t.length := (List.getElem?_eq_some.mp h3').1
        exact ⟨⟨h1, h2⟩, by omega, by omega, by simpa using h3'⟩
    · intro x
      simp only [hl x]
      by_cases hx : x ∈ pre
      · simp [hx, List.indexOf_append_of_mem hx]
      · by_cases hxp : x = param.value
        · subst hxp
          simp [hx, hq]
        · simp [hx, hxp]
    · simp [hp, variablePositions_append, hq]
    · simp [hr, distinctVariables_append, hq]
  · have hq' : startsWithQuote param.value = false := by simpa using hq
    rw [if_neg hq]
    by_cases hx : param.value ∈ pre
    · have hlook : st.variableIndices.lookup param.value =
          some ((pre.indexOf param.value : Nat) : Int) := by
        rw [hl]; simp [hx, hq']
      simp only [hlook]
      have hidx : pre.indexOf param.value < pre.length := List.indexOf_lt_length.mpr hx
      refine ⟨?_, ?_, ?_, ?_, ?_, ?_⟩
      · simp [Relation.name_select2, hn]
      · simp [Relation.scheme_select2, hs]
      · intro t
        simp only [Relation.mem_select2, ht, selects_append, hq', hx]
        constructor
        · rintro ⟨⟨h1, h2⟩, _, h3, _, h4, h5⟩
          refine ⟨h1, h2, by simp, fun _ _ => ?_⟩
          have h4' : pre.length < t.length := by omega
          refine ⟨t[pre.length], ?_, List.getElem?_eq_getElem h4'⟩
          simp only [Int.toNat_ofNat] at h5
          rw [h5]
          exact List.getElem?_eq_getElem h4'
        · rintro ⟨h1, h2, _, h3⟩
          obtain ⟨a, ha1, ha2⟩ := h3 trivial trivial
          have hlt1 := (List.getElem?_eq_some.mp ha1).1
          have hlt2 := (List.getElem?_eq_some.mp ha2).1
          refine ⟨⟨h1, h2⟩, by omega, by omega, by omega, by omega, ?_⟩
          simp only [Int.toNat_ofNat]
          rw [ha1, ha2]
      · intro x
        simp only [hl x]
        by_cases hxm : x ∈ pre
        · simp [hxm, List.indexOf_append_of_mem hxm]
        · have hxp : x ≠ param.value := fun h => hxm (h ▸ hx)
          simp [hxm, hxp]
      · simp [hp, variablePositions_append, hx]
      · simp [hr, distinctVariables_append, hx]
    · have hlook : st.variableIndices.lookup param.value = none := by
        rw [hl]; simp [hx]
      simp only [hlook]
      refine ⟨hn, hs, ?_, ?_, ?_, ?_⟩
      · intro t
        simp only [ht, selects_append, hq', hx]
        simp
      · intro x
        simp only [List.lookup_cons, hl x]
        by_cases hxp : x = param.value
        · subst hxp
          simp [hq', List.indexOf_append_of_not_mem hx]
        · have hne : (x == param.value) = false := by simpa using hxp
          simp only [hne]
          by_cases hxm : x ∈ pre
          · simp [hxm, List.indexOf_append_of_mem hxm]
          · simp [hxm, hxp]
      · simp [hp, variablePositions_append, hx, hq']
      · simp [hr, distinctVariables_append, hx, hq']

theorem queryInv_loop (R : Relation) (rest : List Parameter) :
    ∀ (pre : List String) (st : QueryState), QueryInv R pre st →
      QueryInv R (pre ++ rest.map (fun q => q.value))
        (evaluateQueryLoop rest pre.length st) := by
  induction rest with
  | nil =>
    intro pre st h
    simpa [evaluateQueryLoop] using h
  | cons param rest ih =>
    intro pre st h
    have h' := ih (pre ++ [param.value]) _ (queryInv_step R pre param st h)
    simpa [evaluateQueryLoop, List.append_assoc] using h'

theorem Relation.pickColumns_ofNat (v : List String) (cs : List Nat) :
    Relation.pickColumns v (cs.map (fun (c : Nat) => (c : Int))) = cs.filterMap (fun c => v[c]?) := by
  induction cs with
  | nil => rfl
  | cons c cs ih =>
    simp only [List.map_cons, Relation.pickColumns, List.filterMap_cons, Int.toNat_ofNat]
    by_cases hc : c < v.length
    · have h1 : (0 : Int) ≤ (c : Int) ∧ (c : Int) < (v.length : Int) := by omega
      rw [if_pos h1, List.getElem?_eq_getElem hc, ih]
    · have h1 : ¬ ((0 : Int) ≤ (c : Int) ∧ (c : Int) < (v.length : Int)) := by omega
      rw [if_neg h1, List.getElem?_eq_none (by omega), ih]

theorem queryInv_evaluateQuery (database : Database) (query : Predicate) :
    QueryInv (database query.name) query.values
      (evaluateQueryLoop query.parameters 0 ⟨database.getRelation query.name, [], [], []⟩) := by
  have h := queryInv_loop (database query.name) query.parameters [] _
    (queryInv_init (database query.name))
  simpa [Predicate.values, Database.getRelation] using h

theorem scheme_evaluateQuery (database : Database) (query : Predicate) :
    (evaluateQuery database query).scheme = distinctVariables query.values := by
  have h := queryInv_evaluateQuery database query
  unfold evaluateQuery
  simp only [Relation.scheme_rename]
  exact h.2.2.2.2.2

theorem name_evaluateQuery (database : Database) (query : Predicate) :
    (evaluateQuery database query).name = (database query.name).name := by
  have h := queryInv_evaluateQuery database query
  unfold evaluateQuery
  simp only [Relation.name_rename, Relation.name_project]
  exact h.1

theorem mem_evaluateQuery (database : Database) (query : Predicate) (u : Tuple) :
    u ∈ (evaluateQuery database query).tuples ↔
      ∃ t, t ∈ (database query.name).tuples ∧ Selects query.values t ∧
        u = (variablePositions query.values).filterMap (fun c => t[c]?) := by
  have h := queryInv_evaluateQuery database query
  unfold evaluateQuery
  simp only [Relation.tuples_rename, Relation.mem_project, h.2.2.1, h.2.2.2.2.1,
    Relation.pickColumns_ofNat]
  constructor
  · rintro ⟨t, ⟨h1, h2⟩, h3⟩
    exact ⟨t, h1, h2, h3⟩
  · rintro ⟨t, h1, h2, h3⟩
    exact ⟨t, ⟨h1, h2⟩, h3⟩

/-- C7: for every database and every atom, of any arity, the scheme of the
answer of `evaluateQuery` is the list of the distinct variables of the atom
(its parameters that are not quoted literals) in first-occurrence order. -/
theorem evaluateQuery_scheme_distinct_variables (database : Database) (query : Predicate) :
    (evaluateQuery database query).scheme = distinctVariables query.values :=
  scheme_evaluateQuery database query

theorem indexOf_le_of_getElem? (vals : List String) (x : String) :
    ∀ i, vals[i]? = some x → vals.indexOf x ≤ i := by
  induction vals with
  | nil => intro i h; simp at h
  | cons y ys ih =>
    intro i h
    by_cases hy : y = x
    · rw [List.indexOf_cons_eq _ hy]; omega
    · rw [List.indexOf_cons_ne _ hy]
      cases i with
      | zero => simp at h; exact absurd h hy
      | succ k =>
        simp only [List.getElem?_cons_succ] at h
        have := ih k h
        omega

theorem selects_iff_of_length (vals : List String) (t : Tuple) (hlen : t.length = vals.length) :
    Selects vals t ↔
      (∀ (i : Nat) (v : String), vals[i]? = some v → startsWithQuote v = true → t[i]? = some v) ∧
      (∀ (i j : Nat) (x : String), vals[i]? = some x → vals[j]? = some x → startsWithQuote x = false →
        t[i]? = t[j]?) := by
  constructor
  · intro h
    refine ⟨fun i v hv hq => (h i v hv).1 hq, ?_⟩
    have key : ∀ (i : Nat) (x : String), vals[i]? = some x → startsWithQuote x = false →
        t[i]? = t[vals.indexOf x]? := by
      intro i x hx hq
      have hle := indexOf_le_of_getElem? vals x i hx
      rcases Nat.lt_or_eq_of_le hle with hlt | heq
      · obtain ⟨a, h1, h2⟩ := (h i x hx).2 hq hlt
        rw [h1, h2]
      · rw [heq]
    intro i j x hi hj hq
    rw [key i x hi hq, key j x hj hq]
  · rintro ⟨h1, h2⟩ i x hx
    refine ⟨h1 i x hx, fun hq hlt => ?_⟩
    have hi : i < vals.length := (List.getElem?_eq_some.mp hx).1
    have hmem : x ∈ vals := List.getElem?_mem hx
    have hc : vals[vals.indexOf x]? = some x := List.getElem?_indexOf hmem
    have hit : i < t.length := by omega
    refine ⟨t[i], ?_, List.getElem?_eq_getElem hit⟩
    rw [h2 _ i x hc hx hq]
    exact List.getElem?_eq_getElem hit

theorem filterMap_getElem?_eq_map (t : Tuple) (cs : List Nat) (h : ∀ c ∈ cs, c < t.length) :
    cs.filterMap (fun c => t[c]?) = cs.map (fun c => t.getD c "") := by
  induction cs with
  | nil => rfl
  | cons c cs ih =>
    have hc : c < t.length := h c (List.mem_cons_self c cs)
    simp only [List.filterMap_cons, List.map_cons, List.getElem?_eq_getElem hc,
      List.getD_eq_getElem?_getD, Option.getD_some]
    rw [ih (fun c' hc' => h c' (List.mem_cons_of_mem c hc'))]
    simp [List.getD_eq_getElem?_getD]

/-- C1: when the relation `R` stored under the name of the atom `p` is well
formed and `p` has as many parameters as `R` has attributes, the tuples of
`evaluateQuery(p)` are exactly the tuples `(t[c1], ..., t[cm])` for the `t` in
`R` that have the literal `v` at every position holding the literal `v` and
equal values at every two positions holding the same variable, `c1 < ... < cm`
being the first-occurrence positions of the distinct variables of `p`. -/
theorem evaluateQuery_answer_set (database : Database) (p : Predicate) (u : Tuple)
    (hwf : (database p.name).WellFormed)
    (harity : p.parameters.length = (database p.name).scheme.length) :
    u ∈ (evaluateQuery database p).tuples ↔
      ∃ t, t ∈ (database p.name).tuples ∧
        (∀ (i : Nat) (v : String), p.values[i]? = some v → startsWithQuote v = true → t[i]? = some v) ∧
        (∀ (i j : Nat) (x : String), p.values[i]? = some x → p.values[j]? = some x →
          startsWithQuote x = false → t[i]? = t[j]?) ∧
        u = (variablePositions p.values).map (fun c => t.getD c "") := by
  rw [mem_evaluateQuery]
  have hlen : ∀ t, t ∈ (database p.name).tuples → t.length = p.values.length := by
    intro t ht
    rw [hwf t ht, ← harity]
    simp [Predicate.values]
  constructor
  · rintro ⟨t, ht, hsel, hu⟩
    have hl := hlen t ht
    have := (selects_iff_of_length p.values t hl).mp hsel
    refine ⟨t, ht, this.1, this.2, ?_⟩
    rw [hu]
    exact filterMap_getElem?_eq_map t _
      (fun c hc => by have := variablePositions_lt _ c hc; omega)
  · rintro ⟨t, ht, h1, h2, hu⟩
    have hl := hlen t ht
    refine ⟨t, ht, (selects_iff_of_length p.values t hl).mpr ⟨h1, h2⟩, ?_⟩
    rw [hu]
    exact (filterMap_getElem?_eq_map t _
      (fun c hc => by have := variablePositions_lt _ c hc; omega)).symm

/-- C1 at scenario 2: `R(X,X)` over the tuples `('x','x')` and `('x','y')` gives
exactly the one tuple `('x')`. -/
theorem evaluateQuery_answer_set_witness :
    (scenario2Database "R").WellFormed ∧
    (atom "R" ["X", "X"]).parameters.length = (scenario2Database "R").scheme.length ∧
    (evaluateQuery scenario2Database (atom "R" ["X", "X"])).tuples.elems = [["'x'"]] ∧
    (["'x'"] ∈ (evaluateQuery scenario2Database (atom "R" ["X", "X"])).tuples ↔
      ∃ t, t ∈ (scenario2Database (atom "R" ["X", "X"]).name).tuples ∧
        (∀ (i : Nat) (v : String), (atom "R" ["X", "X"]).values[i]? = some v → startsWithQuote v = true →
          t[i]? = some v) ∧
        (∀ (i j : Nat) (x : String), (atom "R" ["X", "X"]).values[i]? = some x →
          (atom "R" ["X", "X"]).values[j]? = some x →
          startsWithQuote x = false → t[i]? = t[j]?) ∧
        ["'x'"] = (variablePositions (atom "R" ["X", "X"]).values).map
          (fun c => t.getD c "")) :=
  ⟨by decide, by decide, by decide,
    evaluateQuery_answer_set scenario2Database (atom "R" ["X", "X"]) ["'x'"]
      (by decide) (by decide)⟩

theorem filterMap_range_getElem? (t : List String) :
    (List.range t.length).filterMap (fun c => t[c]?) = t := by
  induction t using List.reverseRecOn with
  | nil => rfl
  | append_singleton t a ih =>
    rw [List.length_append, List.length_singleton, List.range_succ, List.filterMap_append]
    have h1 : (List.range t.length).filterMap (fun c => (t ++ [a])[c]?) =
        (List.range t.length).filterMap (fun c => t[c]?) := by
      apply List.filterMap_congr
      intro c hc
      exact List.getElem?_append_left (List.mem_range.mp hc)
    rw [h1, ih]
    simp

theorem variablePositions_of_distinct (vals : List String)
    (hvars : ∀ x ∈ vals, startsWithQuote x = false) (hnodup : vals.Nodup) :
    variablePositions vals = List.range vals.length := by
  unfold variablePositions
  rw [List.filter_eq_self]
  intro i hi
  have hlt : i < vals.length := List.mem_range.mp hi
  unfold isFirstVariable
  rw [List.getElem?_eq_getElem hlt]
  simp [hvars _ (List.getElem_mem hlt), List.indexOf_getElem hnodup i hlt]

theorem selects_of_distinct (vals : List String) (t : Tuple)
    (hvars : ∀ x ∈ vals, startsWithQuote x = false) (hnodup : vals.Nodup) :
    Selects vals t := by
  intro i x hx
  have hq := hvars x (List.getElem?_mem hx)
  refine ⟨fun h => by simp [hq] at h, fun _ hlt => ?_⟩
  obtain ⟨hi, hget⟩ := List.getElem?_eq_some.mp hx
  have := List.indexOf_getElem hnodup i hi
  rw [hget] at this
  omega

/-- C8: for a well-formed relation `R` and an atom naming `R` whose parameters
are pairwise distinct variables, one per attribute of `R`, `evaluateQuery`
returns `R` with its scheme replaced by the variables of the atom in order:
the same name, the same tuple set. -/
theorem evaluateQuery_round_trip (database : Database) (p : Predicate)
    (hwf : (database p.name).WellFormed)
    (harity : p.parameters.length = (database p.name).scheme.length)
    (hvars : ∀ x ∈ p.values, startsWithQuote x = false)
    (hdistinct : p.values.Nodup) :
    evaluateQuery database p = { database p.name with scheme := p.values } := by
  have hpos := variablePositions_of_distinct p.values hvars hdistinct
  apply Relation.ext'
  · exact name_evaluateQuery database p
  · rw [scheme_evaluateQuery]
    unfold distinctVariables
    rw [hpos]
    exact filterMap_range_getElem? p.values
  · intro u
    rw [mem_evaluateQuery, hpos]
    have hlen : ∀ t, t ∈ (database p.name).tuples → t.length = p.values.length := by
      intro t ht
      rw [hwf t ht, ← harity]
      simp [Predicate.values]
    constructor
    · rintro ⟨t, ht, _, hu⟩
      rw [← hlen t ht, filterMap_range_getElem? t] at hu
      rw [hu]
      exact ht
    · intro hu
      refine ⟨u, hu, selects_of_distinct p.values u hvars hdistinct, ?_⟩
      rw [← hlen u hu, filterMap_range_getElem? u]

/-- C8 at scenario 2: the query `R(X,Y)` returns `R` with the scheme `(X,Y)`. -/
theorem evaluateQuery_round_trip_witness :
    (scenario2Database "R").WellFormed ∧
    evaluateQuery scenario2Database (atom "R" ["X", "Y"]) =
      { scenario2Database (atom "R" ["X", "Y"]).name with
        scheme := (atom "R" ["X", "Y"]).values } :=
  ⟨by decide,
    evaluateQuery_round_trip scenario2Database (atom "R" ["X", "Y"])
      (by decide) (by decide) (by decide) (by decide)⟩

theorem variablePositions_of_literals (vals : List String)
    (hlit : ∀ x ∈ vals, startsWithQuote x = true) : variablePositions vals = [] := by
  unfold variablePositions
  rw [List.filter_eq_nil_iff]
  intro i hi
  have hlt : i < vals.length := List.mem_range.mp hi
  unfold isFirstVariable
  rw [List.getElem?_eq_getElem hlt]
  simp [hlit _ (List.getElem_mem hlt)]

theorem selects_of_literals (vals : List String) (t : Tuple) (hlen : t.length = vals.length)
    (hlit : ∀ x ∈ vals, startsWithQuote x = true) : Selects vals t ↔ t = vals := by
  constructor
  · intro h
    apply List.ext_getElem? 
    intro i
    by_cases hi : i < vals.length
    · have hx : vals[i]? = some vals[i] := List.getElem?_eq_getElem hi
      rw [hx]
      exact (h i _ hx).1 (hlit _ (List.getElem_mem hi))
    · rw [List.getElem?_eq_none (by omega), List.getElem?_eq_none (by omega)]
  · rintro rfl i x hx
    have hq := hlit x (List.getElem?_mem hx)
    exact ⟨fun _ => hx, fun h => by simp [hq] at h⟩

theorem tuples_evaluateQuery_ground (database : Database) (p : Predicate)
    (hwf : (database p.name).WellFormed)
    (harity : p.parameters.length = (database p.name).scheme.length)
    (hlit : ∀ x ∈ p.values, startsWithQuote x = true) :
    (evaluateQuery database p).tuples =
      if p.values ∈ (database p.name).tuples then TupleSet.empty.insert [] else TupleSet.empty := by
  have hlen : ∀ t, t ∈ (database p.name).tuples → t.length = p.values.length := by
    intro t ht
    rw [hwf t ht, ← harity]
    simp [Predicate.values]
  apply TupleSet.ext
  intro u
  rw [mem_evaluateQuery, variablePositions_of_literals p.values hlit]
  by_cases hmem : p.values ∈ (database p.name).tuples
  · rw [if_pos hmem, TupleSet.mem_insert]
    constructor
    · rintro ⟨t, _, _, hu⟩
      exact Or.inl (by simpa using hu)
    · rintro (hu | hu)
      · exact ⟨p.values, hmem, (selects_of_literals _ _ rfl hlit).mpr rfl, by simpa using hu⟩
      · exact absurd hu (TupleSet.not_mem_empty u)
  · rw [if_neg hmem]
    constructor
    · rintro ⟨t, ht, hsel, _⟩
      have := (selects_of_literals p.values t (hlen t ht) hlit).mp hsel
      subst this
      exact absurd ht hmem
    · intro hu
      exact absurd hu (TupleSet.not_mem_empty u)

/-- C9: for a well-formed relation `R` and an atom naming `R` whose parameters
are all quoted literals, one per attribute, `evaluateQuery` returns a relation
with an empty scheme whose tuples are the one empty tuple when the tuple of the
literals is in `R` and none otherwise; `evaluateQueries` then writes, after the
text of the query, `Yes(1)` and the line of the empty tuple in the first case
and `No` in the second. -/
theorem evaluateQuery_ground_atom (database : Database) (p : Predicate) (output : String)
    (hwf : (database p.name).WellFormed)
    (harity : p.parameters.length = (database p.name).scheme.length)
    (hlit : ∀ x ∈ p.values, startsWithQuote x = true) :
    (evaluateQuery database p).scheme = [] ∧
    (evaluateQuery database p).tuples.elems =
      (if p.values ∈ (database p.name).tuples then [[]] else []) ∧
    evaluateQueriesStep database output p =
      some (output ++ trimTrailingPeriod p.toString ++ "? " ++
        (if p.values ∈ (database p.name).tuples then "Yes(1)\n  \n" else "No\n")) := by
  have hs : (evaluateQuery database p).scheme = [] := by
    rw [scheme_evaluateQuery]
    unfold distinctVariables
    rw [variablePositions_of_literals p.values hlit]
    rfl
  have ht := tuples_evaluateQuery_ground database p hwf harity hlit
  refine ⟨hs, ?_, ?_⟩
  · rw [ht]
    by_cases hmem : p.values ∈ (database p.name).tuples
    · simp only [if_pos hmem]; rfl
    · simp only [if_neg hmem]; rfl
  · unfold evaluateQueriesStep
    by_cases hmem : p.values ∈ (database p.name).tuples
    · simp only [Relation.size, Relation.toString, hs, ht, if_pos hmem]
      have h1 : (TupleSet.empty.insert []).size = 1 := rfl
      have h2 : (TupleSet.empty.insert []).elems = [[]] := rfl
      have h3 : Tuple.toString [] [] = some "" := rfl
      simp only [h1, h2, List.foldlM_cons, List.foldlM_nil, h3, Option.map_some',
        Option.bind_eq_bind, Option.some_bind, Option.pure_def, one_ne_zero, if_false,
        String.append_assoc]
      rfl
    · simp only [Relation.size, Relation.toString, hs, ht, if_neg hmem]
      rfl

/-- C9 at scenarios 4 and 5: over the facts `p('x')` the query `p('y')` is
answered `No` and the query `p('x')` is answered `Yes(1)`. -/
theorem evaluateQuery_ground_atom_witness :
    (scenario4Database "p").WellFormed ∧
    evaluateQueriesStep scenario4Database "" (atom "p" ["'y'"]) = some "p('y')? No\n" ∧
    evaluateQueriesStep scenario4Database "" (atom "p" ["'x'"]) = some "p('x')? Yes(1)\n  \n" ∧
    ((evaluateQuery scenario4Database (atom "p" ["'y'"])).scheme = [] ∧
    (evaluateQuery scenario4Database (atom "p" ["'y'"])).tuples.elems =
      (if (atom "p" ["'y'"]).values ∈ (scenario4Database (atom "p" ["'y'"]).name).tuples
        then [[]] else []) ∧
    evaluateQueriesStep scenario4Database "" (atom "p" ["'y'"]) =
      some ("" ++ trimTrailingPeriod (atom "p" ["'y'"]).toString ++ "? " ++
        (if (atom "p" ["'y'"]).values ∈ (scenario4Database (atom "p" ["'y'"]).name).tuples
          then "Yes(1)\n  \n" else "No\n"))) :=
  ⟨by decide, by decide, by decide,
    evaluateQuery_ground_atom scenario4Database (atom "p" ["'y'"]) ""
      (by decide) (by decide) (by decide)⟩

theorem firstOccurrences_filter (p : String → Bool) (l : List String) :
    firstOccurrences (l.filter p) = (firstOccurrences l).filter p := by
  induction l with
  | nil => rfl
  | cons x xs ih =>
    by_cases hp : p x = true
    · simp only [List.filter_cons, hp, if_true, firstOccurrences, ih, List.filter_filter]
      congr 1
      apply List.filter_congr
      intro y _
      simp [Bool.and_comm]
    · simp only [List.filter_cons, hp, if_false, firstOccurrences, ih, List.filter_filter,
        Bool.false_eq_true]
      apply List.filter_congr
      intro y _
      by_cases hy : p y = true
      · have : y ≠ x := fun h => hp (h ▸ hy)
        simp [hy, this]
      · simp [hy]

theorem Relation.joinScheme_eq (scheme other : Scheme) :
    Relation.joinScheme scheme other =
      scheme ++ firstOccurrences (other.filter (fun a => a ∉ scheme)) := by
  unfold Relation.joinScheme
  induction other generalizing scheme with
  | nil => simp [firstOccurrences]
  | cons a as ih =>
    rw [List.foldl_cons]
    by_cases ha : a ∈ scheme
    · rw [if_pos ha, ih]
      simp [List.filter_cons, ha]
    · rw [if_neg ha, ih]
      have h1 : as.filter (fun b => decide (b ∉ scheme ++ [a])) =
          (as.filter (fun b => decide (b ∉ scheme))).filter (fun b => decide (b ≠ a)) := by
        rw [List.filter_filter]
        apply List.filter_congr
        intro b _
        simp [not_or, and_comm]
      rw [h1, firstOccurrences_filter]
      simp [List.filter_cons, ha, firstOccurrences]

theorem unsharedValues_cons_mem (scheme : Scheme) (a : String) (rest : List String)
    (tuple2 : Tuple) (i : Nat) (hi : i < tuple2.length) (hmem : a ∈ scheme) :
    unsharedValues scheme (a :: rest) (tuple2.drop i) =
      unsharedValues scheme rest (tuple2.drop (i + 1)) := by
  rw [List.drop_eq_getElem_cons hi]
  simp only [unsharedValues, List.zip_cons_cons, List.filter_cons]
  simp [hmem]

theorem unsharedValues_cons_not_mem (scheme : Scheme) (a : String) (rest : List String)
    (tuple2 : Tuple) (i : Nat) (hi : i < tuple2.length) (hmem : a ∉ scheme) :
    unsharedValues scheme (a :: rest) (tuple2.drop i) =
      tuple2[i] :: unsharedValues scheme rest (tuple2.drop (i + 1)) := by
  rw [List.drop_eq_getElem_cons hi]
  simp only [unsharedValues, List.zip_cons_cons, List.filter_cons]
  simp [hmem]

theorem Relation.joinTuples_spec (scheme : Scheme) (tuple1 tuple2 : Tuple) :
    ∀ (rest : List String) (i : Nat) (newTuple : Tuple) (isJoinable : Bool),
      ((Relation.joinTuples scheme tuple1 tuple2 rest i newTuple isJoinable).2 = true ↔
        isJoinable = true ∧ ∀ (k : Nat) (a : String), rest[k]? = some a →
          i + k < tuple2.length ∧
            (a ∈ scheme → scheme.indexOf a < tuple1.length ∧
              tuple1[scheme.indexOf a]? = tuple2[i + k]?)) ∧
      ((Relation.joinTuples scheme tuple1 tuple2 rest i newTuple isJoinable).2 = true →
        (Relation.joinTuples scheme tuple1 tuple2 rest i newTuple isJoinable).1 =
          newTuple ++ unsharedValues scheme rest (tuple2.drop i)) := by
  intro rest
  induction rest with
  | nil =>
    intro i newTuple isJoinable
    simp [Relation.joinTuples, unsharedValues]
  | cons a rest ih =>
    intro i newTuple isJoinable
    have hsplit : ∀ (P : Nat → String → Prop),
        (∀ (k : Nat) (b : String), (a :: rest)[k]? = some b → P k b) ↔
          P 0 a ∧ ∀ (k : Nat) (b : String), rest[k]? = some b → P (k + 1) b := by
      intro P
      constructor
      · intro h
        exact ⟨h 0 a (by simp), fun k b hb => h (k + 1) b (by simpa using hb)⟩
      · rintro ⟨h0, hs⟩ k b hb
        cases k with
        | zero => simp at hb; subst hb; exact h0
        | succ k => exact hs k b (by simpa using hb)
    unfold Relation.joinTuples
    simp only []
    by_cases hmem : a ∈ scheme
    · have hidx : scheme.indexOf a < scheme.length := List.indexOf_lt_length.mpr hmem
      rw [if_pos hidx]
      by_cases hbad : scheme.indexOf a ≥ tuple1.length ∨ i ≥ tuple2.length ∨
          tuple1[scheme.indexOf a]? ≠ tuple2[i]?
      · rw [if_pos hbad]
        refine ⟨?_, fun h => by simp at h⟩
        simp only [Bool.false_eq_true, false_iff, not_and]
        intro _ h
        have h0 := h 0 a (by simp)
        have := h0.2 hmem
        rcases hbad with hb | hb | hb
        · omega
        · omega
        · exact hb (by simpa using this.2)
      · rw [if_neg hbad]
        simp only [not_or, not_le, ne_eq, not_not] at hbad
        obtain ⟨ih1, ih2⟩ := ih (i + 1) newTuple isJoinable
        refine ⟨?_, ?_⟩
        · rw [ih1, hsplit]
          simp only [Nat.add_zero, hmem, true_implies]
          constructor
          · rintro ⟨hj, h⟩
            exact ⟨hj, ⟨hbad.2.1, hbad.1, hbad.2.2⟩,
              fun k b hb => by have := h k b hb; rwa [Nat.add_assoc, Nat.add_comm 1 k] at this⟩
          · rintro ⟨hj, _, h⟩
            exact ⟨hj, fun k b hb => by
              have := h k b hb; rwa [Nat.add_assoc, Nat.add_comm 1 k]⟩
        · intro h
          rw [ih2 h, unsharedValues_cons_mem scheme a rest tuple2 i hbad.2.1 hmem]
    · have hidx : ¬ scheme.indexOf a < scheme.length := by
        rw [List.indexOf_lt_length]; exact hmem
      rw [if_neg hidx]
      by_cases hi : i < tuple2.length
      · rw [List.getElem?_eq_getElem hi]
        simp only []
        obtain ⟨ih1, ih2⟩ := ih (i + 1) (newTuple ++ [tuple2[i]]) isJoinable
        refine ⟨?_, ?_⟩
        · rw [ih1, hsplit]
          simp only [Nat.add_zero, hmem, false_implies, and_true]
          constructor
          · rintro ⟨hj, h⟩
            exact ⟨hj, hi,
              fun k b hb => by have := h k b hb; rwa [Nat.add_assoc, Nat.add_comm 1 k] at this⟩
          · rintro ⟨hj, _, h⟩
            exact ⟨hj, fun k b hb => by
              have := h k b hb; rwa [Nat.add_assoc, Nat.add_comm 1 k]⟩
        · intro h
          rw [ih2 h, unsharedValues_cons_not_mem scheme a rest tuple2 i hi hmem]
          simp
      · rw [List.getElem?_eq_none (by omega)]
        simp only []
        obtain ⟨ih1, ih2⟩ := ih (i + 1) newTuple false
        have hfalse : (Relation.joinTuples scheme tuple1 tuple2 rest (i + 1) newTuple false).2
            = false := by
          by_contra hne
          have := ih1.mp (by simpa using hne)
          simp at this
        refine ⟨?_, fun h => by rw [hfalse] at h; simp at h⟩
        rw [hfalse]
        simp only [Bool.false_eq_true, false_iff, not_and]
        intro _ h
        have := (h 0 a (by simp)).1
        omega

theorem Relation.mem_join_iff (r other : Relation) (u : Tuple) :
    u ∈ (r.join other).tuples ↔
      ∃ t₁, t₁ ∈ r.tuples ∧ ∃ t₂, t₂ ∈ other.tuples ∧
        (∀ (k : Nat) (a : String), other.scheme[k]? = some a →
          k < t₂.length ∧
            (a ∈ r.scheme → r.scheme.indexOf a < t₁.length ∧
              t₁[r.scheme.indexOf a]? = t₂[k]?)) ∧
        u = t₁ ++ unsharedValues r.scheme other.scheme t₂ := by
  rw [Relation.mem_join]
  constructor
  · rintro ⟨t₁, h₁, t₂, h₂, hj, hu⟩
    have hspec := Relation.joinTuples_spec r.scheme t₁ t₂ other.scheme 0 t₁ true
    refine ⟨t₁, h₁, t₂, h₂, ?_, ?_⟩
    · have := (hspec.1.mp hj).2
      simpa using this
    · rw [hu, hspec.2 hj]
      simp
  · rintro ⟨t₁, h₁, t₂, h₂, hc, hu⟩
    have hspec := Relation.joinTuples_spec r.scheme t₁ t₂ other.scheme 0 t₁ true
    have hj : (Relation.joinTuples r.scheme t₁ t₂ other.scheme 0 t₁ true).2 = true :=
      hspec.1.mpr ⟨rfl, by simpa using hc⟩
    refine ⟨t₁, h₁, t₂, h₂, hj, ?_⟩
    rw [hu, hspec.2 hj]
    simp

/-- C6: for well-formed relations `R` and `S`, the scheme of `R.join(S)` is the
scheme of `R` followed by the attributes of `S` that do not occur in the scheme
of `R`, each once in first-occurrence order, and its tuples are exactly the
combined tuples `t1 ++ [t2[i] for the positions i of S.scheme whose attribute
does not occur in R.scheme]` over the pairs `t1` in `R`, `t2` in `S` such that
`t1[p] = t2[i]` at every position `i` of `S.scheme` whose attribute occurs in
`R.scheme`, first at position `p`. -/
theorem join_reference (R S : Relation) (u : Tuple)
    (hR : R.WellFormed) (hS : S.WellFormed) :
    (R.join S).scheme =
      R.scheme ++ firstOccurrences (S.scheme.filter (fun a => a ∉ R.scheme)) ∧
    (u ∈ (R.join S).tuples ↔
      ∃ t₁, t₁ ∈ R.tuples ∧ ∃ t₂, t₂ ∈ S.tuples ∧
        (∀ (i : Nat) (a : String), S.scheme[i]? = some a → a ∈ R.scheme →
          t₁[R.scheme.indexOf a]? = t₂[i]?) ∧
        u = t₁ ++ unsharedValues R.scheme S.scheme t₂) := by
  refine ⟨by rw [Relation.scheme_join, Relation.joinScheme_eq], ?_⟩
  rw [Relation.mem_join_iff]
  constructor
  · rintro ⟨t₁, h₁, t₂, h₂, hc, hu⟩
    exact ⟨t₁, h₁, t₂, h₂, fun i a hi ha => ((hc i a hi).2 ha).2, hu⟩
  · rintro ⟨t₁, h₁, t₂, h₂, hc, hu⟩
    refine ⟨t₁, h₁, t₂, h₂, fun k a hk => ⟨?_, fun ha => ⟨?_, hc k a hk ha⟩⟩, hu⟩
    · have := (List.getElem?_eq_some.mp hk).1
      rw [hS t₂ h₂]
      exact this
    · rw [hR t₁ h₁]
      exact List.indexOf_lt_length.mpr ha

/-- C6 at `R(A,B)` of scenario 2 joined with `S(B,C)`: the scheme is `(A,B,C)`
and the only tuple is `('x','x','1')`. -/
theorem join_reference_witness :
    scenario2Relation.WellFormed ∧ sampleRelationBC.WellFormed ∧
    (scenario2Relation.join sampleRelationBC).scheme = ["A", "B", "C"] ∧
    (scenario2Relation.join sampleRelationBC).tuples.elems = [["'x'", "'x'", "'1'"]] ∧
    ((scenario2Relation.join sampleRelationBC).scheme =
      scenario2Relation.scheme ++
        firstOccurrences (sampleRelationBC.scheme.filter (fun a => a ∉ scenario2Relation.scheme)) ∧
    (["'x'", "'x'", "'1'"] ∈ (scenario2Relation.join sampleRelationBC).tuples ↔
      ∃ t₁, t₁ ∈ scenario2Relation.tuples ∧ ∃ t₂, t₂ ∈ sampleRelationBC.tuples ∧
        (∀ (i : Nat) (a : String), sampleRelationBC.scheme[i]? = some a →
          a ∈ scenario2Relation.scheme →
          t₁[scenario2Relation.scheme.indexOf a]? = t₂[i]?) ∧
        ["'x'", "'x'", "'1'"] =
          t₁ ++ unsharedValues scenario2Relation.scheme sampleRelationBC.scheme t₂)) :=
  ⟨by decide, by decide, by decide, by decide,
    join_reference scenario2Relation sampleRelationBC ["'x'", "'x'", "'1'"]
      (by decide) (by decide)⟩

theorem mem_distinctVariables (vals : List String) (x : String) :
    x ∈ distinctVariables vals ↔ x ∈ vals ∧ startsWithQuote x = false := by
  induction vals using List.reverseRecOn with
  | nil => simp [distinctVariables, variablePositions]
  | append_singleton pre a ih =>
    rw [distinctVariables_append, List.mem_append, ih]
    by_cases h : startsWithQuote a = false ∧ a ∉ pre
    · rw [if_pos h]
      simp only [List.mem_singleton, List.mem_append]
      constructor
      · rintro (h1 | h1)
        · exact ⟨Or.inl h1.1, h1.2⟩
        · subst h1; exact ⟨Or.inr rfl, h.1⟩
      · rintro ⟨h1 | h1, h2⟩
        · exact Or.inl ⟨h1, h2⟩
        · exact Or.inr h1
    · rw [if_neg h]
      simp only [List.not_mem_nil, or_false, List.mem_append, List.mem_singleton]
      constructor
      · rintro ⟨h1, h2⟩; exact ⟨Or.inl h1, h2⟩
      · rintro ⟨h1 | h1, h2⟩
        · exact ⟨h1, h2⟩
        · subst h1
          by_cases hx : x ∈ pre
          · exact ⟨hx, h2⟩
          · exact absurd ⟨h2, hx⟩ h

theorem nodup_distinctVariables (vals : List String) : (distinctVariables vals).Nodup := by
  induction vals using List.reverseRecOn with
  | nil => simp [distinctVariables, variablePositions]
  | append_singleton pre a ih =>
    rw [distinctVariables_append]
    by_cases h : startsWithQuote a = false ∧ a ∉ pre
    · rw [if_pos h]
      apply List.Nodup.append ih (List.nodup_singleton a)
      intro y hy hy'
      rw [List.mem_singleton] at hy'
      subst hy'
      exact h.2 ((mem_distinctVariables pre y).mp hy).1
    · rw [if_neg h]
      simpa using ih

theorem distinctVariables_map (vals : List String) (f : String → String) (t : Tuple)
    (ht : ∀ (i : Nat) (x : String), vals[i]? = some x → startsWithQuote x = false →
      t[i]? = some (f x)) :
    (variablePositions vals).filterMap (fun c => t[c]?) = (distinctVariables vals).map f := by
  unfold distinctVariables
  generalize hps : variablePositions vals = ps
  have hsub : ∀ c ∈ ps, c ∈ variablePositions vals := by rw [hps]; exact fun c h => h
  clear hps
  induction ps with
  | nil => rfl
  | cons c cs ih =>
    have hc := hsub c (List.mem_cons_self c cs)
    have hlt := variablePositions_lt vals c hc
    have hfirst : isFirstVariable vals c = true := by
      unfold variablePositions at hc
      exact (List.mem_filter.mp hc).2
    unfold isFirstVariable at hfirst
    rw [List.getElem?_eq_getElem hlt] at hfirst
    simp only [Bool.and_eq_true, Bool.not_eq_true', beq_iff_eq] at hfirst
    have h1 := ht c vals[c] (List.getElem?_eq_getElem hlt) hfirst.1
    simp only [List.filterMap_cons, h1, List.getElem?_eq_getElem hlt, List.map_cons]
    rw [ih (fun c' hc' => hsub c' (List.mem_cons_of_mem c hc'))]

theorem denotes_evaluateQuery (database : Database) (b : Predicate)
    (hwf : (database b.name).WellFormed)
    (harity : b.parameters.length = (database b.name).scheme.length) :
    Denotes (evaluateQuery database b)
      (fun s => instantiate s b.values ∈ (database b.name).tuples) := by
  have hlen : ∀ t, t ∈ (database b.name).tuples → t.length = b.values.length := by
    intro t ht
    rw [hwf t ht, ← harity]
    simp [Predicate.values]
  refine ⟨?_, ?_, ?_⟩
  · rw [scheme_evaluateQuery]
    exact nodup_distinctVariables b.values
  · intro s s' hs
    rw [scheme_evaluateQuery] at hs
    have : instantiate s b.values = instantiate s' b.values := by
      unfold instantiate
      apply List.map_congr_left
      intro x hx
      by_cases hq : startsWithQuote x = true
      · simp [hq]
      · have hq' : startsWithQuote x = false := by simpa using hq
        simp only [hq', Bool.false_eq_true, if_false]
        exact hs x ((mem_distinctVariables b.values x).mpr ⟨hx, hq'⟩)
    simp only [this]
  · intro u
    rw [mem_evaluateQuery, scheme_evaluateQuery]
    constructor
    · rintro ⟨t, ht, hsel, hu⟩
      have hl := hlen t ht
      have hsel' := (selects_iff_of_length b.values t hl).mp hsel
      refine ⟨fun x => t.getD (b.values.indexOf x) "", ?_, ?_⟩
      · have : instantiate (fun x => t.getD (b.values.indexOf x) "") b.values = t := by
          apply List.ext_getElem?
          intro i
          unfold instantiate
          rw [List.getElem?_map]
          by_cases hi : i < b.values.length
          · have hx : b.values[i]? = some b.values[i] := List.getElem?_eq_getElem hi
            rw [hx]
            simp only [Option.map_some']
            by_cases hq : startsWithQuote b.values[i] = true
            · rw [if_pos hq]
              exact (hsel'.1 i _ hx hq).symm
            · have hq' : startsWithQuote b.values[i] = false := by simpa using hq
              rw [if_neg hq]
              have hmem : b.values[i] ∈ b.values := List.getElem_mem hi
              have hc : b.values[b.values.indexOf b.values[i]]? = some b.values[i] :=
                List.getElem?_indexOf hmem
              have heq := hsel'.2 _ i _ hc hx hq'
              have hidx : b.values.indexOf b.values[i] < t.length := by
                rw [hl]; exact List.indexOf_lt_length.mpr hmem
              rw [← heq, List.getD_eq_getElem?_getD, List.getElem?_eq_getElem hidx]
              rfl
          · rw [List.getElem?_eq_none (by omega), List.getElem?_eq_none (by omega)]
            rfl
        show instantiate (fun x => t.getD (b.values.indexOf x) "") b.values ∈
          (database b.name).tuples
        rw [this]
        exact ht
      · rw [hu]
        apply distinctVariables_map
        intro i x hx hq
        have hmem : x ∈ b.values := List.getElem?_mem hx
        have hc : b.values[b.values.indexOf x]? = some x := List.getElem?_indexOf hmem
        have heq := hsel'.2 _ i _ hc hx hq
        have hidx : b.values.indexOf x < t.length := by
          rw [hl]; exact List.indexOf_lt_length.mpr hmem
        rw [← heq, List.getD_eq_getElem?_getD, List.getElem?_eq_getElem hidx]
        rfl
    · rintro ⟨s, hs, hu⟩
      refine ⟨instantiate s b.values, hs, ?_, ?_⟩
      · rw [selects_iff_of_length b.values _ (by simp [instantiate])]
        refine ⟨?_, ?_⟩
        · intro i v hv hq
          simp [instantiate, List.getElem?_map, hv, hq]
        · intro i j x hi hj hq
          simp [instantiate, List.getElem?_map, hi, hj]
      · rw [hu]
        symm
        apply distinctVariables_map
        intro i x hx hq
        simp [instantiate, List.getElem?_map, hx, hq]

theorem firstOccurrences_of_nodup (l : List String) (h : l.Nodup) : firstOccurrences l = l := by
  induction l with
  | nil => rfl
  | cons x xs ih =>
    have hx := List.nodup_cons.mp h
    rw [firstOccurrences, ih hx.2, List.filter_eq_self.mpr]
    intro y hy
    have : y ≠ x := fun heq => hx.1 (heq ▸ hy)
    simpa using this

theorem unsharedValues_map (scheme1 scheme2 : Scheme) (s : String → String) :
    unsharedValues scheme1 scheme2 (scheme2.map s) =
      (scheme2.filter (fun a => a ∉ scheme1)).map s := by
  induction scheme2 with
  | nil => rfl
  | cons a as ih =>
    unfold unsharedValues at ih ⊢
    simp only [List.map_cons, List.zip_cons_cons, List.filter_cons]
    by_cases ha : a ∈ scheme1
    · simp only [ha, not_true_eq_false, decide_False, Bool.false_eq_true, if_false]
      exact ih
    · simp only [ha, not_false_eq_true, decide_True, if_true, List.map_cons]
      rw [ih]

theorem getElem?_map_indexOf (scheme : Scheme) (s : String → String) (a : String)
    (ha : a ∈ scheme) : (scheme.map s)[scheme.indexOf a]? = some (s a) := by
  rw [List.getElem?_map, List.getElem?_indexOf ha]
  rfl

theorem denotes_join (A B : Relation) (P Q : (String → String) → Prop)
    (hA : Denotes A P) (hB : Denotes B Q) :
    Denotes (A.join B) (fun s => P s ∧ Q s) := by
  obtain ⟨hAn, hAd, hAt⟩ := hA
  obtain ⟨hBn, hBd, hBt⟩ := hB
  have hscheme : (A.join B).scheme = A.scheme ++ B.scheme.filter (fun a => a ∉ A.scheme) := by
    rw [Relation.scheme_join, Relation.joinScheme_eq,
      firstOccurrences_of_nodup _ (List.Nodup.filter _ hBn)]
  have hmemS : ∀ x, x ∈ (A.join B).scheme ↔ x ∈ A.scheme ∨ x ∈ B.scheme := by
    intro x
    rw [hscheme, List.mem_append, List.mem_filter]
    by_cases hx : x ∈ A.scheme <;> simp [hx]
  refine ⟨?_, ?_, ?_⟩
  · rw [hscheme]
    apply List.Nodup.append hAn (List.Nodup.filter _ hBn)
    intro x hx hx'
    have := (List.mem_filter.mp hx').2
    simp at this
    exact this hx
  · intro s s' hs
    have h1 : P s ↔ P s' := hAd s s' (fun x hx => hs x ((hmemS x).mpr (Or.inl hx)))
    have h2 : Q s ↔ Q s' := hBd s s' (fun x hx => hs x ((hmemS x).mpr (Or.inr hx)))
    show (P s ∧ Q s) ↔ (P s' ∧ Q s')
    rw [h1, h2]
  · intro u
    rw [Relation.mem_join_iff, hscheme]
    constructor
    · rintro ⟨t₁, h₁, t₂, h₂, hc, hu⟩
      obtain ⟨s₁, hP, ht₁⟩ := (hAt t₁).mp h₁
      obtain ⟨s₂, hQ, ht₂⟩ := (hBt t₂).mp h₂
      have hagree : ∀ a, a ∈ A.scheme → a ∈ B.scheme → s₁ a = s₂ a := by
        intro a haA haB
        obtain ⟨k, hk⟩ := List.mem_iff_getElem?.mp haB
        have := ((hc k a hk).2 haA).2
        rw [ht₁, ht₂, getElem?_map_indexOf A.scheme s₁ a haA, List.getElem?_map, hk] at this
        simpa using this
      refine ⟨fun x => if x ∈ A.scheme then s₁ x else s₂ x, ⟨?_, ?_⟩, ?_⟩
      · exact (hAd _ s₁ (fun x hx => by simp [hx])).mpr hP
      · refine (hBd _ s₂ (fun x hx => ?_)).mpr hQ
        by_cases hxA : x ∈ A.scheme
        · simp [hxA, hagree x hxA hx]
        · simp [hxA]
      · rw [hu, ht₁, ht₂, unsharedValues_map, List.map_append]
        congr 1
        · apply List.map_congr_left
          intro x hx
          simp [hx]
        · apply List.map_congr_left
          intro x hx
          have := (List.mem_filter.mp hx).2
          simp at this
          simp [this]
    · rintro ⟨s, ⟨hP, hQ⟩, hu⟩
      refine ⟨A.scheme.map s, (hAt _).mpr ⟨s, hP, rfl⟩, B.scheme.map s,
        (hBt _).mpr ⟨s, hQ, rfl⟩, ?_, ?_⟩
      · intro k a hk
        have hklt : k < B.scheme.length := (List.getElem?_eq_some.mp hk).1
        refine ⟨by simpa using hklt, fun ha => ⟨?_, ?_⟩⟩
        · simpa using List.indexOf_lt_length.mpr ha
        · rw [getElem?_map_indexOf A.scheme s a ha, List.getElem?_map, hk]
          rfl
      · rw [hu, unsharedValues_map, List.map_append]

theorem denotes_foldl_join (database : Database) (rest : List Predicate)
    (hwf : ∀ b ∈ rest, (database b.name).WellFormed)
    (harity : ∀ b ∈ rest, b.parameters.length = (database b.name).scheme.length) :
    ∀ (acc : Relation) (P : (String → String) → Prop), Denotes acc P →
      Denotes ((rest.map (evaluateQuery database)).foldl Relation.join acc)
        (fun s => P s ∧ Satisfies database s rest) := by
  induction rest with
  | nil =>
    intro acc P h
    simpa [Satisfies] using h
  | cons b rest ih =>
    intro acc P h
    have hb := denotes_evaluateQuery database b (hwf b (List.mem_cons_self b rest))
      (harity b (List.mem_cons_self b rest))
    have hj := denotes_join acc (evaluateQuery database b) P _ h hb
    have := ih (fun b' hb' => hwf b' (List.mem_cons_of_mem b hb'))
      (fun b' hb' => harity b' (List.mem_cons_of_mem b hb')) _ _ hj
    simp only [List.map_cons, List.foldl_cons]
    obtain ⟨h1, h2, h3⟩ := this
    refine ⟨h1, ?_, ?_⟩
    · intro s s' hs
      have := h2 s s' hs
      simp only [Satisfies, List.mem_cons, forall_eq_or_imp] at this ⊢
      tauto
    · intro u
      rw [h3 u]
      simp only [Satisfies, List.mem_cons, forall_eq_or_imp]
      constructor
      · rintro ⟨s, ⟨⟨hP, hb⟩, hr⟩, hu⟩
        exact ⟨s, ⟨hP, hb, hr⟩, hu⟩
      · rintro ⟨s, ⟨hP, hb, hr⟩, hu⟩
        exact ⟨s, ⟨⟨hP, hb⟩, hr⟩, hu⟩

theorem denotes_joinAll (database : Database) (body : List Predicate) (hne : body ≠ [])
    (hwf : ∀ b ∈ body, (database b.name).WellFormed)
    (harity : ∀ b ∈ body, b.parameters.length = (database b.name).scheme.length) :
    Denotes (joinAll (body.map (evaluateQuery database)))
      (fun s => Satisfies database s body) := by
  cases body with
  | nil => exact absurd rfl hne
  | cons b rest =>
    have hb := denotes_evaluateQuery database b (hwf b (List.mem_cons_self b rest))
      (harity b (List.mem_cons_self b rest))
    have := denotes_foldl_join database rest
      (fun b' hb' => hwf b' (List.mem_cons_of_mem b hb'))
      (fun b' hb' => harity b' (List.mem_cons_of_mem b hb')) _ _ hb
    simp only [List.map_cons, joinAll]
    obtain ⟨h1, h2, h3⟩ := this
    refine ⟨h1, ?_, ?_⟩
    · intro s s' hs
      have := h2 s s' hs
      simp only [Satisfies, List.mem_cons, forall_eq_or_imp] at this ⊢
      exact this
    · intro u
      rw [h3 u]
      simp only [Satisfies, List.mem_cons, forall_eq_or_imp]

theorem headColumns_of_found (resultScheme targetScheme : Scheme) :
    ∀ (params : List Parameter) (j : Nat) (indices : List Int) (newAttributes : List String),
      (∀ q ∈ params, q.value ∈ resultScheme) → j + params.length ≤ targetScheme.length →
      headColumns resultScheme targetScheme params j indices newAttributes =
        some (indices ++ params.map (fun q => ((resultScheme.indexOf q.value : Nat) : Int)),
          newAttributes ++ (targetScheme.drop j).take params.length) := by
  intro params
  induction params with
  | nil =>
    intro j indices newAttributes _ _
    simp [headColumns]
  | cons q rest ih =>
    intro j indices newAttributes hfound hlen
    have hq : resultScheme.indexOf q.value < resultScheme.length :=
      List.indexOf_lt_length.mpr (hfound q (List.mem_cons_self q rest))
    simp only [List.length_cons] at hlen
    have hj : j < targetScheme.length := by omega
    unfold headColumns
    simp only []
    rw [if_pos hq, List.getElem?_eq_getElem hj]
    simp only []
    rw [ih (j + 1) _ _ (fun q' hq' => hfound q' (List.mem_cons_of_mem q hq')) (by omega)]
    have hdrop : targetScheme.drop j = targetScheme[j] :: targetScheme.drop (j + 1) :=
      List.drop_eq_getElem_cons hj
    simp only [List.map_cons, List.length_cons, List.append_assoc, List.singleton_append]
    rw [hdrop, List.take_succ_cons]

theorem pickColumns_map_indexOf (scheme : Scheme) (s : String → String) (xs : List String)
    (hxs : ∀ x ∈ xs, x ∈ scheme) :
    Relation.pickColumns (scheme.map s)
      (xs.map (fun x => ((scheme.indexOf x : Nat) : Int))) = xs.map s := by
  have h := Relation.pickColumns_ofNat (scheme.map s) (xs.map (fun x => scheme.indexOf x))
  simp only [List.map_map] at h
  rw [show (xs.map (fun x => ((scheme.indexOf x : Nat) : Int))) =
    List.map ((fun (c : Nat) => (c : Int)) ∘ fun x => scheme.indexOf x) xs from rfl, h]
  clear h
  induction xs with
  | nil => rfl
  | cons x xs ih =>
    simp only [List.map_cons, List.filterMap_cons,
      getElem?_map_indexOf scheme s x (hxs x (List.mem_cons_self x xs))]
    rw [ih (fun y hy => hxs y (List.mem_cons_of_mem x hy))]

theorem mem_firstOccurrences (l : List String) (x : String) :
    x ∈ firstOccurrences l ↔ x ∈ l := by
  induction l with
  | nil => simp [firstOccurrences]
  | cons a as ih =>
    simp only [firstOccurrences, List.mem_cons, List.mem_filter, ih]
    by_cases h : x = a <;> simp [h]

theorem Relation.mem_joinScheme (scheme other : Scheme) (x : String) :
    x ∈ Relation.joinScheme scheme other ↔ x ∈ scheme ∨ x ∈ other := by
  rw [Relation.joinScheme_eq, List.mem_append, mem_firstOccurrences, List.mem_filter]
  by_cases h : x ∈ scheme <;> simp [h]

theorem mem_scheme_foldl_join (rels : List Relation) (x : String) :
    ∀ acc : Relation, x ∈ (rels.foldl Relation.join acc).scheme ↔
      x ∈ acc.scheme ∨ ∃ r ∈ rels, x ∈ r.scheme := by
  induction rels with
  | nil => intro acc; simp
  | cons r rest ih =>
    intro acc
    rw [List.foldl_cons, ih, Relation.scheme_join, Relation.mem_joinScheme]
    simp only [List.mem_cons, exists_eq_or_imp]
    tauto

theorem mem_scheme_joinAll (rels : List Relation) (x : String) (r : Relation)
    (hr : r ∈ rels) (hx : x ∈ r.scheme) : x ∈ (joinAll rels).scheme := by
  cases rels with
  | nil => simp at hr
  | cons first rest =>
    rw [joinAll, mem_scheme_foldl_join]
    rcases List.mem_cons.mp hr with rfl | hr
    · exact Or.inl hx
    · exact Or.inr ⟨r, hr, hx⟩

theorem evaluateRule_denotes (database : Database) (rule : Rule)
    (hwf : ∀ b ∈ rule.bodyPredicates, (database b.name).WellFormed)
    (hbody : rule.bodyPredicates ≠ [])
    (hhead : ∀ x ∈ rule.headPredicate.values,
      ∃ b ∈ rule.bodyPredicates, x ∈ b.values ∧ startsWithQuote x = false)
    (hheadArity : rule.headPredicate.parameters.length =
      (database rule.headPredicate.name).scheme.length)
    (hbodyArity : ∀ b ∈ rule.bodyPredicates,
      b.parameters.length = (database b.name).scheme.length) :
    ∃ result, evaluateRule database rule = some result ∧
      result.scheme = (database rule.headPredicate.name).scheme ∧
      ∀ u, u ∈ result.tuples ↔
        ∃ s, Satisfies database s rule.bodyPredicates ∧
          u = rule.headPredicate.values.map s := by
  have hJ := denotes_joinAll database rule.bodyPredicates hbody hwf hbodyArity
  obtain ⟨hn, hd, ht⟩ := hJ
  have hfoundS : ∀ x ∈ rule.headPredicate.values,
      x ∈ (joinAll (rule.bodyPredicates.map (evaluateQuery database))).scheme := by
    intro x hx
    obtain ⟨b, hb, hxb, hq⟩ := hhead x hx
    apply mem_scheme_joinAll _ x (evaluateQuery database b) (List.mem_map.mpr ⟨b, hb, rfl⟩)
    rw [scheme_evaluateQuery]
    exact (mem_distinctVariables b.values x).mpr ⟨hxb, hq⟩
  have hfound : ∀ q ∈ rule.headPredicate.parameters,
      q.value ∈ (joinAll (rule.bodyPredicates.map (evaluateQuery database))).scheme := by
    intro q hq
    exact hfoundS q.value (List.mem_map.mpr ⟨q, hq, rfl⟩)
  have hcols := headColumns_of_found
    (joinAll (rule.bodyPredicates.map (evaluateQuery database))).scheme
    (database rule.headPredicate.name).scheme rule.headPredicate.parameters 0 [] []
    hfound (by omega)
  unfold evaluateRule
  simp only [Database.getRelation, hcols]
  refine ⟨_, rfl, ?_, ?_⟩
  · rw [Relation.scheme_rename, hheadArity]
    simp
  · intro u
    rw [Relation.tuples_rename, Relation.mem_project]
    have hidx : ([] ++ rule.headPredicate.parameters.map (fun q =>
        (((joinAll (rule.bodyPredicates.map (evaluateQuery database))).scheme.indexOf q.value
          : Nat) : Int))) =
        rule.headPredicate.values.map (fun x =>
          (((joinAll (rule.bodyPredicates.map (evaluateQuery database))).scheme.indexOf x
            : Nat) : Int)) := by
      simp [Predicate.values, List.map_map, Function.comp_def]
    rw [hidx]
    constructor
    · rintro ⟨x, hx, hu⟩
      obtain ⟨s, hs, hxs⟩ := (ht x).mp hx
      refine ⟨s, hs, ?_⟩
      rw [hu, hxs, pickColumns_map_indexOf _ s _ hfoundS]
    · rintro ⟨s, hs, hu⟩
      refine ⟨_, (ht _).mpr ⟨s, hs, rfl⟩, ?_⟩
      rw [hu, pickColumns_map_indexOf _ s _ hfoundS]

/-- C2: for a database whose relations named in the body are well formed and a
rule with at least one body atom, whose head parameters all occur as variables
in the body, whose head has as many parameters as the declared scheme of the
head relation and whose body atoms each have the arity of their relation,
`evaluateRule` returns a relation whose scheme is the declared scheme of the
head relation and whose tuples are exactly the `(s(x1), ..., s(xk))`, `x1..xk`
the head parameters, for the assignments `s` under which every body atom is a
tuple of its relation. -/
theorem evaluateRule_meaning (database : Database) (rule : Rule)
    (hwf : ∀ b ∈ rule.bodyPredicates, (database b.name).WellFormed)
    (hbody : rule.bodyPredicates ≠ [])
    (hhead : ∀ x ∈ rule.headPredicate.values,
      ∃ b ∈ rule.bodyPredicates, x ∈ b.values ∧ startsWithQuote x = false)
    (hheadArity : rule.headPredicate.parameters.length =
      (database rule.headPredicate.name).scheme.length)
    (hbodyArity : ∀ b ∈ rule.bodyPredicates,
      b.parameters.length = (database b.name).scheme.length) :
    ∃ result, evaluateRule database rule = some result ∧
      result.scheme = (database rule.headPredicate.name).scheme ∧
      ∀ u, u ∈ result.tuples ↔
        ∃ s, Satisfies database s rule.bodyPredicates ∧
          u = rule.headPredicate.values.map s :=
  evaluateRule_denotes database rule hwf hbody hhead hheadArity hbodyArity

/-- C2 at scenario 3: the rule `tc(X,Y) :- e(X,Z),tc(Z,Y)` on the database left
by one application of `tc(X,Y) :- e(X,Y)`. -/
theorem evaluateRule_meaning_witness :
    (∀ b ∈ [atom "e" ["X", "Z"], atom "tc" ["Z", "Y"]],
      (scenario3AfterFirstRule b.name).WellFormed) ∧
    (∃ result,
      evaluateRule scenario3AfterFirstRule
        ⟨atom "tc" ["X", "Y"], [atom "e" ["X", "Z"], atom "tc" ["Z", "Y"]]⟩ = some result ∧
      result.scheme = (scenario3AfterFirstRule "tc").scheme ∧
      ∀ u, u ∈ result.tuples ↔
        ∃ s, Satisfies scenario3AfterFirstRule s [atom "e" ["X", "Z"], atom "tc" ["Z", "Y"]] ∧
          u = (atom "tc" ["X", "Y"]).values.map s) :=
  ⟨by decide,
    evaluateRule_meaning scenario3AfterFirstRule
      ⟨atom "tc" ["X", "Y"], [atom "e" ["X", "Z"], atom "tc" ["Z", "Y"]]⟩
      (by decide) (by decide) (by decide) (by decide) (by decide)⟩

theorem TupleSet.nodup (s : TupleSet) : s.elems.Nodup := ascending_nodup s.elems s.ascending

theorem TupleSet.size_le_of_subset (a b : TupleSet) (h : ∀ t, t ∈ a → t ∈ b) :
    a.size ≤ b.size :=
  List.Subperm.length_le (List.Nodup.subperm a.nodup (fun t ht => h t ht))

theorem TupleSet.eq_of_subset_of_size_le (a b : TupleSet) (h : ∀ t, t ∈ a → t ∈ b)
    (hsize : b.size ≤ a.size) : a = b := by
  apply TupleSet.ext
  have hsub : a.elems.Subperm b.elems := List.Nodup.subperm a.nodup (fun t ht => h t ht)
  have hperm : a.elems.Perm b.elems := List.Subperm.perm_of_length_le hsub hsize
  intro t
  exact hperm.mem_iff

theorem Relation.unionWith_name (r other : Relation) : (r.unionWith other).name = r.name :=
  (Relation.unionWith_adds r other).1

theorem Relation.unionWith_scheme (r other : Relation) :
    (r.unionWith other).scheme = r.scheme :=
  (Relation.unionWith_adds r other).2.1

theorem Relation.size_le_unionWith (r other : Relation) : r.size ≤ (r.unionWith other).size :=
  TupleSet.size_le_of_subset _ _
    (fun t ht => (Relation.mem_unionWith r other t).mpr (Or.inl ht))

theorem Relation.unionWith_eq_of_size_le (r other : Relation)
    (h : (r.unionWith other).size ≤ r.size) : r.unionWith other = r := by
  have := TupleSet.eq_of_subset_of_size_le r.tuples (r.unionWith other).tuples
    (fun t ht => (Relation.mem_unionWith r other t).mpr (Or.inl ht)) h
  apply Relation.ext'
  · exact Relation.unionWith_name r other
  · exact Relation.unionWith_scheme r other
  · intro t; rw [← this]

theorem Relation.unionWith_eq_of_subset (r other : Relation)
    (h : ∀ t, t ∈ other.tuples → t ∈ r.tuples) : r.unionWith other = r := by
  apply Relation.ext'
  · exact Relation.unionWith_name r other
  · exact Relation.unionWith_scheme r other
  · intro t
    rw [Relation.mem_unionWith]
    constructor
    · rintro (ht | ht)
      · exact ht
      · exact h t ht
    · exact Or.inl

theorem Database.addRelation_self (db : Database) (name : String) :
    db.addRelation name (db name) = db := by
  funext n
  unfold Database.addRelation
  by_cases h : n = name
  · simp [h]
  · simp [h]

theorem mem_foldl_erase (existing : List Tuple) (s : TupleSet) (t : Tuple) :
    t ∈ existing.foldl (fun s tuple => s.erase tuple) s ↔ t ∈ s ∧ t ∉ existing := by
  induction existing generalizing s with
  | nil => simp
  | cons e es ih =>
    rw [List.foldl_cons, ih, TupleSet.mem_erase]
    simp only [List.mem_cons, not_or]
    tauto

theorem evaluateRulesStep_eq_some (st st' : RulesState) (rule : Rule)
    (h : evaluateRulesStep st rule = some st') :
    ∃ result text, evaluateRule st.database rule = some result ∧
      (newTuplesOf (st.database rule.headPredicate.name) result).toString = some text ∧
      st'.database = st.database.addRelation rule.headPredicate.name
        ((st.database rule.headPredicate.name).unionWith result) ∧
      st'.databaseChanged =
        (if ((st.database rule.headPredicate.name).unionWith result).size >
            (st.database rule.headPredicate.name).size then true
          else st.databaseChanged) ∧
      st'.output = st.output ++ trimTrailingPeriod rule.toString ++ "\n" ++ text := by
  unfold evaluateRulesStep at h
  cases hr : evaluateRule st.database rule with
  | none => simp [hr] at h
  | some result =>
    simp only [hr, Database.getRelation] at h
    cases hp : (newTuplesOf (st.database rule.headPredicate.name) result).toString with
    | none => simp [hp] at h
    | some text =>
      simp only [hp, Option.some.injEq] at h
      subst h
      exact ⟨result, text, rfl, hp, rfl, rfl, rfl⟩

theorem evaluateRulesStep_of (st : RulesState) (rule : Rule) (result : Relation) (text : String)
    (hr : evaluateRule st.database rule = some result)
    (hp : (newTuplesOf (st.database rule.headPredicate.name) result).toString = some text) :
    evaluateRulesStep st rule = some
      { database := st.database.addRelation rule.headPredicate.name
          ((st.database rule.headPredicate.name).unionWith result)
        databaseChanged :=
          if ((st.database rule.headPredicate.name).unionWith result).size >
              (st.database rule.headPredicate.name).size then true
            else st.databaseChanged
        output := st.output ++ trimTrailingPeriod rule.toString ++ "\n" ++ text } := by
  unfold evaluateRulesStep
  simp only [hr, Database.getRelation, hp, Relation.size]

theorem newTuplesOf_of_subset (existing result : Relation)
    (h : ∀ t, t ∈ result.tuples → t ∈ existing.tuples) :
    (newTuplesOf existing result).toString = some "" := by
  have : (newTuplesOf existing result).tuples = TupleSet.empty := by
    apply TupleSet.ext
    intro t
    unfold newTuplesOf
    simp only [mem_foldl_erase]
    constructor
    · rintro ⟨h1, h2⟩
      exact absurd (h t h1) h2
    · intro h1
      exact absurd h1 (TupleSet.not_mem_empty t)
  unfold Relation.toString
  rw [this]
  rfl

theorem evaluateRulesStep_unchanged (st st' : RulesState) (rule : Rule)
    (h : evaluateRulesStep st rule = some st') (hc : st'.databaseChanged = false) :
    st.databaseChanged = false ∧ st'.database = st.database ∧ Stable st.database rule := by
  obtain ⟨result, text, hr, _, hdb, hch, _⟩ := evaluateRulesStep_eq_some st st' rule h
  rw [hc] at hch
  by_cases hsize : ((st.database rule.headPredicate.name).unionWith result).size >
      (st.database rule.headPredicate.name).size
  · rw [if_pos hsize] at hch
    simp at hch
  · rw [if_neg hsize] at hch
    have heq := Relation.unionWith_eq_of_size_le _ result (Nat.le_of_not_lt hsize)
    refine ⟨hch.symm, ?_, result, hr, ?_⟩
    · rw [hdb, heq, Database.addRelation_self]
    · intro t ht
      rw [← heq, Relation.mem_unionWith]
      exact Or.inr ht

theorem evaluateRulesStep_stable (st : RulesState) (rule : Rule)
    (h : Stable st.database rule) :
    ∃ output, evaluateRulesStep st rule = some ⟨st.database, st.databaseChanged, output⟩ := by
  obtain ⟨result, hr, hsub⟩ := h
  have hp := newTuplesOf_of_subset (st.database rule.headPredicate.name) result hsub
  have heq := Relation.unionWith_eq_of_subset (st.database rule.headPredicate.name) result hsub
  refine ⟨st.output ++ trimTrailingPeriod rule.toString ++ "\n" ++ "", ?_⟩
  rw [evaluateRulesStep_of st rule result "" hr hp, heq, Database.addRelation_self]
  simp

theorem evaluateRulesPass_unchanged (rules : List Rule) :
    ∀ (st st' : RulesState), evaluateRulesPass rules st = some st' →
      st'.databaseChanged = false →
      st.databaseChanged = false ∧ st'.database = st.database ∧
        ∀ rule ∈ rules, Stable st.database rule := by
  induction rules with
  | nil =>
    intro st st' h hc
    simp only [evaluateRulesPass, List.foldlM_nil, Option.pure_def, Option.some.injEq] at h
    subst h
    exact ⟨hc, rfl, fun _ hr => by simp at hr⟩
  | cons rule rest ih =>
    intro st st' h hc
    simp only [evaluateRulesPass, List.foldlM_cons, Option.bind_eq_bind] at h
    cases h1 : evaluateRulesStep st rule with
    | none => simp [h1] at h
    | some st1 =>
      simp only [h1, Option.some_bind] at h
      obtain ⟨hc1, hdb1, hst1⟩ := ih st1 st' h hc
      obtain ⟨hc0, hdb0, hst0⟩ := evaluateRulesStep_unchanged st st1 rule h1 hc1
      refine ⟨hc0, by rw [hdb1, hdb0], ?_⟩
      intro r hr
      rcases List.mem_cons.mp hr with rfl | hr
      · exact hst0
      · rw [← hdb0]; exact hst1 r hr

theorem evaluateRulesPass_stable (rules : List Rule) :
    ∀ (st : RulesState), (∀ rule ∈ rules, Stable st.database rule) →
      ∃ output, evaluateRulesPass rules st = some ⟨st.database, st.databaseChanged, output⟩ := by
  induction rules with
  | nil =>
    intro st _
    exact ⟨st.output, rfl⟩
  | cons rule rest ih =>
    intro st h
    obtain ⟨o1, h1⟩ := evaluateRulesStep_stable st rule (h rule (List.mem_cons_self rule rest))
    obtain ⟨o2, h2⟩ := ih ⟨st.database, st.databaseChanged, o1⟩
      (fun r hr => h r (List.mem_cons_of_mem rule hr))
    refine ⟨o2, ?_⟩
    simp only [evaluateRulesPass, List.foldlM_cons, Option.bind_eq_bind, h1, Option.some_bind]
    exact h2

theorem evaluateRulesLoop_done (rules : List Rule) :
    ∀ (fuel : Nat) (database : Database) (count : Nat) (output : String)
      (r : Database × Nat × String),
      evaluateRulesLoop rules fuel database count output = Run.done r →
      ∃ (last : Database) (out : String) (st : RulesState),
        evaluateRulesPass rules ⟨last, false, out⟩ = some st ∧
          st.databaseChanged = false ∧ st.database = r.1 := by
  intro fuel
  induction fuel with
  | zero =>
    intro database count output r h
    simp [evaluateRulesLoop] at h
  | succ fuel ih =>
    intro database count output r h
    unfold evaluateRulesLoop at h
    cases hp : evaluateRulesPass rules ⟨database, false, output⟩ with
    | none => simp [hp] at h
    | some st =>
      simp only [hp] at h
      by_cases hc : st.databaseChanged = true
      · rw [if_pos hc] at h
        exact ih _ _ _ r h
      · rw [if_neg hc] at h
        simp only [Run.done.injEq] at h
        subst h
        exact ⟨database, output, st, hp, by simpa using hc, rfl⟩

theorem evaluateRules_done (rules : List Rule) (fuel : Nat) (database : Database)
    (r : Database × Nat × String) (h : evaluateRules rules fuel database = Run.done r) :
    ∃ output, evaluateRulesLoop rules fuel database 0 "Rule Evaluation\n" =
      Run.done (r.1, r.2.1, output) := by
  unfold evaluateRules at h
  cases hl : evaluateRulesLoop rules fuel database 0 "Rule Evaluation\n" with
  | done r' =>
    obtain ⟨db, n, out⟩ := r'
    simp only [hl, Run.done.injEq] at h
    subst h
    exact ⟨out, rfl⟩
  | fault => simp [hl] at h
  | unfinished => simp [hl] at h

theorem stable_of_evaluateRules (rules : List Rule) (fuel : Nat) (database : Database)
    (r : Database × Nat × String) (h : evaluateRules rules fuel database = Run.done r) :
    ∀ rule ∈ rules, Stable r.1 rule := by
  obtain ⟨output, hl⟩ := evaluateRules_done rules fuel database r h
  obtain ⟨last, out, st, hp, hc, hdb⟩ := evaluateRulesLoop_done rules fuel database 0 _ _ hl
  obtain ⟨_, hsame, hst⟩ := evaluateRulesPass_unchanged rules _ st hp hc
  simp only at hdb hsame hst
  rw [← hdb, hsame]
  exact hst

set_option maxRecDepth 1000000 in
theorem scenario3_run :
    evaluateRules scenario3Rules 3 scenario3Database =
      Run.done (scenario3Final, 3, scenario3Output) := by
  rfl

/-- C3: when `evaluateRules` terminates, one more pass over all rules in program
order on the resulting database succeeds, leaves the database as it is and
does not set `databaseChanged`; the result of every rule is already
contained in its head relation. -/
theorem evaluateRules_fixed_point (rules : List Rule) (fuel : Nat)
    (database final : Database) (iterationCount : Nat) (output further : String)
    (h : evaluateRules rules fuel database = Run.done (final, iterationCount, output)) :
    (∃ text, evaluateRulesPass rules ⟨final, false, further⟩ = some ⟨final, false, text⟩) ∧
    ∀ rule ∈ rules, ∃ result, evaluateRule final rule = some result ∧
      ∀ t, t ∈ result.tuples → t ∈ (final rule.headPredicate.name).tuples := by
  have hst := stable_of_evaluateRules rules fuel database _ h
  exact ⟨evaluateRulesPass_stable rules ⟨final, false, further⟩ hst, hst⟩

/-- C3 at scenario 3: after the three passes a further pass changes nothing. -/
theorem evaluateRules_fixed_point_witness :
    evaluateRules scenario3Rules 3 scenario3Database =
      Run.done (scenario3Final, 3, scenario3Output) ∧
    ((∃ text, evaluateRulesPass scenario3Rules ⟨scenario3Final, false, ""⟩ =
      some ⟨scenario3Final, false, text⟩) ∧
    ∀ rule ∈ scenario3Rules, ∃ result, evaluateRule scenario3Final rule = some result ∧
      ∀ t, t ∈ result.tuples → t ∈ (scenario3Final rule.headPredicate.name).tuples) :=
  ⟨scenario3_run,
    evaluateRules_fixed_point scenario3Rules 3 scenario3Database scenario3Final 3
      scenario3Output "" scenario3_run⟩

theorem Tuple.toStringFrom_some (tuple : Tuple) :
    ∀ (scheme : List String) (i : Nat) (ss : String), i + scheme.length ≤ tuple.length →
      ∃ text, Tuple.toStringFrom tuple i scheme ss = some text := by
  intro scheme
  induction scheme with
  | nil => intro i ss _; exact ⟨ss, rfl⟩
  | cons attr rest ih =>
    intro i ss h
    simp only [List.length_cons] at h
    have hi : i < tuple.length := by omega
    unfold Tuple.toStringFrom
    rw [List.getElem?_eq_getElem hi]
    exact ih (i + 1) _ (by omega)

theorem Relation.toString_some (r : Relation)
    (h : ∀ t ∈ r.tuples.elems, r.scheme.length ≤ t.length) : ∃ text, r.toString = some text := by
  unfold Relation.toString
  generalize r.tuples.elems = l at h
  generalize "" = init
  induction l generalizing init with
  | nil => exact ⟨init, rfl⟩
  | cons t ts ih =>
    obtain ⟨line, hline⟩ := Tuple.toStringFrom_some t r.scheme 0 ""
      (by have := h t (List.mem_cons_self t ts); omega)
    simp only [List.foldlM_cons, Tuple.toString, hline, Option.map_some', Option.bind_eq_bind,
      Option.some_bind]
    exact ih (fun t' ht' => h t' (List.mem_cons_of_mem t ht')) _

theorem mem_ruleNames_head (rules : List Rule) (rule : Rule) (h : rule ∈ rules) :
    rule.headPredicate.name ∈ ruleNames rules := by
  unfold ruleNames
  exact List.mem_flatMap.mpr ⟨rule, h, List.mem_cons_self _ _⟩

theorem mem_ruleNames_body (rules : List Rule) (rule : Rule) (h : rule ∈ rules)
    (b : Predicate) (hb : b ∈ rule.bodyPredicates) : b.name ∈ ruleNames rules := by
  unfold ruleNames
  exact List.mem_flatMap.mpr
    ⟨rule, h, List.mem_cons_of_mem _ (List.mem_map.mpr ⟨b, hb, rfl⟩)⟩

theorem loopInv_initial (rules : List Rule) (initial : Database)
    (hwf : ∀ name ∈ ruleNames rules, (initial name).WellFormed) :
    LoopInv rules initial initial := by
  refine ⟨fun _ => rfl, fun name hname => ⟨hwf name hname, fun t ht x hx => ?_⟩⟩
  unfold valuesOf
  exact List.mem_flatMap.mpr ⟨name, hname, List.mem_flatten.mpr ⟨t, ht, hx⟩⟩

theorem evaluateRule_of_loopInv (rules : List Rule) (initial database : Database)
    (rule : Rule) (hrule : rule ∈ rules) (hfit : rule.WellFormedIn initial)
    (hinv : LoopInv rules initial database) :
    ∃ result, evaluateRule database rule = some result ∧
      result.scheme = (database rule.headPredicate.name).scheme ∧
      (∀ u, u ∈ result.tuples ↔
        ∃ s, Satisfies database s rule.bodyPredicates ∧
          u = rule.headPredicate.values.map s) ∧
      result.WellFormed ∧
      ∀ t ∈ result.tuples.elems, ∀ x ∈ t, x ∈ valuesOf initial (ruleNames rules) := by
  obtain ⟨hne, hha, hba, hhv⟩ := hfit
  obtain ⟨hs, hrel⟩ := hinv
  obtain ⟨result, hr, hsch, hmem⟩ := evaluateRule_denotes database rule
    (fun b hb => (hrel b.name (mem_ruleNames_body rules rule hrule b hb)).1) hne hhv
    (by rw [hs]; exact hha) (fun b hb => by rw [hs]; exact hba b hb)
  refine ⟨result, hr, hsch, hmem, ?_, ?_⟩
  · intro t ht
    obtain ⟨s, _, hts⟩ := (hmem t).mp ht
    rw [hts, hsch, hs, ← hha]
    simp [Predicate.values]
  · intro t ht x hx
    obtain ⟨s, hsat, hts⟩ := (hmem t).mp ht
    rw [hts] at hx
    obtain ⟨y, hy, rfl⟩ := List.mem_map.mp hx
    obtain ⟨b, hb, hyb, hq⟩ := hhv y hy
    have hin := hsat b hb
    refine (hrel b.name (mem_ruleNames_body rules rule hrule b hb)).2 _ hin (s y) ?_
    unfold instantiate
    exact List.mem_map.mpr ⟨y, hyb, by simp [hq]⟩

theorem evaluateRulesStep_of_loopInv (rules : List Rule) (initial : Database)
    (rule : Rule) (hrule : rule ∈ rules) (hfit : rule.WellFormedIn initial)
    (st : RulesState) (hinv : LoopInv rules initial st.database) :
    ∃ st', evaluateRulesStep st rule = some st' ∧ LoopInv rules initial st'.database := by
  obtain ⟨result, hr, hsch, _, hwf, hdom⟩ :=
    evaluateRule_of_loopInv rules initial st.database rule hrule hfit hinv
  have hprint : ∃ text,
      (newTuplesOf (st.database rule.headPredicate.name) result).toString = some text := by
    apply Relation.toString_some
    intro t ht
    have hmem : t ∈ result.tuples := by
      have : t ∈ (newTuplesOf (st.database rule.headPredicate.name) result).tuples := ht
      unfold newTuplesOf at this
      exact ((mem_foldl_erase _ _ t).mp this).1
    have := hwf t hmem
    show result.scheme.length ≤ t.length
    omega
  obtain ⟨text, hp⟩ := hprint
  refine ⟨_, evaluateRulesStep_of st rule result text hr hp, ?_⟩
  obtain ⟨hs, hrel⟩ := hinv
  refine ⟨?_, ?_⟩
  · intro name
    simp only [Database.addRelation]
    by_cases hn : name = rule.headPredicate.name
    · rw [if_pos hn, Relation.unionWith_scheme, ← hn]
      exact hs name
    · rw [if_neg hn]
      exact hs name
  · intro name hname
    simp only [Database.addRelation]
    by_cases hn : name = rule.headPredicate.name
    · rw [if_pos hn]
      have hold := hrel name hname
      rw [hn] at hold
      refine ⟨?_, ?_⟩
      · intro t ht
        rw [Relation.unionWith_scheme]
        rcases (Relation.mem_unionWith _ _ t).mp ht with h1 | h1
        · exact hold.1 t h1
        · rw [← hsch]; exact hwf t h1
      · intro t ht
        rcases (Relation.mem_unionWith _ _ t).mp ht with h1 | h1
        · exact hold.2 t h1
        · exact hdom t h1
    · rw [if_neg hn]
      exact hrel name hname

theorem evaluateRulesPass_of_loopInv (rules : List Rule) (initial : Database)
    (hfit : ∀ rule ∈ rules, rule.WellFormedIn initial) :
    ∀ (todo : List Rule), (∀ rule ∈ todo, rule ∈ rules) → ∀ (st : RulesState),
      LoopInv rules initial st.database →
      ∃ st', evaluateRulesPass todo st = some st' ∧ LoopInv rules initial st'.database := by
  intro todo
  induction todo with
  | nil => intro _ st h; exact ⟨st, rfl, h⟩
  | cons rule rest ih =>
    intro hsub st hinv
    have hrule := hsub rule (List.mem_cons_self rule rest)
    obtain ⟨st1, h1, hinv1⟩ :=
      evaluateRulesStep_of_loopInv rules initial rule hrule (hfit rule hrule) st hinv
    obtain ⟨st2, h2, hinv2⟩ := ih (fun r hr => hsub r (List.mem_cons_of_mem rule hr)) st1 hinv1
    refine ⟨st2, ?_, hinv2⟩
    simp only [evaluateRulesPass, List.foldlM_cons, Option.bind_eq_bind, h1, Option.some_bind]
    exact h2

theorem mem_allTuples (dom : List String) (k : Nat) (t : Tuple) :
    t ∈ allTuples dom k ↔ t.length = k ∧ ∀ x ∈ t, x ∈ dom := by
  induction k generalizing t with
  | zero =>
    simp only [allTuples, List.mem_singleton]
    constructor
    · rintro rfl; simp
    · rintro ⟨h, _⟩; exact List.length_eq_zero.mp h
  | succ k ih =>
    simp only [allTuples, List.mem_flatMap, List.mem_map]
    constructor
    · rintro ⟨x, hx, t', ht', rfl⟩
      obtain ⟨h1, h2⟩ := (ih t').mp ht'
      refine ⟨by simp [h1], ?_⟩
      intro y hy
      rcases List.mem_cons.mp hy with rfl | hy
      · exact hx
      · exact h2 y hy
    · rintro ⟨hlen, hall⟩
      cases t with
      | nil => simp at hlen
      | cons x t' =>
        refine ⟨x, hall x (List.mem_cons_self x t'), t', (ih t').mpr ⟨?_, ?_⟩, rfl⟩
        · simpa using hlen
        · exact fun y hy => hall y (List.mem_cons_of_mem x hy)

theorem totalSize_le_sizeBound (rules : List Rule) (initial database : Database)
    (hinv : LoopInv rules initial database) :
    totalSize (ruleNames rules) database ≤ sizeBound (ruleNames rules) initial := by
  unfold totalSize sizeBound
  apply Finset.sum_le_sum
  intro n hn
  have hn' : n ∈ ruleNames rules := List.mem_toFinset.mp hn
  obtain ⟨hwf, hdom⟩ := hinv.2 n hn'
  apply List.Subperm.length_le
  apply List.Nodup.subperm (database n).tuples.nodup
  intro t ht
  rw [mem_allTuples]
  exact ⟨by rw [hwf t ht, hinv.1 n], hdom t ht⟩

theorem evaluateRulesStep_totalSize (names : List String) (st st' : RulesState) (rule : Rule)
    (hname : rule.headPredicate.name ∈ names) (h : evaluateRulesStep st rule = some st') :
    totalSize names st.database ≤ totalSize names st'.database ∧
      (st'.databaseChanged = true →
        st.databaseChanged = true ∨
          totalSize names st.database < totalSize names st'.database) := by
  obtain ⟨result, text, _, _, hdb, hch, _⟩ := evaluateRulesStep_eq_some st st' rule h
  have hle : ∀ n, (st.database n).size ≤ (st'.database n).size := by
    intro n
    rw [hdb]
    simp only [Database.addRelation]
    by_cases hn : n = rule.headPredicate.name
    · rw [if_pos hn, hn]
      exact Relation.size_le_unionWith _ _
    · rw [if_neg hn]
  refine ⟨Finset.sum_le_sum (fun n _ => hle n), ?_⟩
  intro hc
  by_cases hsize : ((st.database rule.headPredicate.name).unionWith result).size >
      (st.database rule.headPredicate.name).size
  · right
    apply Finset.sum_lt_sum (fun n _ => hle n)
    refine ⟨rule.headPredicate.name, List.mem_toFinset.mpr hname, ?_⟩
    rw [hdb]
    simp only [Database.addRelation, if_true]
    exact hsize
  · left
    rw [if_neg hsize] at hch
    rw [← hch]
    exact hc

theorem evaluateRulesPass_totalSize (names : List String) :
    ∀ (todo : List Rule), (∀ rule ∈ todo, rule.headPredicate.name ∈ names) →
      ∀ (st st' : RulesState), evaluateRulesPass todo st = some st' →
      totalSize names st.database ≤ totalSize names st'.database ∧
        (st'.databaseChanged = true →
          st.databaseChanged = true ∨
            totalSize names st.database < totalSize names st'.database) := by
  intro todo
  induction todo with
  | nil =>
    intro _ st st' h
    simp only [evaluateRulesPass, List.foldlM_nil, Option.pure_def, Option.some.injEq] at h
    subst h
    exact ⟨le_refl _, fun hc => Or.inl hc⟩
  | cons rule rest ih =>
    intro hsub st st' h
    simp only [evaluateRulesPass, List.foldlM_cons, Option.bind_eq_bind] at h
    cases h1 : evaluateRulesStep st rule with
    | none => simp [h1] at h
    | some st1 =>
      simp only [h1, Option.some_bind] at h
      obtain ⟨hle1, hc1⟩ := evaluateRulesStep_totalSize names st st1 rule
        (hsub rule (List.mem_cons_self rule rest)) h1
      obtain ⟨hle2, hc2⟩ := ih (fun r hr => hsub r (List.mem_cons_of_mem rule hr)) st1 st' h
      refine ⟨le_trans hle1 hle2, fun hc => ?_⟩
      rcases hc2 hc with h3 | h3
      · rcases hc1 h3 with h4 | h4
        · exact Or.inl h4
        · exact Or.inr (lt_of_lt_of_le h4 hle2)
      · exact Or.inr (lt_of_le_of_lt hle1 h3)

theorem evaluateRulesLoop_terminates (rules : List Rule) (initial : Database)
    (hfit : ∀ rule ∈ rules, rule.WellFormedIn initial) :
    ∀ (m : Nat) (database : Database), LoopInv rules initial database →
      sizeBound (ruleNames rules) initial - totalSize (ruleNames rules) database ≤ m →
      ∀ (count : Nat) (output : String),
        ∃ fuel r, evaluateRulesLoop rules fuel database count output = Run.done r ∧
          count < r.2.1 := by
  intro m
  induction m with
  | zero =>
    intro database hinv hm count output
    obtain ⟨st, hp, hinv'⟩ := evaluateRulesPass_of_loopInv rules initial hfit rules
      (fun _ h => h) ⟨database, false, output⟩ hinv
    obtain ⟨_, hc⟩ := evaluateRulesPass_totalSize (ruleNames rules) rules
      (fun r hr => mem_ruleNames_head rules r hr) _ st hp
    have hb := totalSize_le_sizeBound rules initial st.database hinv'
    have hnc : st.databaseChanged = false := by
      by_contra hne
      have hc' : st.databaseChanged = true := by simpa using hne
      rcases hc hc' with h1 | h1
      · simp at h1
      · simp only at h1; omega
    refine ⟨1, (st.database, count + 1, st.output), ?_, by simp⟩
    simp [evaluateRulesLoop, hp, hnc]
  | succ m ih =>
    intro database hinv hm count output
    obtain ⟨st, hp, hinv'⟩ := evaluateRulesPass_of_loopInv rules initial hfit rules
      (fun _ h => h) ⟨database, false, output⟩ hinv
    obtain ⟨_, hc⟩ := evaluateRulesPass_totalSize (ruleNames rules) rules
      (fun r hr => mem_ruleNames_head rules r hr) _ st hp
    have hb := totalSize_le_sizeBound rules initial st.database hinv'
    by_cases hch : st.databaseChanged = true
    · have hlt : totalSize (ruleNames rules) database <
          totalSize (ruleNames rules) st.database := by
        rcases hc hch with h1 | h1
        · simp at h1
        · exact h1
      obtain ⟨fuel, r, hr, hcount⟩ := ih st.database hinv' (by omega) (count + 1) st.output
      refine ⟨fuel + 1, r, ?_, by omega⟩
      simp [evaluateRulesLoop, hp, hch, hr]
    · refine ⟨1, (st.database, count + 1, st.output), ?_, by simp⟩
      simp [evaluateRulesLoop, hp, hch]

theorem evaluateQuery_mono (database model : Database) (hle : database.Le model)
    (p : Predicate) :
    (evaluateQuery database p).scheme = (evaluateQuery model p).scheme ∧
      ∀ u, u ∈ (evaluateQuery database p).tuples → u ∈ (evaluateQuery model p).tuples := by
  refine ⟨by rw [scheme_evaluateQuery, scheme_evaluateQuery], fun u hu => ?_⟩
  rw [mem_evaluateQuery] at hu ⊢
  obtain ⟨t, ht, hsel, hut⟩ := hu
  exact ⟨t, hle.2 _ t ht, hsel, hut⟩

theorem Relation.join_mono (A A' B B' : Relation) (hA : A.scheme = A'.scheme)
    (hB : B.scheme = B'.scheme) (hAt : ∀ u, u ∈ A.tuples → u ∈ A'.tuples)
    (hBt : ∀ u, u ∈ B.tuples → u ∈ B'.tuples) :
    (A.join B).scheme = (A'.join B').scheme ∧
      ∀ u, u ∈ (A.join B).tuples → u ∈ (A'.join B').tuples := by
  refine ⟨by rw [Relation.scheme_join, Relation.scheme_join, hA, hB], fun u hu => ?_⟩
  rw [Relation.mem_join_iff] at hu ⊢
  obtain ⟨t₁, h₁, t₂, h₂, hc, hut⟩ := hu
  refine ⟨t₁, hAt t₁ h₁, t₂, hBt t₂ h₂, ?_, ?_⟩
  · rw [← hA, ← hB]; exact hc
  · rw [← hA, ← hB]; exact hut

theorem foldl_join_mono (database model : Database) (hle : database.Le model)
    (rest : List Predicate) :
    ∀ (acc acc' : Relation), acc.scheme = acc'.scheme →
      (∀ u, u ∈ acc.tuples → u ∈ acc'.tuples) →
      ((rest.map (evaluateQuery database)).foldl Relation.join acc).scheme =
        ((rest.map (evaluateQuery model)).foldl Relation.join acc').scheme ∧
      ∀ u, u ∈ ((rest.map (evaluateQuery database)).foldl Relation.join acc).tuples →
        u ∈ ((rest.map (evaluateQuery model)).foldl Relation.join acc').tuples := by
  induction rest with
  | nil => intro acc acc' hs ht; exact ⟨hs, ht⟩
  | cons b rest ih =>
    intro acc acc' hs ht
    obtain ⟨hqs, hqt⟩ := evaluateQuery_mono database model hle b
    obtain ⟨hjs, hjt⟩ := Relation.join_mono acc acc' _ _ hs hqs ht hqt
    simpa using ih _ _ hjs hjt

theorem joinAll_mono (database model : Database) (hle : database.Le model)
    (body : List Predicate) :
    (joinAll (body.map (evaluateQuery database))).scheme =
        (joinAll (body.map (evaluateQuery model))).scheme ∧
      ∀ u, u ∈ (joinAll (body.map (evaluateQuery database))).tuples →
        u ∈ (joinAll (body.map (evaluateQuery model))).tuples := by
  cases body with
  | nil => exact ⟨rfl, fun u hu => hu⟩
  | cons b rest =>
    obtain ⟨hqs, hqt⟩ := evaluateQuery_mono database model hle b
    simpa [joinAll] using foldl_join_mono database model hle rest _ _ hqs hqt

theorem evaluateRule_mono (database model : Database) (hle : database.Le model)
    (rule : Rule) (result : Relation) (h : evaluateRule database rule = some result) :
    ∃ result', evaluateRule model rule = some result' ∧
      ∀ u, u ∈ result.tuples → u ∈ result'.tuples := by
  obtain ⟨hjs, hjt⟩ := joinAll_mono database model hle rule.bodyPredicates
  unfold evaluateRule at h ⊢
  simp only [Database.getRelation] at h ⊢
  rw [← hjs, ← hle.1 rule.headPredicate.name]
  cases hc : headColumns (joinAll (rule.bodyPredicates.map (evaluateQuery database))).scheme
      (database rule.headPredicate.name).scheme rule.headPredicate.parameters 0 [] [] with
  | none => simp [hc] at h
  | some cols =>
    obtain ⟨indices, newAttributes⟩ := cols
    simp only [hc, Option.some.injEq] at h ⊢
    subst h
    refine ⟨_, rfl, fun u hu => ?_⟩
    rw [Relation.tuples_rename, Relation.mem_project] at hu ⊢
    obtain ⟨x, hx, hux⟩ := hu
    exact ⟨x, hjt x hx, hux⟩

theorem evaluateRulesStep_le (model : Database) (st st' : RulesState) (rule : Rule)
    (hclosed : model.ClosedUnder rule) (hle : st.database.Le model)
    (h : evaluateRulesStep st rule = some st') : st'.database.Le model := by
  obtain ⟨result, text, hr, _, hdb, _, _⟩ := evaluateRulesStep_eq_some st st' rule h
  obtain ⟨result', hr', hsub⟩ := evaluateRule_mono st.database model hle rule result hr
  rw [hdb]
  refine ⟨fun name => ?_, fun name t ht => ?_⟩
  · simp only [Database.addRelation]
    by_cases hn : name = rule.headPredicate.name
    · rw [if_pos hn, Relation.unionWith_scheme, hn]
      exact hle.1 _
    · rw [if_neg hn]
      exact hle.1 name
  · simp only [Database.addRelation] at ht
    by_cases hn : name = rule.headPredicate.name
    · rw [if_pos hn, Relation.mem_unionWith] at ht
      rw [hn]
      rcases ht with h1 | h1
      · exact hle.2 _ t h1
      · exact hclosed result' hr' t (hsub t h1)
    · rw [if_neg hn] at ht
      exact hle.2 name t ht

theorem evaluateRulesPass_le (model : Database) :
    ∀ (todo : List Rule), (∀ rule ∈ todo, model.ClosedUnder rule) →
      ∀ (st st' : RulesState), st.database.Le model →
        evaluateRulesPass todo st = some st' → st'.database.Le model := by
  intro todo
  induction todo with
  | nil =>
    intro _ st st' hle h
    simp only [evaluateRulesPass, List.foldlM_nil, Option.pure_def, Option.some.injEq] at h
    subst h
    exact hle
  | cons rule rest ih =>
    intro hclosed st st' hle h
    simp only [evaluateRulesPass, List.foldlM_cons, Option.bind_eq_bind] at h
    cases h1 : evaluateRulesStep st rule with
    | none => simp [h1] at h
    | some st1 =>
      simp only [h1, Option.some_bind] at h
      exact ih (fun r hr => hclosed r (List.mem_cons_of_mem rule hr)) st1 st'
        (evaluateRulesStep_le model st st1 rule (hclosed rule (List.mem_cons_self rule rest))
          hle h1) h

theorem evaluateRulesLoop_le (rules : List Rule) (model : Database)
    (hclosed : ∀ rule ∈ rules, model.ClosedUnder rule) :
    ∀ (fuel : Nat) (database : Database) (count : Nat) (output : String)
      (r : Database × Nat × String), database.Le model →
      evaluateRulesLoop rules fuel database count output = Run.done r → r.1.Le model := by
  intro fuel
  induction fuel with
  | zero =>
    intro database count output r _ h
    simp [evaluateRulesLoop] at h
  | succ fuel ih =>
    intro database count output r hle h
    unfold evaluateRulesLoop at h
    cases hp : evaluateRulesPass rules ⟨database, false, output⟩ with
    | none => simp [hp] at h
    | some st =>
      simp only [hp] at h
      have hle' := evaluateRulesPass_le model rules hclosed _ st hle hp
      by_cases hc : st.databaseChanged = true
      · rw [if_pos hc] at h
        exact ih _ _ _ r hle' h
      · rw [if_neg hc] at h
        simp only [Run.done.injEq] at h
        subst h
        exact hle'

theorem evaluateRulesPass_ge (todo : List Rule) :
    ∀ (st st' : RulesState), evaluateRulesPass todo st = some st' →
      st.database.Le st'.database := by
  induction todo with
  | nil =>
    intro st st' h
    simp only [evaluateRulesPass, List.foldlM_nil, Option.pure_def, Option.some.injEq] at h
    subst h
    exact ⟨fun _ => rfl, fun _ _ h => h⟩
  | cons rule rest ih =>
    intro st st' h
    simp only [evaluateRulesPass, List.foldlM_cons, Option.bind_eq_bind] at h
    cases h1 : evaluateRulesStep st rule with
    | none => simp [h1] at h
    | some st1 =>
      simp only [h1, Option.some_bind] at h
      have h2 := ih st1 st' h
      obtain ⟨result, text, _, _, hdb, _, _⟩ := evaluateRulesStep_eq_some st st1 rule h1
      refine ⟨fun name => ?_, fun name t ht => ?_⟩
      · rw [← h2.1 name, hdb]
        simp only [Database.addRelation]
        by_cases hn : name = rule.headPredicate.name
        · rw [if_pos hn, Relation.unionWith_scheme, hn]
        · rw [if_neg hn]
      · apply h2.2 name t
        rw [hdb]
        simp only [Database.addRelation]
        by_cases hn : name = rule.headPredicate.name
        · rw [if_pos hn, Relation.mem_unionWith, ← hn]
          exact Or.inl ht
        · rw [if_neg hn]
          exact ht

theorem evaluateRulesLoop_ge (rules : List Rule) :
    ∀ (fuel : Nat) (database : Database) (count : Nat) (output : String)
      (r : Database × Nat × String),
      evaluateRulesLoop rules fuel database count output = Run.done r → database.Le r.1 := by
  intro fuel
  induction fuel with
  | zero =>
    intro database count output r h
    simp [evaluateRulesLoop] at h
  | succ fuel ih =>
    intro database count output r h
    unfold evaluateRulesLoop at h
    cases hp : evaluateRulesPass rules ⟨database, false, output⟩ with
    | none => simp [hp] at h
    | some st =>
      simp only [hp] at h
      have hge := evaluateRulesPass_ge rules _ st hp
      by_cases hc : st.databaseChanged = true
      · rw [if_pos hc] at h
        have := ih _ _ _ r h
        exact ⟨fun n => (hge.1 n).trans (this.1 n), fun n t ht => this.2 n t (hge.2 n t ht)⟩
      · rw [if_neg hc] at h
        simp only [Run.done.injEq] at h
        subst h
        exact hge

theorem evaluateRules_of_loop (rules : List Rule) (fuel : Nat) (database : Database)
    (r : Database × Nat × String)
    (h : evaluateRulesLoop rules fuel database 0 "Rule Evaluation\n" = Run.done r) :
    ∃ output, evaluateRules rules fuel database = Run.done (r.1, r.2.1, output) := by
  obtain ⟨db, n, out⟩ := r
  unfold evaluateRules
  rw [h]
  exact ⟨_, rfl⟩

/-- C4: for every well-formed program `evaluateRules` terminates, and the
database it leaves has the schemes of the program, contains its facts, is
closed under every rule, and is contained, relation by relation, in every
database with the same schemes that contains the facts and is closed under
every rule. -/
theorem evaluateRules_least_model (prog : DatalogProgram) (hwf : prog.WellFormed) :
    ∃ (fuel : Nat) (final : Database) (iterationCount : Nat) (output : String),
      evaluateRules prog.rules fuel prog.initialDatabase =
        Run.done (final, iterationCount, output) ∧
      prog.initialDatabase.Le final ∧
      (∀ rule ∈ prog.rules, final.ClosedUnder rule) ∧
      ∀ model : Database, prog.initialDatabase.Le model →
        (∀ rule ∈ prog.rules, model.ClosedUnder rule) → final.Le model := by
  obtain ⟨hrel, hfit⟩ := hwf
  have hinv := loopInv_initial prog.rules prog.initialDatabase hrel
  obtain ⟨fuel, r, hloop, _⟩ := evaluateRulesLoop_terminates prog.rules prog.initialDatabase
    hfit _ prog.initialDatabase hinv (le_refl _) 0 "Rule Evaluation\n"
  obtain ⟨output, hrun⟩ := evaluateRules_of_loop prog.rules fuel prog.initialDatabase r hloop
  refine ⟨fuel, r.1, r.2.1, output, hrun, ?_, ?_, ?_⟩
  · exact evaluateRulesLoop_ge prog.rules fuel _ _ _ r hloop
  · intro rule hrule result hres t ht
    obtain ⟨result', hres', hsub⟩ :=
      stable_of_evaluateRules prog.rules fuel prog.initialDatabase _ hrun rule hrule
    rw [hres] at hres'
    simp only [Option.some.injEq] at hres'
    subst hres'
    exact hsub t ht
  · intro model hle hclosed
    exact evaluateRulesLoop_le prog.rules model hclosed fuel _ _ _ r hle hloop

/-- C4 at the program of scenario 3. -/
theorem evaluateRules_least_model_witness :
    scenario3Program.WellFormed ∧
    ∃ (fuel : Nat) (final : Database) (iterationCount : Nat) (output : String),
      evaluateRules scenario3Program.rules fuel scenario3Program.initialDatabase =
        Run.done (final, iterationCount, output) ∧
      scenario3Program.initialDatabase.Le final ∧
      (∀ rule ∈ scenario3Program.rules, final.ClosedUnder rule) ∧
      ∀ model : Database, scenario3Program.initialDatabase.Le model →
        (∀ rule ∈ scenario3Program.rules, model.ClosedUnder rule) → final.Le model :=
  ⟨by decide, evaluateRules_least_model scenario3Program (by decide)⟩

theorem evaluateRules_terminates (prog : DatalogProgram) (hwf : prog.WellFormed) :
    ∃ (fuel : Nat) (final : Database) (iterationCount : Nat) (output : String),
      evaluateRules prog.rules fuel prog.initialDatabase =
        Run.done (final, iterationCount, output) ∧ 1 ≤ iterationCount := by
  obtain ⟨hrel, hfit⟩ := hwf
  have hinv := loopInv_initial prog.rules prog.initialDatabase hrel
  obtain ⟨fuel, r, hloop, hcount⟩ := evaluateRulesLoop_terminates prog.rules
    prog.initialDatabase hfit _ prog.initialDatabase hinv (le_refl _) 0 "Rule Evaluation\n"
  obtain ⟨output, hrun⟩ := evaluateRules_of_loop prog.rules fuel prog.initialDatabase r hloop
  exact ⟨fuel, r.1, r.2.1, output, hrun, hcount⟩

set_option maxRecDepth 1000000 in
theorem shortTupleProgram_pass :
    evaluateRulesPass shortTupleProgram.rules
      ⟨shortTupleProgram.initialDatabase, false, "Rule Evaluation\n"⟩ = none := by
  rfl

/-- C5 (the code at the failing input): in `shortTupleProgram` every rule head
has as many parameters as its declared scheme, the rule `q(X,Y) :- p(X,Y)`
derives the tuple `('x')` for the scheme `(A,B)`, and printing it in the first
pass reads `at(1)` of a tuple of length 1: `evaluateRules` ends by the
exception, whatever the number of passes allowed, and no pass is completed. -/
theorem evaluateRules_faults_on_short_tuple (fuel : Nat) :
    (∀ rule ∈ shortTupleProgram.rules,
      rule.headPredicate.parameters.length =
        (shortTupleProgram.initialDatabase rule.headPredicate.name).scheme.length) ∧
    (evaluateRule shortTupleProgram.initialDatabase
      ⟨atom "q" ["X", "Y"], [atom "p" ["X", "Y"]]⟩).map
        (fun r => (r.scheme, r.tuples.elems)) = some (["A", "B"], [["'x'"]]) ∧
    Tuple.toString ["'x'"] ["A", "B"] = none ∧
    evaluateRules shortTupleProgram.rules (fuel + 1) shortTupleProgram.initialDatabase =
      Run.fault := by
  refine ⟨by decide, by decide, by decide, ?_⟩
  unfold evaluateRules evaluateRulesLoop
  rw [shortTupleProgram_pass]

theorem Relation.project_range (R : Relation) (hR : R.WellFormed) :
    R.project ((List.range R.scheme.length).map (fun (c : Nat) => (c : Int))) = R := by
  apply Relation.ext'
  · exact Relation.name_project R _
  · rw [Relation.scheme_project, Relation.pickColumns_ofNat, filterMap_range_getElem?]
  · intro u
    rw [Relation.mem_project]
    constructor
    · rintro ⟨t, ht, hu⟩
      rw [Relation.pickColumns_ofNat, ← hR t ht, filterMap_range_getElem?] at hu
      rw [hu]; exact ht
    · intro hu
      refine ⟨u, hu, ?_⟩
      rw [Relation.pickColumns_ofNat, ← hR u hu, filterMap_range_getElem?]

/-- C11: for a well-formed relation `R` and a list of columns of its scheme,
possibly repeated and in any order, `project` returns the scheme
`(S[i0], S[i1], ...)` and exactly the tuples `(t[i0], t[i1], ...)` for `t` in `R`
(a set, so equal results are one tuple); projecting on all columns in order
returns `R`. -/
theorem project_reference (R : Relation) (indices : List Nat) (u : Tuple)
    (hR : R.WellFormed) (hin : ∀ i ∈ indices, i < R.scheme.length) :
    (R.project (indices.map (fun (c : Nat) => (c : Int)))).scheme =
      indices.map (fun i => R.scheme.getD i "") ∧
    (u ∈ (R.project (indices.map (fun (c : Nat) => (c : Int)))).tuples ↔
      ∃ t, t ∈ R.tuples ∧ u = indices.map (fun i => t.getD i "")) ∧
    R.project ((List.range R.scheme.length).map (fun (c : Nat) => (c : Int))) = R := by
  refine ⟨?_, ?_, Relation.project_range R hR⟩
  · rw [Relation.scheme_project, Relation.pickColumns_ofNat,
      filterMap_getElem?_eq_map R.scheme indices hin]
  · rw [Relation.mem_project]
    constructor
    · rintro ⟨t, ht, hu⟩
      refine ⟨t, ht, ?_⟩
      rw [hu, Relation.pickColumns_ofNat,
        filterMap_getElem?_eq_map t indices (fun i hi => by rw [hR t ht]; exact hin i hi)]
    · rintro ⟨t, ht, hu⟩
      refine ⟨t, ht, ?_⟩
      rw [hu, Relation.pickColumns_ofNat,
        filterMap_getElem?_eq_map t indices (fun i hi => by rw [hR t ht]; exact hin i hi)]

/-- C11 at the relation `R(A,B)` of scenario 2 with the columns `1, 0, 1`. -/
theorem project_reference_witness :
    scenario2Relation.WellFormed ∧
    (scenario2Relation.project [1, 0, 1]).scheme = ["B", "A", "B"] ∧
    (scenario2Relation.project [1, 0, 1]).tuples.elems =
      [["'x'", "'x'", "'x'"], ["'y'", "'x'", "'y'"]] ∧
    (scenario2Relation.project [1]).tuples.elems = [["'x'"], ["'y'"]] ∧
    (scenario2Relation.project [0]).tuples.elems = [["'x'"]] ∧
    ((scenario2Relation.project ([1, 0, 1].map (fun (c : Nat) => (c : Int)))).scheme =
      [1, 0, 1].map (fun i => scenario2Relation.scheme.getD i "") ∧
    (["'y'", "'x'", "'y'"] ∈
        (scenario2Relation.project ([1, 0, 1].map (fun (c : Nat) => (c : Int)))).tuples ↔
      ∃ t, t ∈ scenario2Relation.tuples ∧
        ["'y'", "'x'", "'y'"] = [1, 0, 1].map (fun i => t.getD i "")) ∧
    scenario2Relation.project
      ((List.range scenario2Relation.scheme.length).map (fun (c : Nat) => (c : Int))) =
        scenario2Relation) :=
  ⟨by decide, by decide, by decide, by decide, by decide,
    project_reference scenario2Relation [1, 0, 1] ["'y'", "'x'", "'y'"]
      (by decide) (by decide)⟩

theorem unsharedValues_self (scheme : Scheme) (t : Tuple) :
    unsharedValues scheme scheme t = [] := by
  unfold unsharedValues
  rw [List.map_eq_nil_iff, List.filter_eq_nil_iff]
  intro av hav
  have := (List.of_mem_zip hav).1
  simp [this]

theorem Relation.join_self_of_nodup (R : Relation) (hR : R.WellFormed)
    (hnodup : R.scheme.Nodup) : R.join R = R := by
  apply Relation.ext'
  · exact Relation.name_join R R
  · rw [Relation.scheme_join, Relation.joinScheme_eq]
    have : R.scheme.filter (fun a => decide (a ∉ R.scheme)) = [] := by
      rw [List.filter_eq_nil_iff]
      intro a ha
      simp [ha]
    rw [this]
    simp [firstOccurrences]
  · intro u
    rw [Relation.mem_join_iff]
    constructor
    · rintro ⟨t₁, h₁, t₂, _, _, hu⟩
      rw [hu, unsharedValues_self, List.append_nil]
      exact h₁
    · intro hu
      refine ⟨u, hu, u, hu, ?_, by rw [unsharedValues_self, List.append_nil]⟩
      intro k a hk
      obtain ⟨hklt, hget⟩ := List.getElem?_eq_some.mp hk
      refine ⟨by rw [hR u hu]; exact hklt, fun _ => ?_⟩
      have hidx : R.scheme.indexOf a = k := by
        rw [← hget]
        exact List.indexOf_getElem hnodup k hklt
      rw [hidx]
      exact ⟨by rw [hR u hu]; exact hklt, rfl⟩

/-- C12 (the claim as stated fails): the well-formed relation with scheme `(A,A)`
and the tuple `('1','2')` joined with itself has no tuple, because the second
column is compared with the first. -/
theorem join_self_counterexample :
    repeatedAttributeRelation.WellFormed ∧
    (repeatedAttributeRelation.join repeatedAttributeRelation).tuples.elems = [] ∧
    repeatedAttributeRelation.tuples.elems = [["'1'", "'2'"]] ∧
    repeatedAttributeRelation.join repeatedAttributeRelation ≠ repeatedAttributeRelation := by
  decide

/-- C12 (amended): for every well-formed relation `R` whose scheme has no repeated
attribute name, `R.join(R)` is `R`: the same name, scheme and tuple set. -/
theorem join_self_idempotent (R : Relation) (hR : R.WellFormed)
    (hnodup : R.scheme.Nodup) : R.join R = R :=
  Relation.join_self_of_nodup R hR hnodup

/-- C12 (amended) at the relation `R(A,B)` of scenario 2. -/
theorem join_self_idempotent_witness :
    scenario2Relation.WellFormed ∧ scenario2Relation.scheme.Nodup ∧
    scenario2Relation.join scenario2Relation = scenario2Relation :=
  ⟨by decide, by decide, join_self_idempotent scenario2Relation (by decide) (by decide)⟩

theorem getD_map_indexOf (scheme : Scheme) (s : String → String) (a : String)
    (ha : a ∈ scheme) : (scheme.map s).getD (scheme.indexOf a) "" = s a := by
  rw [List.getD_eq_getElem?_getD, getElem?_map_indexOf scheme s a ha]
  rfl

theorem getD_indexOf (scheme : Scheme) (a : String) (ha : a ∈ scheme) :
    scheme.getD (scheme.indexOf a) "" = a := by
  rw [List.getD_eq_getElem?_getD, List.getElem?_indexOf ha]
  rfl

theorem denotes_of_wellFormed (R : Relation) (hR : R.WellFormed) (hnodup : R.scheme.Nodup) :
    Denotes R (fun s => R.scheme.map s ∈ R.tuples) := by
  refine ⟨hnodup, ?_, ?_⟩
  · intro s s' hs
    have : R.scheme.map s = R.scheme.map s' := List.map_congr_left hs
    show (R.scheme.map s ∈ R.tuples) ↔ (R.scheme.map s' ∈ R.tuples)
    rw [this]
  · intro u
    constructor
    · intro hu
      have hmap : R.scheme.map (fun x => u.getD (R.scheme.indexOf x) "") = u := by
        apply List.ext_getElem?
        intro i
        rw [List.getElem?_map]
        by_cases hi : i < R.scheme.length
        · rw [List.getElem?_eq_getElem hi]
          simp only [Option.map_some']
          rw [List.indexOf_getElem hnodup i hi, List.getD_eq_getElem?_getD,
            List.getElem?_eq_getElem (by rw [hR u hu]; exact hi)]
          rfl
        · rw [List.getElem?_eq_none (by omega),
            List.getElem?_eq_none (by rw [hR u hu]; omega)]
          rfl
      refine ⟨fun x => u.getD (R.scheme.indexOf x) "", ?_, hmap.symm⟩
      show R.scheme.map (fun x => u.getD (R.scheme.indexOf x) "") ∈ R.tuples
      rw [hmap]
      exact hu
    · rintro ⟨s, hs, hu⟩
      rw [hu]
      exact hs

theorem columnReorder_of_denotes (A B : Relation) (P Q : (String → String) → Prop)
    (hA : Denotes A P) (hB : Denotes B Q) (hPQ : ∀ s, P s ↔ Q s)
    (hmem : ∀ x, x ∈ A.scheme ↔ x ∈ B.scheme) : ColumnReorder A B := by
  obtain ⟨hAn, _, hAt⟩ := hA
  obtain ⟨hBn, _, hBt⟩ := hB
  have hperm : A.scheme.Perm B.scheme := (List.perm_ext_iff_of_nodup hAn hBn).mpr hmem
  refine ⟨B.scheme.map (fun x => A.scheme.indexOf x), ?_, ?_, ?_⟩
  · have hnd : (B.scheme.map (fun x => A.scheme.indexOf x)).Nodup := by
      apply List.Nodup.map_on _ hBn
      intro x hx y hy hxy
      exact (List.indexOf_inj ((hmem x).mpr hx) ((hmem y).mpr hy)).mp hxy
    have hsub : (B.scheme.map (fun x => A.scheme.indexOf x)).Subperm
        (List.range A.scheme.length) := by
      apply List.Nodup.subperm hnd
      intro c hc
      obtain ⟨x, hx, rfl⟩ := List.mem_map.mp hc
      exact List.mem_range.mpr (List.indexOf_lt_length.mpr ((hmem x).mpr hx))
    apply List.Subperm.perm_of_length_le hsub
    rw [List.length_range, List.length_map, hperm.length_eq]
  · rw [List.map_map]
    symm
    calc B.scheme.map ((fun c => A.scheme.getD c "") ∘ fun x => A.scheme.indexOf x)
        = B.scheme.map id := List.map_congr_left
          (fun x hx => getD_indexOf A.scheme x ((hmem x).mpr hx))
      _ = B.scheme := List.map_id _
  · have key : ∀ s : String → String,
        (B.scheme.map (fun x => A.scheme.indexOf x)).map
          (fun c => (A.scheme.map s).getD c "") = B.scheme.map s := by
      intro s
      rw [List.map_map]
      exact List.map_congr_left (fun x hx => getD_map_indexOf A.scheme s x ((hmem x).mpr hx))
    intro u
    rw [hBt u]
    constructor
    · rintro ⟨s, hs, hu⟩
      exact ⟨A.scheme.map s, (hAt _).mpr ⟨s, (hPQ s).mpr hs, rfl⟩, by rw [key s, hu]⟩
    · rintro ⟨t, ht, hu⟩
      obtain ⟨s, hs, hts⟩ := (hAt t).mp ht
      exact ⟨s, (hPQ s).mp hs, by rw [hu, hts, key s]⟩

theorem Relation.join_comm_of_nodup (R S : Relation) (hR : R.WellFormed) (hS : S.WellFormed)
    (hRn : R.scheme.Nodup) (hSn : S.scheme.Nodup) :
    ColumnReorder (R.join S) (S.join R) := by
  have hdR := denotes_of_wellFormed R hR hRn
  have hdS := denotes_of_wellFormed S hS hSn
  apply columnReorder_of_denotes _ _ _ _ (denotes_join R S _ _ hdR hdS)
    (denotes_join S R _ _ hdS hdR)
  · intro s
    exact And.comm
  · intro x
    rw [Relation.scheme_join, Relation.scheme_join, Relation.mem_joinScheme,
      Relation.mem_joinScheme]
    exact Or.comm

/-- C13 (the claim as stated fails): for the well-formed relations `R(A)` with
the tuple `('1')` and `S(B,B)` with the tuple `('2','3')`, `R.join(S)` has the
scheme `(A,B)` and `S.join(R)` the scheme `(B,B,A)`: no reordering of two
columns gives three. -/
theorem join_comm_counterexample :
    sampleRelationA.WellFormed ∧ sampleRelationBB.WellFormed ∧
    (sampleRelationA.join sampleRelationBB).scheme = ["A", "B"] ∧
    (sampleRelationA.join sampleRelationBB).tuples.elems = [["'1'", "'2'", "'3'"]] ∧
    (sampleRelationBB.join sampleRelationA).scheme = ["B", "B", "A"] ∧
    (sampleRelationBB.join sampleRelationA).tuples.elems = [["'2'", "'3'", "'1'"]] ∧
    ¬ ColumnReorder (sampleRelationA.join sampleRelationBB)
      (sampleRelationBB.join sampleRelationA) := by
  refine ⟨by decide, by decide, by decide, by decide, by decide, by decide, ?_⟩
  rintro ⟨perm, hperm, hscheme, _⟩
  have h1 : perm.length = 2 := by
    rw [hperm.length_eq, List.length_range]
    decide
  have h2 := congrArg List.length hscheme
  rw [List.length_map, h1] at h2
  revert h2
  decide

/-- C13 (amended): for well-formed relations `R` and `S` whose schemes have no
repeated attribute name, `S.join(R)` is `R.join(S)` with its columns reordered:
one rearrangement of the column positions maps the scheme onto the scheme and
the tuple set onto the tuple set. -/
theorem join_commutative (R S : Relation) (hR : R.WellFormed) (hS : S.WellFormed)
    (hRn : R.scheme.Nodup) (hSn : S.scheme.Nodup) :
    ColumnReorder (R.join S) (S.join R) :=
  Relation.join_comm_of_nodup R S hR hS hRn hSn

/-- C13 (amended) at `R(A,B)` of scenario 2 and `S(B,C)`. -/
theorem join_commutative_witness :
    scenario2Relation.WellFormed ∧ sampleRelationBC.WellFormed ∧
    scenario2Relation.scheme.Nodup ∧ sampleRelationBC.scheme.Nodup ∧
    (scenario2Relation.join sampleRelationBC).scheme = ["A", "B", "C"] ∧
    (sampleRelationBC.join scenario2Relation).scheme = ["B", "C", "A"] ∧
    (sampleRelationBC.join scenario2Relation).tuples.elems = [["'x'", "'1'", "'x'"]] ∧
    ColumnReorder (scenario2Relation.join sampleRelationBC)
      (sampleRelationBC.join scenario2Relation) :=
  ⟨by decide, by decide, by decide, by decide, by decide, by decide, by decide,
    join_commutative scenario2Relation sampleRelationBC
      (by decide) (by decide) (by decide) (by decide)⟩

theorem mem_newTuplesOf (existing result : Relation) (t : Tuple) :
    t ∈ (newTuplesOf existing result).tuples ↔ t ∈ result.tuples ∧ t ∉ existing.tuples := by
  unfold newTuplesOf
  exact mem_foldl_erase existing.tuples.elems result.tuples t

theorem Relation.size_lt_unionWith_iff (r other : Relation) :
    r.size < (r.unionWith other).size ↔ ∃ t, t ∈ other.tuples ∧ t ∉ r.tuples := by
  constructor
  · intro h
    by_contra hne
    have hsub : ∀ t, t ∈ other.tuples → t ∈ r.tuples := by
      intro t ht
      by_contra hn
      exact hne ⟨t, ht, hn⟩
    rw [Relation.unionWith_eq_of_subset r other hsub] at h
    exact lt_irrefl _ h
  · rintro ⟨t, ht, hn⟩
    by_contra hle
    have heq := Relation.unionWith_eq_of_size_le r other (Nat.le_of_not_lt hle)
    apply hn
    rw [← heq, Relation.mem_unionWith]
    exact Or.inr ht

theorem evaluateRulesStep_effect (st : RulesState) (rule : Rule) (result : Relation)
    (text : String) (hresult : evaluateRule st.database rule = some result)
    (hprint : (newTuplesOf (st.database rule.headPredicate.name) result).toString = some text) :
    ∃ st', evaluateRulesStep st rule = some st' ∧
      (st'.database rule.headPredicate.name).scheme =
        (st.database rule.headPredicate.name).scheme ∧
      (∀ t, t ∈ (st'.database rule.headPredicate.name).tuples ↔
        t ∈ (st.database rule.headPredicate.name).tuples ∨ t ∈ result.tuples) ∧
      (∀ name, name ≠ rule.headPredicate.name → st'.database name = st.database name) ∧
      st'.output = st.output ++ trimTrailingPeriod rule.toString ++ "\n" ++ text ∧
      (∀ t, t ∈ (newTuplesOf (st.database rule.headPredicate.name) result).tuples ↔
        t ∈ result.tuples ∧ t ∉ (st.database rule.headPredicate.name).tuples) ∧
      (st'.databaseChanged = true ↔
        st.databaseChanged = true ∨
          ∃ t, t ∈ (newTuplesOf (st.database rule.headPredicate.name) result).tuples) := by
  refine ⟨_, evaluateRulesStep_of st rule result text hresult hprint, ?_, ?_, ?_, rfl, ?_, ?_⟩
  · simp [Database.addRelation, Relation.unionWith_scheme]
  · intro t
    simp [Database.addRelation, Relation.mem_unionWith]
  · intro name hname
    simp [Database.addRelation, hname]
  · exact mem_newTuplesOf _ _
  · have hiff := Relation.size_lt_unionWith_iff (st.database rule.headPredicate.name) result
    simp only [mem_newTuplesOf]
    by_cases hsize : ((st.database rule.headPredicate.name).unionWith result).size >
        (st.database rule.headPredicate.name).size
    · simp only [if_pos hsize, true_iff]
      exact Or.inr (hiff.mp hsize)
    · simp only [if_neg hsize]
      constructor
      · exact Or.inl
      · rintro (h | h)
        · exact h
        · exact absurd (hiff.mpr h) hsize

/-- C15: when `evaluateRule` returns `result` for a rule and the new tuples
print, the step of the driver for that rule completes; afterwards the head
relation has its former tuples together with those of `result` (none is
removed) and every other relation is as before, the text logged is the rule
followed by the lines of `newTuples`, whose tuples are exactly those of
`result` that were not in the head relation before, and `databaseChanged` is set
by this rule exactly when that set is not empty. -/
theorem evaluateRulesStep_union_and_log (st : RulesState) (rule : Rule) (result : Relation)
    (text : String) (hresult : evaluateRule st.database rule = some result)
    (hprint : (newTuplesOf (st.database rule.headPredicate.name) result).toString = some text) :
    ∃ st', evaluateRulesStep st rule = some st' ∧
      (st'.database rule.headPredicate.name).scheme =
        (st.database rule.headPredicate.name).scheme ∧
      (∀ t, t ∈ (st'.database rule.headPredicate.name).tuples ↔
        t ∈ (st.database rule.headPredicate.name).tuples ∨ t ∈ result.tuples) ∧
      (∀ name, name ≠ rule.headPredicate.name → st'.database name = st.database name) ∧
      st'.output = st.output ++ trimTrailingPeriod rule.toString ++ "\n" ++ text ∧
      (∀ t, t ∈ (newTuplesOf (st.database rule.headPredicate.name) result).tuples ↔
        t ∈ result.tuples ∧ t ∉ (st.database rule.headPredicate.name).tuples) ∧
      (st'.databaseChanged = true ↔
        st.databaseChanged = true ∨
          ∃ t, t ∈ (newTuplesOf (st.database rule.headPredicate.name) result).tuples) :=
  evaluateRulesStep_effect st rule result text hresult hprint

/-- C15 at the first rule of scenario 3 on the database of scenario 3. -/
theorem evaluateRulesStep_union_and_log_witness :
    evaluateRule scenario3Database scenario3FirstRule = some scenario3FirstResult ∧
    (newTuplesOf (scenario3Database scenario3FirstRule.headPredicate.name)
      scenario3FirstResult).toString = some "  X='1', Y='2'\n  X='2', Y='3'\n  X='3', Y='4'\n" ∧
    ∃ st', evaluateRulesStep ⟨scenario3Database, false, ""⟩ scenario3FirstRule = some st' ∧
      (st'.database scenario3FirstRule.headPredicate.name).scheme =
        (scenario3Database scenario3FirstRule.headPredicate.name).scheme ∧
      (∀ t, t ∈ (st'.database scenario3FirstRule.headPredicate.name).tuples ↔
        t ∈ (scenario3Database scenario3FirstRule.headPredicate.name).tuples ∨
          t ∈ scenario3FirstResult.tuples) ∧
      (∀ name, name ≠ scenario3FirstRule.headPredicate.name →
        st'.database name = scenario3Database name) ∧
      st'.output = "" ++ trimTrailingPeriod scenario3FirstRule.toString ++ "\n" ++
        "  X='1', Y='2'\n  X='2', Y='3'\n  X='3', Y='4'\n" ∧
      (∀ t, t ∈ (newTuplesOf (scenario3Database scenario3FirstRule.headPredicate.name)
          scenario3FirstResult).tuples ↔
        t ∈ scenario3FirstResult.tuples ∧
          t ∉ (scenario3Database scenario3FirstRule.headPredicate.name).tuples) ∧
      (st'.databaseChanged = true ↔
        false = true ∨
          ∃ t, t ∈ (newTuplesOf (scenario3Database scenario3FirstRule.headPredicate.name)
            scenario3FirstResult).tuples) :=
  ⟨by decide, by decide,
    evaluateRulesStep_union_and_log ⟨scenario3Database, false, ""⟩ scenario3FirstRule
      scenario3FirstResult "  X='1', Y='2'\n  X='2', Y='3'\n  X='3', Y='4'\n"
      (by decide) (by decide)⟩

theorem size_le_of_le (database model : Database) (hle : database.Le model) (name : String) :
    (database name).size ≤ (model name).size :=
  TupleSet.size_le_of_subset _ _ (hle.2 name)

theorem evaluateRulesStep_ge (st st' : RulesState) (rule : Rule)
    (h : evaluateRulesStep st rule = some st') : st.database.Le st'.database := by
  have : evaluateRulesPass [rule] st = some st' := by
    simp [evaluateRulesPass, List.foldlM_cons, h]
  exact evaluateRulesPass_ge [rule] st st' this

theorem evaluateRulesPass_changed (todo : List Rule) :
    ∀ (st st' : RulesState), evaluateRulesPass todo st = some st' →
      st'.databaseChanged = true →
      st.databaseChanged = true ∨ Enlarges todo st.database st'.database := by
  induction todo with
  | nil =>
    intro st st' h hc
    simp only [evaluateRulesPass, List.foldlM_nil, Option.pure_def, Option.some.injEq] at h
    subst h
    exact Or.inl hc
  | cons rule rest ih =>
    intro st st' h hc
    simp only [evaluateRulesPass, List.foldlM_cons, Option.bind_eq_bind] at h
    cases h1 : evaluateRulesStep st rule with
    | none => simp [h1] at h
    | some st1 =>
      simp only [h1, Option.some_bind] at h
      have hge1 := evaluateRulesStep_ge st st1 rule h1
      have hge2 := evaluateRulesPass_ge rest st1 st' h
      rcases ih st1 st' h hc with hc1 | ⟨r, hr, hlt⟩
      · obtain ⟨result, text, _, _, hdb, hch, _⟩ := evaluateRulesStep_eq_some st st1 rule h1
        by_cases hsize : ((st.database rule.headPredicate.name).unionWith result).size >
            (st.database rule.headPredicate.name).size
        · right
          refine ⟨rule, List.mem_cons_self rule rest, ?_⟩
          have h2 : (st1.database rule.headPredicate.name).size =
              ((st.database rule.headPredicate.name).unionWith result).size := by
            rw [hdb]; simp [Database.addRelation]
          have h3 := size_le_of_le _ _ hge2 rule.headPredicate.name
          omega
        · left
          rw [if_neg hsize] at hch
          rw [← hch]; exact hc1
      · right
        refine ⟨r, List.mem_cons_of_mem rule hr, ?_⟩
        have := size_le_of_le _ _ hge1 r.headPredicate.name
        omega

theorem evaluateRulesPass_changed_iff (rules : List Rule) (database : Database)
    (output : String) (st : RulesState)
    (h : evaluateRulesPass rules ⟨database, false, output⟩ = some st) :
    st.databaseChanged = true ↔ Enlarges rules database st.database := by
  constructor
  · intro hc
    rcases evaluateRulesPass_changed rules _ st h hc with h1 | h1
    · simp at h1
    · exact h1
  · rintro ⟨rule, _, hlt⟩
    by_contra hne
    have hc : st.databaseChanged = false := by simpa using hne
    have := (evaluateRulesPass_unchanged rules _ st h hc).2.1
    simp only at this
    rw [this] at hlt
    exact lt_irrefl _ hlt

theorem evaluateRulesLoop_passes (rules : List Rule) :
    ∀ (fuel : Nat) (database : Database) (count : Nat) (output : String)
      (r : Database × Nat × String),
      evaluateRulesLoop rules fuel database count output = Run.done r →
      ∃ (k : Nat) (mid : Database) (outMid : String) (st : RulesState),
        ProductivePasses rules k database output mid outMid ∧
        evaluateRulesPass rules ⟨mid, false, outMid⟩ = some st ∧
        ¬ Enlarges rules mid st.database ∧
        r = (st.database, count + k + 1, st.output) := by
  intro fuel
  induction fuel with
  | zero =>
    intro database count output r h
    simp [evaluateRulesLoop] at h
  | succ fuel ih =>
    intro database count output r h
    unfold evaluateRulesLoop at h
    cases hp : evaluateRulesPass rules ⟨database, false, output⟩ with
    | none => simp [hp] at h
    | some st =>
      simp only [hp] at h
      have hiff := evaluateRulesPass_changed_iff rules database output st hp
      by_cases hc : st.databaseChanged = true
      · rw [if_pos hc] at h
        obtain ⟨k, mid, outMid, st', hprod, hpass, hne, hr⟩ := ih _ _ _ r h
        refine ⟨k + 1, mid, outMid, st',
          ProductivePasses.next k database output st mid outMid hp (hiff.mp hc) hprod,
          hpass, hne, ?_⟩
        rw [hr]
        simp only [Prod.mk.injEq, true_and, and_true]
        omega
      · rw [if_neg hc] at h
        simp only [Run.done.injEq] at h
        refine ⟨0, database, output, st, ProductivePasses.none database output, hp,
          fun he => hc (hiff.mpr he), ?_⟩
        rw [← h]

theorem evaluateRules_passes (rules : List Rule) (fuel : Nat) (database final : Database)
    (iterationCount : Nat) (output : String)
    (h : evaluateRules rules fuel database = Run.done (final, iterationCount, output)) :
    1 ≤ iterationCount ∧
    (∃ (mid : Database) (outMid : String) (st : RulesState),
      ProductivePasses rules (iterationCount - 1) database "Rule Evaluation\n" mid outMid ∧
      evaluateRulesPass rules ⟨mid, false, outMid⟩ = some st ∧
      ¬ Enlarges rules mid st.database ∧ st.database = final ∧
      output = st.output ++ "\nSchemes populated after " ++ toString iterationCount ++
        " passes through the Rules.\n") ∧
    (rules = [] → iterationCount = 1) ∧
    ((∀ rule ∈ rules, Stable database rule) → iterationCount = 1) := by
  unfold evaluateRules at h
  cases hl : evaluateRulesLoop rules fuel database 0 "Rule Evaluation\n" with
  | fault => simp [hl] at h
  | unfinished => simp [hl] at h
  | done r =>
    obtain ⟨k, mid, outMid, st, hprod, hpass, hne, hr⟩ :=
      evaluateRulesLoop_passes rules fuel database 0 _ r hl
    subst hr
    simp only [hl, Run.done.injEq, Prod.mk.injEq] at h
    obtain ⟨hfinal, hcount, hout⟩ := h
    have hk : iterationCount = k + 1 := by omega
    subst hk
    have hzero : (∀ st1, evaluateRulesPass rules ⟨database, false, "Rule Evaluation\n"⟩ =
        some st1 → ¬ Enlarges rules database st1.database) → k + 1 = 1 := by
      intro hno
      cases hprod with
      | none => rfl
      | next k' _ _ st1 _ _ hp1 hen _ => exact absurd hen (hno st1 hp1)
    refine ⟨by omega, ⟨mid, outMid, st, by simpa using hprod, hpass, hne, hfinal, ?_⟩, ?_, ?_⟩
    · rw [← hout]
      simp
    · intro hrules
      apply hzero
      rintro st1 _ ⟨rule, hrule, _⟩
      rw [hrules] at hrule
      simp at hrule
    · intro hstable
      apply hzero
      intro st1 hp1
      obtain ⟨o, ho⟩ := evaluateRulesPass_stable rules ⟨database, false, "Rule Evaluation\n"⟩
        hstable
      rw [hp1] at ho
      simp only [Option.some.injEq] at ho
      rw [ho]
      rintro ⟨rule, _, hlt⟩
      exact lt_irrefl _ hlt

/-- C16: when `evaluateRules` terminates, the number of passes `N` it reports is
one more than the number of passes that enlarged some head relation: `N - 1`
such passes are followed by one pass that enlarges none and leaves the final
database; so `N ≥ 1`, and `N = 1` when there is no rule or when the result of
every rule is already contained in its head relation. -/
theorem evaluateRules_pass_count (rules : List Rule) (fuel : Nat)
    (database final : Database) (iterationCount : Nat) (output : String)
    (h : evaluateRules rules fuel database = Run.done (final, iterationCount, output)) :
    1 ≤ iterationCount ∧
    (∃ (mid : Database) (outMid : String) (st : RulesState),
      ProductivePasses rules (iterationCount - 1) database "Rule Evaluation\n" mid outMid ∧
      evaluateRulesPass rules ⟨mid, false, outMid⟩ = some st ∧
      ¬ Enlarges rules mid st.database ∧ st.database = final ∧
      output = st.output ++ "\nSchemes populated after " ++ toString iterationCount ++
        " passes through the Rules.\n") ∧
    (rules = [] → iterationCount = 1) ∧
    ((∀ rule ∈ rules, Stable database rule) → iterationCount = 1) :=
  evaluateRules_passes rules fuel database final iterationCount output h

/-- C16 at scenario 3: three passes are reported, two of them productive. -/
theorem evaluateRules_pass_count_witness :
    evaluateRules scenario3Rules 3 scenario3Database =
      Run.done (scenario3Final, 3, scenario3Output) ∧
    (1 ≤ 3 ∧
    (∃ (mid : Database) (outMid : String) (st : RulesState),
      ProductivePasses scenario3Rules (3 - 1) scenario3Database "Rule Evaluation\n" mid
        outMid ∧
      evaluateRulesPass scenario3Rules ⟨mid, false, outMid⟩ = some st ∧
      ¬ Enlarges scenario3Rules mid st.database ∧ st.database = scenario3Final ∧
      scenario3Output = st.output ++ "\nSchemes populated after " ++ toString 3 ++
        " passes through the Rules.\n") ∧
    (scenario3Rules = [] → 3 = 1) ∧
    ((∀ rule ∈ scenario3Rules, Stable scenario3Database rule) → 3 = 1)) :=
  ⟨scenario3_run,
    evaluateRules_pass_count scenario3Rules 3 scenario3Database scenario3Final 3
      scenario3Output scenario3_run⟩

theorem mem_insertId (id x : Nat) (l : List Nat) : x ∈ insertId id l ↔ x = id ∨ x ∈ l := by
  induction l with
  | nil => simp [insertId]
  | cons h rest ih =>
    unfold insertId
    by_cases h₁ : id < h
    · simp [h₁]
    · by_cases h₂ : h < id
      · simp only [h₁, h₂, if_true, if_false, List.mem_cons, ih]
        tauto
      · have : id = h := by omega
        subst this
        simp [h₁]

theorem sorted_insertId (id : Nat) (l : List Nat) (hl : l.Sorted (· < ·)) :
    (insertId id l).Sorted (· < ·) := by
  induction l with
  | nil => simp [insertId]
  | cons h rest ih =>
    unfold insertId
    have hl' := List.sorted_cons.mp hl
    by_cases h₁ : id < h
    · simp only [h₁, if_true]
      refine List.sorted_cons.mpr ⟨?_, hl⟩
      intro b hb
      rcases List.mem_cons.mp hb with rfl | hb
      · exact h₁
      · exact lt_trans h₁ (hl'.1 b hb)
    · by_cases h₂ : h < id
      · simp only [h₁, h₂, if_true, if_false]
        refine List.sorted_cons.mpr ⟨?_, ih hl'.2⟩
        intro b hb
        rcases (mem_insertId id b rest).mp hb with rfl | hb
        · exact h₂
        · exact hl'.1 b hb
      · simpa [h₁, h₂] using hl

theorem Graph.fetch_store_self (key : Nat) (node : Node) (l : List (Nat × Node)) :
    Graph.fetch key (Graph.store key node l) = node := by
  induction l with
  | nil => simp [Graph.store, Graph.fetch]
  | cons p rest ih =>
    obtain ⟨k, n⟩ := p
    unfold Graph.store
    by_cases h₁ : key < k
    · simp [h₁, Graph.fetch]
    · by_cases h₂ : k < key
      · have hne : k ≠ key := by omega
        simp [h₁, h₂, Graph.fetch, hne, ih]
      · simp [h₁, h₂, Graph.fetch]

theorem Graph.fetch_store_ne (key other : Nat) (node : Node) (l : List (Nat × Node))
    (hne : other ≠ key) :
    Graph.fetch other (Graph.store key node l) = Graph.fetch other l := by
  induction l with
  | nil =>
    have : key ≠ other := fun h => hne h.symm
    simp [Graph.store, Graph.fetch, this]
  | cons p rest ih =>
    obtain ⟨k, n⟩ := p
    have hne' : key ≠ other := fun h => hne h.symm
    unfold Graph.store
    by_cases h₁ : key < k
    · simp [h₁, Graph.fetch, hne']
    · by_cases h₂ : k < key
      · simp only [h₁, h₂, if_true, if_false, Graph.fetch, ih]
      · have hk : k = key := by omega
        subst hk
        simp [h₁, Graph.fetch, hne']

theorem Graph.keys_store_of_mem (key : Nat) (node : Node) (l : List (Nat × Node))
    (hs : (l.map Prod.fst).Sorted (· < ·)) (hmem : key ∈ l.map Prod.fst) :
    (Graph.store key node l).map Prod.fst = l.map Prod.fst := by
  induction l with
  | nil => simp at hmem
  | cons p rest ih =>
    obtain ⟨k, n⟩ := p
    simp only [List.map_cons] at hs hmem
    have hs' := List.sorted_cons.mp hs
    unfold Graph.store
    by_cases h₁ : key < k
    · exfalso
      rcases List.mem_cons.mp hmem with h | h
      · omega
      · have := hs'.1 key h
        omega
    · by_cases h₂ : k < key
      · simp only [h₁, h₂, if_true, if_false, List.map_cons]
        rw [ih hs'.2]
        rcases List.mem_cons.mp hmem with h | h
        · omega
        · exact h
      · have hk : k = key := by omega
        simp [h₁, h₂, hk]

theorem Graph.store_append_of_lt (key : Nat) (node : Node) (l : List (Nat × Node))
    (h : ∀ k ∈ l.map Prod.fst, k < key) : Graph.store key node l = l ++ [(key, node)] := by
  induction l with
  | nil => rfl
  | cons p rest ih =>
    obtain ⟨k, n⟩ := p
    have hk : k < key := h k (by simp)
    have hk' : ¬ key < k := by omega
    unfold Graph.store
    simp only [hk, hk', if_true, if_false, List.cons_append]
    rw [ih (fun k' hk' => h k' (by simp only [List.map_cons]; exact List.mem_cons_of_mem _ hk'))]

theorem Graph.nodes_new (size : Nat) :
    (Graph.new size).nodes = (List.range size).map (fun i => (i, (⟨[]⟩ : Node))) := by
  unfold Graph.new
  simp only
  induction size with
  | zero => rfl
  | succ n ih =>
    rw [List.range_succ, List.foldl_append, ih]
    simp only [List.foldl_cons, List.foldl_nil, List.map_append, List.map_cons, List.map_nil]
    apply Graph.store_append_of_lt
    intro k hk
    simp only [List.map_map, List.mem_map, List.mem_range, Function.comp] at hk
    obtain ⟨a, ha, rfl⟩ := hk
    exact ha

theorem Graph.fetch_map_range (size : Nat) (f : Nat → Node) (i : Nat) (hi : i < size) :
    Graph.fetch i ((List.range size).map (fun k => (k, f k))) = f i := by
  induction size with
  | zero => omega
  | succ n ih =>
    rw [List.range_succ, List.map_append]
    by_cases hin : i < n
    · have : ∀ (l₁ l₂ : List (Nat × Node)), i ∈ l₁.map Prod.fst →
          Graph.fetch i (l₁ ++ l₂) = Graph.fetch i l₁ := by
        intro l₁ l₂
        induction l₁ with
        | nil => intro h; simp at h
        | cons p rest ih' =>
          intro h
          obtain ⟨k, n'⟩ := p
          by_cases hk : k = i
          · simp [Graph.fetch, hk]
          · simp only [List.cons_append, Graph.fetch, hk, if_false]
            apply ih'
            simp only [List.map_cons, List.mem_cons] at h
            rcases h with h | h
            · exact absurd h.symm hk
            · exact h
      rw [this _ _ (by simp [List.map_map, Function.comp_def, hin]), ih hin]
    · have hi' : i = n := by omega
      subst hi'
      have : ∀ (l₁ l₂ : List (Nat × Node)), i ∉ l₁.map Prod.fst →
          Graph.fetch i (l₁ ++ l₂) = Graph.fetch i l₂ := by
        intro l₁ l₂
        induction l₁ with
        | nil => intro _; rfl
        | cons p rest ih' =>
          intro h
          obtain ⟨k, n'⟩ := p
          simp only [List.map_cons, List.mem_cons, not_or] at h
          have hk : k ≠ i := fun h' => h.1 h'.symm
          simp only [List.cons_append, Graph.fetch, hk, if_false]
          exact ih' h.2
      rw [this _ _ (by simp [List.map_map, Function.comp_def])]
      simp [Graph.fetch]

theorem Graph.inv_new (size : Nat) :
    (Graph.new size).Inv size ∧ ∀ i, (Graph.new size).adjacent i = [] := by
  have hfetch : ∀ i, (Graph.new size).adjacent i = [] := by
    intro i
    unfold Graph.adjacent
    rw [Graph.nodes_new]
    by_cases hi : i < size
    · rw [Graph.fetch_map_range size (fun _ => ⟨[]⟩) i hi]
    · have : ∀ (l : List (Nat × Node)), i ∉ l.map Prod.fst → Graph.fetch i l = ⟨[]⟩ := by
        intro l
        induction l with
        | nil => intro _; rfl
        | cons p rest ih =>
          intro h
          obtain ⟨k, n⟩ := p
          simp only [List.map_cons, List.mem_cons, not_or] at h
          have hk : k ≠ i := fun h' => h.1 h'.symm
          simp only [Graph.fetch, hk, if_false]
          exact ih h.2
      rw [this _ (by simp [List.map_map, Function.comp_def, hi])]
  refine ⟨⟨?_, ?_⟩, hfetch⟩
  · rw [Graph.nodes_new]
    simp [List.map_map, Function.comp_def]
  · intro i
    rw [hfetch i]
    exact List.sorted_nil

theorem Graph.edges_refl (m : Nat) (g : Graph) (E : Nat → Nat → Prop) (h : ∀ i j, ¬ E i j) :
    Graph.Adds m g g E :=
  fun hinv => ⟨hinv, fun i j => by simp [h i j]⟩

theorem Graph.edges_addEdge (m : Nat) (g : Graph) (a b : Nat) (ha : a < m) :
    Graph.Adds m (g.addEdge a b) g (fun i j => i = a ∧ j = b) := by
  intro hinv
  obtain ⟨hkeys, hsorted⟩ := hinv
  have hadj : ∀ i, (g.addEdge a b).adjacent i =
      if i = a then insertId b (g.adjacent a) else g.adjacent i := by
    intro i
    unfold Graph.adjacent Graph.addEdge
    by_cases hi : i = a
    · subst hi
      simp [Graph.fetch_store_self, Node.addEdge]
    · simp [Graph.fetch_store_ne _ _ _ _ hi, hi]
  refine ⟨⟨?_, ?_⟩, ?_⟩
  · unfold Graph.addEdge
    simp only
    rw [Graph.keys_store_of_mem _ _ _ (by rw [hkeys]; exact List.sorted_lt_range m)
      (by rw [hkeys]; exact List.mem_range.mpr ha)]
    exact hkeys
  · intro i
    rw [hadj i]
    by_cases hi : i = a
    · rw [if_pos hi]
      exact sorted_insertId b _ (hsorted a)
    · rw [if_neg hi]
      exact hsorted i
  · intro i j
    rw [hadj i]
    by_cases hi : i = a
    · subst hi
      simp only [if_true, mem_insertId, true_and]
      tauto
    · simp [hi]

theorem Graph.edges_ite (m : Nat) (g : Graph) (c : Prop) [Decidable c] (a b : Nat)
    (ha : a < m) :
    Graph.Adds m (if c then g.addEdge a b else g) g (fun i j => c ∧ i = a ∧ j = b) := by
  by_cases hc : c
  · rw [if_pos hc]
    intro hinv
    obtain ⟨h1, h2⟩ := Graph.edges_addEdge m g a b ha hinv
    exact ⟨h1, fun i j => by rw [h2 i j]; simp [hc]⟩
  · rw [if_neg hc]
    exact Graph.edges_refl m g _ (fun i j h => hc h.1)

theorem Graph.edges_foldl {α : Type} (m : Nat) (step : Graph → α → Graph)
    (S : α → Nat → Nat → Prop) (l : List α)
    (h : ∀ g x, x ∈ l → Graph.Adds m (step g x) g (S x)) (init : Graph) :
    Graph.Adds m (l.foldl step init) init (fun i j => ∃ x ∈ l, S x i j) := by
  induction l generalizing init with
  | nil => exact fun hinv => ⟨hinv, fun i j => by simp⟩
  | cons a as ih =>
    intro hinv
    obtain ⟨h1, h1'⟩ := h init a (List.mem_cons_self a as) hinv
    obtain ⟨h2, h2'⟩ := ih (fun g x hx => h g x (List.mem_cons_of_mem a hx)) (step init a) h1
    refine ⟨h2, fun i j => ?_⟩
    simp only [List.foldl_cons, h2' i j, h1' i j, List.mem_cons, exists_eq_or_imp]
    tauto

theorem makeGraph_adds (rules : List Rule) :
    Graph.Adds rules.length (makeGraph rules) (Graph.new rules.length)
      (fun i j => ∃ ir ∈ rules.enum, ∃ b ∈ ir.2.bodyPredicates, ∃ jr ∈ rules.enum,
        b.name = jr.2.headPredicate.name ∧ i = ir.1 ∧ j = jr.1) := by
  unfold makeGraph
  exact Graph.edges_foldl _ _
    (fun ir i j => ∃ b ∈ ir.2.bodyPredicates, ∃ jr ∈ rules.enum,
      b.name = jr.2.headPredicate.name ∧ i = ir.1 ∧ j = jr.1)
    rules.enum
    (fun g ir hir =>
      Graph.edges_foldl _ _
        (fun b i j => ∃ jr ∈ rules.enum,
          b.name = jr.2.headPredicate.name ∧ i = ir.1 ∧ j = jr.1)
        ir.2.bodyPredicates
        (fun g' b _ =>
          Graph.edges_foldl _ _
            (fun jr i j => b.name = jr.2.headPredicate.name ∧ i = ir.1 ∧ j = jr.1)
            rules.enum
            (fun g'' jr _ => Graph.edges_ite _ g'' _ ir.1 jr.1 (List.fst_lt_of_mem_enum hir))
            g')
        g)
    _

theorem mem_adjacent_makeGraph (rules : List Rule) (i j : Nat) :
    j ∈ (makeGraph rules).adjacent i ↔ j < rules.length ∧ dependsOn rules i j = true := by
  obtain ⟨hinv, hadj⟩ := Graph.inv_new rules.length
  obtain ⟨_, hmem⟩ := makeGraph_adds rules hinv
  rw [hmem i j, hadj i]
  simp only [List.not_mem_nil, false_or]
  constructor
  · rintro ⟨ir, hir, b, hb, jr, hjr, hname, hi, hj⟩
    have h1 := List.mem_enum_iff_getElem?.mp hir
    have h2 := List.mem_enum_iff_getElem?.mp hjr
    subst hi hj
    refine ⟨List.fst_lt_of_mem_enum hjr, ?_⟩
    unfold dependsOn
    rw [h1, h2]
    simp only [List.any_eq_true, beq_iff_eq]
    exact ⟨b, hb, hname⟩
  · rintro ⟨_, hdep⟩
    unfold dependsOn at hdep
    cases hri : rules[i]? with
    | none => simp [hri] at hdep
    | some ri =>
      cases hrj : rules[j]? with
      | none => simp [hri, hrj] at hdep
      | some rj =>
        simp only [hri, hrj, List.any_eq_true, beq_iff_eq] at hdep
        obtain ⟨b, hb, hname⟩ := hdep
        exact ⟨(i, ri), List.mem_enum_iff_getElem?.mpr hri, b, hb, (j, rj),
          List.mem_enum_iff_getElem?.mpr hrj, hname, rfl, rfl⟩

theorem adjacent_makeGraph (rules : List Rule) (i : Nat) :
    (makeGraph rules).adjacent i = (List.range rules.length).filter (dependsOn rules i) := by
  obtain ⟨hinv, _⟩ := Graph.inv_new rules.length
  obtain ⟨⟨_, hsorted⟩, _⟩ := makeGraph_adds rules hinv
  have hs1 := hsorted i
  have hs2 : ((List.range rules.length).filter (dependsOn rules i)).Sorted (· < ·) :=
    List.Sorted.filter _ (List.sorted_lt_range rules.length)
  apply List.eq_of_perm_of_sorted _ hs1 hs2
  apply (List.perm_ext_iff_of_nodup hs1.nodup hs2.nodup).mpr
  intro j
  rw [mem_adjacent_makeGraph, List.mem_filter, List.mem_range]

theorem Graph.nodes_eq_of_keys (l : List (Nat × Node)) (h : (l.map Prod.fst).Nodup) :
    l = (l.map Prod.fst).map (fun k => (k, Graph.fetch k l)) := by
  induction l with
  | nil => rfl
  | cons p rest ih =>
    obtain ⟨k, n⟩ := p
    simp only [List.map_cons] at h
    have h' := List.nodup_cons.mp h
    simp only [List.map_cons, Graph.fetch, if_true]
    congr 1
    conv_lhs => rw [ih h'.2]
    apply List.map_congr_left
    intro k' hk'
    have hne : k ≠ k' := fun heq => h'.1 (heq ▸ hk')
    simp [hne]

theorem toString_makeGraph (rules : List Rule) :
    (makeGraph rules).toString =
      String.join ((List.range rules.length).map (graphLine rules)) := by
  obtain ⟨hinv, _⟩ := Graph.inv_new rules.length
  obtain ⟨⟨hkeys, _⟩, _⟩ := makeGraph_adds rules hinv
  have hnodes := Graph.nodes_eq_of_keys (makeGraph rules).nodes
    (by rw [hkeys]; exact List.nodup_range rules.length)
  rw [hkeys] at hnodes
  unfold Graph.toString String.join
  rw [hnodes, List.foldl_map, List.foldl_map]
  apply List.foldl_ext
  intro acc i _
  have := adjacent_makeGraph rules i
  unfold Graph.adjacent at this
  simp only [graphLine, Node.toString, this, String.append_assoc]

/-- C17: for every list of rules `r0 .. r(m-1)` the text of `makeGraph(rules)`
consists of the `m` lines of the nodes in index order, line `i` being `R<i>:`
followed by the comma-separated `R<j>` for exactly those `j`, ascending and each
once, such that a body atom of `ri` has the name of the head predicate of `rj`. -/
theorem makeGraph_text (rules : List Rule) :
    (makeGraph rules).toString =
      String.join ((List.range rules.length).map (graphLine rules)) :=
  toString_makeGraph rules

/-- C17 at scenario 6: the graph is `R0:R1`, `R1:R0,R2`, `R2:R2`. -/
theorem makeGraph_text_witness :
    (makeGraph scenario6Rules).toString = "R0:R1\nR1:R0,R2\nR2:R2\n" ∧
    String.join ((List.range scenario6Rules.length).map (graphLine scenario6Rules)) =
      "R0:R1\nR1:R0,R2\nR2:R2\n" := by
  decide

/-- C18 (the claim as stated fails): on scenario 1 the text written for the
query `snap('1',N)` is not the text of the claim; the line of the answer has
the one column `N`, the only variable of the query. -/
theorem scenario1_text_counterexample :
    (evaluateQuery scenario1Database (atom "snap" ["'1'", "N"])).scheme = ["N"] ∧
    evaluateQueriesStep scenario1Database "" (atom "snap" ["'1'", "N"]) ≠
      some "snap('1',N)? Yes(1)\n  S='1', N='a'\n" := by
  decide

/-- C18 (amended): on scenario 1 the text `evaluateQueries` writes for the query
`snap('1',N)` is exactly `snap('1',N)? Yes(1)`, newline, two blanks, `N='a'`,
newline. -/
theorem scenario1_text :
    evaluateQueriesStep scenario1Database "" (atom "snap" ["'1'", "N"]) =
      some "snap('1',N)? Yes(1)\n  N='a'\n" ∧
    evaluateQueries [atom "snap" ["'1'", "N"]] scenario1Database =
      some "\nQuery Evaluation\nsnap('1',N)? Yes(1)\n  N='a'\n" := by
  decide

/-- C19: on scenario 3 `evaluateRules` terminates and reports a number of passes
that is two or three (it is three: two productive passes and the final one),
and the query `tc('1',W)` is then answered `Yes(3)` with `W` taking exactly
the values `'2'`, `'3'` and `'4'`. -/
theorem scenario3_transitive_closure :
    (∃ N, evaluateRules scenario3Rules 3 scenario3Database =
      Run.done (scenario3Final, N, scenario3Output) ∧ (N = 2 ∨ N = 3) ∧ N = 3) ∧
    (evaluateQuery scenario3Final (atom "tc" ["'1'", "W"])).scheme = ["W"] ∧
    (evaluateQuery scenario3Final (atom "tc" ["'1'", "W"])).tuples.elems =
      [["'2'"], ["'3'"], ["'4'"]] ∧
    evaluateQueriesStep scenario3Final "" (atom "tc" ["'1'", "W"]) =
      some "tc('1',W)? Yes(3)\n  W='2'\n  W='3'\n  W='4'\n" :=
  ⟨⟨3, scenario3_run, Or.inr rfl, rfl⟩, by decide, by decide, by decide⟩

theorem headColumns_isSome_of_le (resultScheme targetScheme : Scheme) :
    ∀ (params : List Parameter) (j : Nat) (indices : List Int) (newAttributes : List String),
      j + params.length ≤ targetScheme.length →
      (headColumns resultScheme targetScheme params j indices newAttributes).isSome = true := by
  intro params
  induction params with
  | nil => intro j indices newAttributes _; rfl
  | cons q rest ih =>
    intro j indices newAttributes hlen
    simp only [List.length_cons] at hlen
    have hj : j < targetScheme.length := by omega
    unfold headColumns
    simp only []
    by_cases hq : resultScheme.indexOf q.value < resultScheme.length
    · rw [if_pos hq, List.getElem?_eq_getElem hj]
      exact ih (j + 1) _ _ (by omega)
    · rw [if_neg hq]
      exact ih (j + 1) _ _ (by omega)

theorem evaluateRule_isSome_of_head_le (database : Database) (rule : Rule)
    (h : rule.headPredicate.parameters.length ≤
      (database rule.headPredicate.name).scheme.length) :
    (evaluateRule database rule).isSome = true := by
  have := headColumns_isSome_of_le
    (joinAll (rule.bodyPredicates.map (evaluateQuery database))).scheme
    (database rule.headPredicate.name).scheme rule.headPredicate.parameters 0 [] []
    (by omega)
  unfold evaluateRule
  simp only [Database.getRelation]
  cases hc : headColumns (joinAll (rule.bodyPredicates.map (evaluateQuery database))).scheme
      (database rule.headPredicate.name).scheme rule.headPredicate.parameters 0 [] [] with
  | none => rw [hc] at this; simp at this
  | some cols => rfl

/-- C20 (the code at the failing input): in `longHeadProgram` the head `q(X,Y)`
has two parameters and the declared scheme `q(A)` one attribute; both head
variables are found in the body, so for the second one `evaluateRule` reads
`targetScheme[1]`, a position the declared scheme does not have: an
out-of-range access, not a returned relation. -/
theorem evaluateRule_reads_past_declared_scheme :
    (longHeadProgram.initialDatabase "q").scheme = ["A"] ∧
    (joinAll ([atom "p" ["X", "Y"]].map (evaluateQuery longHeadProgram.initialDatabase))).scheme =
      ["X", "Y"] ∧
    headColumns ["X", "Y"] ["A"] (atom "q" ["X", "Y"]).parameters 0 [] [] = none ∧
    evaluateRule longHeadProgram.initialDatabase
      ⟨atom "q" ["X", "Y"], [atom "p" ["X", "Y"]]⟩ = none := by
  decide

theorem evaluateSchemes_no_tuples (schemes : List Predicate) :
    ∀ (database : Database), (∀ name, (database name).tuples = TupleSet.empty) →
      ∀ name, ((evaluateSchemes schemes database) name).tuples = TupleSet.empty := by
  induction schemes with
  | nil => intro database h name; exact h name
  | cons s rest ih =>
    intro database h
    unfold evaluateSchemes
    rw [List.foldl_cons]
    apply ih
    intro name
    simp only [Database.addRelation]
    by_cases hn : name = s.name
    · rw [if_pos hn]
    · rw [if_neg hn]; exact h name

theorem wellFormed_schemesDatabase (prog : DatalogProgram) :
    prog.schemesDatabase.WellFormed := by
  intro name t ht
  have := evaluateSchemes_no_tuples prog.schemes Database.empty (fun _ => rfl) name
  unfold DatalogProgram.schemesDatabase at ht
  rw [this] at ht
  exact absurd ht (by simp [TupleSet.empty])

theorem evaluateFacts_wellFormed (schemesDb : Database) (facts : List Predicate)
    (hfit : ∀ f ∈ facts, f.parameters.length = (schemesDb f.name).scheme.length) :
    ∀ (database : Database), (∀ name, (database name).scheme = (schemesDb name).scheme) →
      database.WellFormed →
      (∀ name, ((evaluateFacts facts database) name).scheme = (schemesDb name).scheme) ∧
        (evaluateFacts facts database).WellFormed := by
  induction facts with
  | nil => intro database hs hwf; exact ⟨hs, hwf⟩
  | cons f rest ih =>
    intro database hs hwf
    unfold evaluateFacts
    rw [List.foldl_cons]
    apply ih (fun f' hf' => hfit f' (List.mem_cons_of_mem f hf'))
    · intro name
      simp only [Database.addRelation, Database.getRelation]
      by_cases hn : name = f.name
      · rw [if_pos hn, hn]
        exact hs f.name
      · rw [if_neg hn]; exact hs name
    · intro name t ht
      simp only [Database.addRelation, Database.getRelation] at ht ⊢
      by_cases hn : name = f.name
      · rw [if_pos hn] at ht ⊢
        have ht' : t ∈ ((database f.name).addTuple
            (f.parameters.map (fun q => q.value))).tuples := ht
        simp only [Relation.addTuple, TupleSet.mem_insert] at ht'
        show t.length = (database f.name).scheme.length
        rcases ht' with rfl | ht'
        · rw [List.length_map, hfit f (List.mem_cons_self f rest), hs f.name]
        · exact hwf f.name t ht'
      · rw [if_neg hn] at ht ⊢
        exact hwf name t ht

theorem wellFormed_initialDatabase (prog : DatalogProgram) (hfacts : prog.FactsFit) :
    (∀ name, (prog.initialDatabase name).scheme = (prog.schemesDatabase name).scheme) ∧
      prog.initialDatabase.WellFormed :=
  evaluateFacts_wellFormed prog.schemesDatabase prog.facts hfacts prog.schemesDatabase
    (fun _ => rfl) (wellFormed_schemesDatabase prog)

theorem evaluateRulesStep_wellFormed (rules : List Rule) (schemesDb : Database)
    (hfit : ∀ rule ∈ rules, rule.WellFormedIn schemesDb) (st st' : RulesState) (rule : Rule)
    (hrule : rule ∈ rules) (hs : ∀ name, (st.database name).scheme = (schemesDb name).scheme)
    (hwf : st.database.WellFormed) (h : evaluateRulesStep st rule = some st') :
    (∀ name, (st'.database name).scheme = (schemesDb name).scheme) ∧
      st'.database.WellFormed := by
  have hfit' : rule.WellFormedIn st.database := by
    obtain ⟨h1, h2, h3, h4⟩ := hfit rule hrule
    exact ⟨h1, by rw [hs]; exact h2, fun b hb => by rw [hs]; exact h3 b hb, h4⟩
  have hinv : LoopInv rules st.database st.database :=
    loopInv_initial rules st.database (fun name _ => hwf name)
  obtain ⟨st'', h'', hinv''⟩ :=
    evaluateRulesStep_of_loopInv rules st.database rule hrule hfit' st hinv
  rw [h] at h''
  simp only [Option.some.injEq] at h''
  subst h''
  obtain ⟨result, text, _, _, hdb, _, _⟩ := evaluateRulesStep_eq_some st st' rule h
  refine ⟨fun name => by rw [hinv''.1 name, hs name], fun name => ?_⟩
  by_cases hn : name = rule.headPredicate.name
  · rw [hn]
    exact (hinv''.2 _ (mem_ruleNames_head rules rule hrule)).1
  · have : st'.database name = st.database name := by
      rw [hdb]; simp [Database.addRelation, hn]
    rw [this]
    exact hwf name

theorem wellFormed_of_ruleReachable (rules : List Rule) (schemesDb initial : Database)
    (hfit : ∀ rule ∈ rules, rule.WellFormedIn schemesDb)
    (hs : ∀ name, (initial name).scheme = (schemesDb name).scheme)
    (hwf : initial.WellFormed) (database : Database)
    (h : RuleReachable rules initial database) :
    (∀ name, (database name).scheme = (schemesDb name).scheme) ∧ database.WellFormed := by
  induction h with
  | start => exact ⟨hs, hwf⟩
  | step st st' rule _ hrule hstep ih =>
    exact evaluateRulesStep_wellFormed rules schemesDb hfit st st' rule hrule ih.1 ih.2 hstep

theorem interpret_wellFormed (prog : DatalogProgram) (hfacts : prog.FactsFit)
    (hrules : ∀ rule ∈ prog.rules, rule.WellFormedIn prog.schemesDatabase) :
    prog.schemesDatabase.WellFormed ∧ prog.initialDatabase.WellFormed ∧
    ∀ database, RuleReachable prog.rules prog.initialDatabase database →
      database.WellFormed := by
  obtain ⟨hs, hwf⟩ := wellFormed_initialDatabase prog hfacts
  exact ⟨wellFormed_schemesDatabase prog, hwf, fun database h =>
    (wellFormed_of_ruleReachable prog.rules prog.schemesDatabase prog.initialDatabase hrules
      hs hwf database h).2⟩

/-- C14 (the claim as stated fails): `shortFactProgram` is accepted by the parser,
which never compares the number of parameters of a fact with its scheme; after
`evaluateFacts` the relation `p` has the scheme `(A,B)` and the tuple `('x')`. -/
theorem tuple_length_counterexample :
    (shortFactProgram.initialDatabase "p").scheme = ["A", "B"] ∧
    (shortFactProgram.initialDatabase "p").tuples.elems = [["'x'"]] ∧
    ¬ (shortFactProgram.initialDatabase "p").WellFormed ∧
    ¬ shortFactProgram.initialDatabase.WellFormed := by
  refine ⟨by decide, by decide, by decide, fun h => ?_⟩
  exact absurd (h "p") (by decide)

/-- C14 (amended): for every program in which each fact has as many parameters as
the scheme declared under its name and each rule fits the declared schemes (a
body atom, arities as declared, head variables in the body), every tuple of
every relation of the database has the length of the scheme of its relation
after `evaluateSchemes`, after `evaluateFacts`, and after each rule the driver
processes. -/
theorem tuple_length_invariant (prog : DatalogProgram) (hfacts : prog.FactsFit)
    (hrules : ∀ rule ∈ prog.rules, rule.WellFormedIn prog.schemesDatabase) :
    prog.schemesDatabase.WellFormed ∧ prog.initialDatabase.WellFormed ∧
    ∀ database, RuleReachable prog.rules prog.initialDatabase database →
      database.WellFormed :=
  interpret_wellFormed prog hfacts hrules

/-- C14 (amended) at the program of scenario 3. -/
theorem tuple_length_invariant_witness :
    scenario3Program.FactsFit ∧
    (∀ rule ∈ scenario3Program.rules, rule.WellFormedIn scenario3Program.schemesDatabase) ∧
    (scenario3Program.schemesDatabase.WellFormed ∧
    scenario3Program.initialDatabase.WellFormed ∧
    ∀ database, RuleReachable scenario3Program.rules scenario3Program.initialDatabase database →
      database.WellFormed) :=
  ⟨by decide, by decide, tuple_length_invariant scenario3Program (by decide) (by decide)⟩

theorem length_unsharedValues (scheme1 : Scheme) :
    ∀ (scheme2 : Scheme) (tuple2 : Tuple), tuple2.length = scheme2.length →
      (unsharedValues scheme1 scheme2 tuple2).length =
        (scheme2.filter (fun a => a ∉ scheme1)).length := by
  intro scheme2
  induction scheme2 with
  | nil => intro tuple2 _; simp [unsharedValues]
  | cons a rest ih =>
    intro tuple2 h
    cases tuple2 with
    | nil => simp at h
    | cons v vs =>
      have hvs : vs.length = rest.length := by simpa using h
      have := ih vs hvs
      unfold unsharedValues at this ⊢
      by_cases ha : a ∈ scheme1
      · simpa [List.zip_cons_cons, List.filter_cons, ha] using this
      · simpa [List.zip_cons_cons, List.filter_cons, ha] using this

theorem Relation.join_wellFormed (R S : Relation) (hR : R.WellFormed) (hS : S.WellFormed)
    (hnodup : (S.scheme.filter (fun a => a ∉ R.scheme)).Nodup) : (R.join S).WellFormed := by
  intro u hu
  obtain ⟨t₁, h₁, t₂, h₂, _, rfl⟩ := (Relation.mem_join_iff R S u).mp hu
  rw [Relation.scheme_join, Relation.joinScheme_eq, firstOccurrences_of_nodup _ hnodup,
    List.length_append, List.length_append, hR t₁ h₁, length_unsharedValues _ _ _ (hS t₂ h₂)]

/-- C22 (the code at the failing input): `R(A)` with the tuple `('1')` and
`S(B,B)` with the tuple `('2','3')` are well formed; `R.join(S)` has the scheme
`(A,B)`, in which `B` is entered once, and the tuple `('1','2','3')`, to which
both columns of `S` are appended: a tuple of length 3 under a scheme of length 2. -/
theorem join_breaks_tuple_length :
    sampleRelationA.WellFormed ∧ sampleRelationBB.WellFormed ∧
    Relation.joinScheme ["A"] ["B", "B"] = ["A", "B"] ∧
    Relation.joinTuples ["A"] ["'1'"] ["'2'", "'3'"] ["B", "B"] 0 ["'1'"] true =
      (["'1'", "'2'", "'3'"], true) ∧
    (sampleRelationA.join sampleRelationBB).scheme.length = 2 ∧
    (∃ u, u ∈ (sampleRelationA.join sampleRelationBB).tuples ∧ u.length = 3) ∧
    ¬ (sampleRelationA.join sampleRelationBB).WellFormed := by
  refine ⟨by decide, by decide, by decide, by decide, by decide,
    ⟨["'1'", "'2'", "'3'"], by decide, rfl⟩, by decide⟩

theorem length_distinctVariables (vals : List String) :
    (distinctVariables vals).length = (variablePositions vals).length := by
  unfold distinctVariables
  have : (variablePositions vals).filterMap (fun c => vals[c]?) =
      (variablePositions vals).map (fun c => vals.getD c "") := by
    apply filterMap_getElem?_eq_map
    intro c hc
    exact variablePositions_lt vals c hc
  rw [this, List.length_map]

theorem evaluateQuery_toString_isSome (database : Database) (query : Predicate)
    (h : ∀ t, t ∈ (database query.name).tuples → query.parameters.length ≤ t.length) :
    ∃ text, (evaluateQuery database query).toString = some text := by
  apply Relation.toString_some
  intro u hu
  obtain ⟨t, ht, _, rfl⟩ := (mem_evaluateQuery database query u).mp hu
  have hlen : query.values.length ≤ t.length := by
    have := h t ht
    simpa [Predicate.values] using this
  have : (variablePositions query.values).filterMap (fun c => t[c]?) =
      (variablePositions query.values).map (fun c => t.getD c "") := by
    apply filterMap_getElem?_eq_map
    intro c hc
    exact lt_of_lt_of_le (variablePositions_lt _ c hc) hlen
  rw [this, List.length_map, scheme_evaluateQuery, length_distinctVariables]

theorem evaluateQueries_isSome (database : Database) (queries : List Predicate)
    (h : ∀ query ∈ queries, ∀ t, t ∈ (database query.name).tuples →
      query.parameters.length ≤ t.length) :
    (evaluateQueries queries database).isSome = true := by
  unfold evaluateQueries
  generalize "\nQuery Evaluation\n" = output
  induction queries generalizing output with
  | nil => rfl
  | cons query rest ih =>
    obtain ⟨text, htext⟩ := evaluateQuery_toString_isSome database query
      (h query (List.mem_cons_self query rest))
    simp only [List.foldlM_cons, evaluateQueriesStep, htext]
    by_cases hsize : (evaluateQuery database query).size = 0
    · simp only [hsize, if_true, Option.bind_eq_bind, Option.some_bind]
      exact ih (fun q hq => h q (List.mem_cons_of_mem query hq)) _
    · simp only [hsize, if_false, Option.bind_eq_bind, Option.some_bind]
      exact ih (fun q hq => h q (List.mem_cons_of_mem query hq)) _

/-- C21 (the code at the failing input): in `longQueryProgram` the query
`p(X,Y)` has two parameters and the only tuple of `p` one value; `project`
skips the column it does not find, `rename` sets the scheme `(X,Y)`, and
`Tuple::toString` then reads `at(1)` of the tuple `('x')`: the exception ends
`evaluateQueries` and nothing is printed for the query. -/
theorem evaluateQueries_throws_on_long_query :
    (evaluateQuery longQueryProgram.initialDatabase (atom "p" ["X", "Y"])).scheme =
      ["X", "Y"] ∧
    (evaluateQuery longQueryProgram.initialDatabase (atom "p" ["X", "Y"])).tuples.elems =
      [["'x'"]] ∧
    Tuple.toString ["'x'"] ["X", "Y"] = none ∧
    evaluateQueriesStep longQueryProgram.initialDatabase "\nQuery Evaluation\n"
      (atom "p" ["X", "Y"]) = none ∧
    evaluateQueries longQueryProgram.queries longQueryProgram.initialDatabase = none := by
  decide

theorem dropWhile_head_false {α : Type} (p : α → Bool) :
    ∀ (l : List α) (a : α) (rest : List α), l.dropWhile p = a :: rest → p a = false := by
  intro l
  induction l with
  | nil => intro a rest h; simp at h
  | cons x xs ih =>
    intro a rest h
    by_cases hx : p x = true
    · rw [List.dropWhile_cons_of_pos hx] at h
      exact ih a rest h
    · rw [List.dropWhile_cons_of_neg hx] at h
      simp only [List.cons.injEq] at h
      rw [← h.1]
      simpa using hx

theorem dropWhile_cons_pos {α : Type} (p : α → Bool) (a : α) (l : List α) (h : p a = true) :
    (a :: l).dropWhile p = l.dropWhile p := by
  simp [List.dropWhile, h]

theorem takeWhile_cons_pos {α : Type} (p : α → Bool) (a : α) (l : List α) (h : p a = true) :
    (a :: l).takeWhile p = a :: l.takeWhile p := by
  simp [List.takeWhile, h]

theorem length_dropWhile_le {α : Type} (p : α → Bool) (l : List α) :
    (l.dropWhile p).length ≤ l.length :=
  (List.dropWhile_suffix p).length_le

theorem Scanner.isalnum_of_isalpha (c : Char) (h : Scanner.isalpha c = true) :
    Scanner.isalnum c = true := by
  simp [Scanner.isalnum, h]

theorem Scanner.wordType_cases (value : String) :
    Scanner.wordType value = TokenType.QUERIES ∨ Scanner.wordType value = TokenType.RULES ∨
    Scanner.wordType value = TokenType.SCHEMES ∨ Scanner.wordType value = TokenType.FACTS ∨
    Scanner.wordType value = TokenType.ID := by
  unfold Scanner.wordType
  split_ifs <;> simp

theorem Scanner.scanStep_spec (c : Char) (rest : List Char) (lineNumber : Int) :
    (Scanner.scanStep c rest lineNumber).1.length ≤ rest.length ∧
    ∀ token, (Scanner.scanStep c rest lineNumber).2.2 = some token → Scanner.Emitted token := by
  have plain : ∀ (type : TokenType) (value : String) (line : Int) (token : Token),
      type ≠ TokenType.END → type ≠ TokenType.STRING → type ≠ TokenType.ID →
      some (Token.mk type value line) = some token → Scanner.Emitted token := by
    intro type value line token h1 h2 h3 h
    simp only [Option.some.injEq] at h
    subst h
    exact ⟨h1, fun h => absurd h h2, fun h => absurd h h3⟩
  unfold Scanner.scanStep
  by_cases h1 : Scanner.isspace c = true
  · rw [if_pos h1]
    exact ⟨le_refl _, fun token h => by simp at h⟩
  rw [if_neg h1]
  by_cases h2 : c = Char.ofNat 44
  · rw [if_pos h2]
    exact ⟨le_refl _, fun token h => plain _ _ _ _ (by decide) (by decide) (by decide) h⟩
  rw [if_neg h2]
  by_cases h3 : c = quote
  · rw [if_pos h3]
    simp only []
    cases heq : rest.dropWhile (fun d => d != quote) with
    | nil =>
      exact ⟨by simp, fun token h => plain _ _ _ _ (by decide) (by decide) (by decide) h⟩
    | cons closing after =>
      have hlen := length_dropWhile_le (fun d => d != quote) rest
      rw [heq] at hlen
      simp only [List.length_cons] at hlen
      refine ⟨by show after.length ≤ rest.length; omega, fun token h => ?_⟩
      simp only [Option.some.injEq] at h
      subst h
      have hclosing := dropWhile_head_false _ rest closing after heq
      have hq : closing = quote := by simpa using hclosing
      refine ⟨?_, fun _ => ⟨rest.takeWhile (fun d => d != quote), ?_⟩, fun hid => ?_⟩
      · show TokenType.STRING ≠ TokenType.END
        decide
      · show String.mk (c :: List.takeWhile (fun d => d != quote) rest ++ [closing]) = _
        rw [h3, hq]
      · exact absurd hid (by show TokenType.STRING ≠ TokenType.ID; decide)
  rw [if_neg h3]
  by_cases h4 : c = Char.ofNat 35
  · rw [if_pos h4]
    have hc : (fun d => d != Scanner.newline) c = true := by rw [h4]; decide
    rw [dropWhile_cons_pos _ c rest hc]
    exact ⟨length_dropWhile_le _ rest, fun token h => by simp at h⟩
  rw [if_neg h4]
  by_cases h5 : Scanner.isalpha c = true
  · rw [if_pos h5]
    have hc : (fun d => Scanner.isalnum d || d == Char.ofNat 95) c = true := by
      simp [Scanner.isalnum_of_isalpha c h5]
    simp only []
    rw [dropWhile_cons_pos _ c rest hc, takeWhile_cons_pos _ c rest hc]
    refine ⟨length_dropWhile_le _ rest, fun token h => ?_⟩
    simp only [Option.some.injEq] at h
    subst h
    refine ⟨?_, ?_, fun _ => ⟨c, _, rfl, h5⟩⟩
    · rcases Scanner.wordType_cases (String.mk (c :: rest.takeWhile
        (fun d => Scanner.isalnum d || d == Char.ofNat 95))) with hw | hw | hw | hw | hw <;>
        simp [hw]
    · rcases Scanner.wordType_cases (String.mk (c :: rest.takeWhile
        (fun d => Scanner.isalnum d || d == Char.ofNat 95))) with hw | hw | hw | hw | hw <;>
        simp [hw]
  rw [if_neg h5]
  by_cases h6 : c = Char.ofNat 58
  · rw [if_pos h6]
    cases rest with
    | nil =>
      exact ⟨le_refl _, fun token h => plain _ _ _ _ (by decide) (by decide) (by decide) h⟩
    | cons d after =>
      simp only []
      by_cases hd : d = Char.ofNat 45
      · rw [if_pos hd]
        exact ⟨by simp, fun token h => plain _ _ _ _ (by decide) (by decide) (by decide) h⟩
      · rw [if_neg hd]
        exact ⟨le_refl _, fun token h => plain _ _ _ _ (by decide) (by decide) (by decide) h⟩
  rw [if_neg h6]
  by_cases h7 : c = Char.ofNat 40
  · rw [if_pos h7]
    exact ⟨le_refl _, fun token h => plain _ _ _ _ (by decide) (by decide) (by decide) h⟩
  rw [if_neg h7]
  by_cases h8 : c = Char.ofNat 41
  · rw [if_pos h8]
    exact ⟨le_refl _, fun token h => plain _ _ _ _ (by decide) (by decide) (by decide) h⟩
  rw [if_neg h8]
  by_cases h9 : c = Char.ofNat 63
  · rw [if_pos h9]
    exact ⟨le_refl _, fun token h => plain _ _ _ _ (by decide) (by decide) (by decide) h⟩
  rw [if_neg h9]
  by_cases h10 : c = Char.ofNat 46
  · rw [if_pos h10]
    exact ⟨le_refl _, fun token h => plain _ _ _ _ (by decide) (by decide) (by decide) h⟩
  rw [if_neg h10]
  by_cases h11 : c = Char.ofNat 43
  · rw [if_pos h11]
    exact ⟨le_refl _, fun token h => plain _ _ _ _ (by decide) (by decide) (by decide) h⟩
  rw [if_neg h11]
  by_cases h12 : c = Char.ofNat 42
  · rw [if_pos h12]
    exact ⟨le_refl _, fun token h => plain _ _ _ _ (by decide) (by decide) (by decide) h⟩
  rw [if_neg h12]
  exact ⟨le_refl _, fun token h => plain _ _ _ _ (by decide) (by decide) (by decide) h⟩

theorem Scanner.scanLoop_isSome :
    ∀ (fuel : Nat) (rest : List Char) (lineNumber : Int) (tokens : List Token),
      rest.length ≤ fuel → (Scanner.scanLoop fuel rest lineNumber tokens).isSome = true := by
  intro fuel
  induction fuel with
  | zero =>
    intro rest lineNumber tokens h
    cases rest with
    | nil => rfl
    | cons c rest => simp at h
  | succ fuel ih =>
    intro rest lineNumber tokens h
    cases rest with
    | nil => rfl
    | cons c rest =>
      have hrest : rest.length ≤ fuel := by simpa using h
      show (Scanner.scanLoop fuel (Scanner.scanStep c rest lineNumber).1 _ _).isSome = true
      exact ih _ _ _ (le_trans (Scanner.scanStep_spec c rest lineNumber).1 hrest)

theorem Scanner.scanLoop_tokens :
    ∀ (fuel : Nat) (rest : List Char) (lineNumber : Int) (tokens : List Token)
      (result : List Token × Int),
      Scanner.scanLoop fuel rest lineNumber tokens = some result →
      ∃ pushed, result.1 = tokens ++ pushed ∧ ∀ token ∈ pushed, Scanner.Emitted token := by
  intro fuel
  induction fuel with
  | zero =>
    intro rest lineNumber tokens result h
    cases rest with
    | nil =>
      have h' : some (tokens, lineNumber) = some result := h
      simp only [Option.some.injEq] at h'
      exact ⟨[], by simp [← h'], by simp⟩
    | cons c rest => exact absurd h (by show none ≠ some result; simp)
  | succ fuel ih =>
    intro rest lineNumber tokens result h
    cases rest with
    | nil =>
      have h' : some (tokens, lineNumber) = some result := h
      simp only [Option.some.injEq] at h'
      exact ⟨[], by simp [← h'], by simp⟩
    | cons c rest =>
      have h' : Scanner.scanLoop fuel (Scanner.scanStep c rest lineNumber).1
          (Scanner.scanStep c rest lineNumber).2.1
          (match (Scanner.scanStep c rest lineNumber).2.2 with
            | some token => tokens ++ [token]
            | none => tokens) = some result := h
      obtain ⟨pushed, hp, hall⟩ := ih _ _ _ result h'
      cases hstep : (Scanner.scanStep c rest lineNumber).2.2 with
      | none =>
        rw [hstep] at hp
        exact ⟨pushed, hp, hall⟩
      | some token =>
        rw [hstep] at hp
        refine ⟨token :: pushed, by simpa using hp, ?_⟩
        intro t ht
        rcases List.mem_cons.mp ht with rfl | ht
        · exact (Scanner.scanStep_spec c rest lineNumber).2 t hstep
        · exact hall t ht

theorem Scanner.scan_eq (input : String) :
    ∃ (pushed : List Token) (lineNumber : Int),
      Scanner.scan input = pushed ++ [⟨TokenType.END, "", lineNumber⟩] ∧
      ∀ token ∈ pushed, Scanner.Emitted token := by
  unfold Scanner.scan
  have hsome := Scanner.scanLoop_isSome input.data.length input.data 1 [] (le_refl _)
  cases hrun : Scanner.scanLoop input.data.length input.data 1 [] with
  | none => rw [hrun] at hsome; simp at hsome
  | some result =>
    obtain ⟨pushed, hp, hall⟩ := Scanner.scanLoop_tokens _ _ _ _ result hrun
    obtain ⟨tokens, lineNumber⟩ := result
    simp only [List.nil_append] at hp
    subst hp
    exact ⟨tokens, lineNumber, rfl, hall⟩

theorem Outcome.returns_bind {α β : Type} (m : ParserM α) (f : α → ParserM β)
    (parser : Parser) (Q : α → Parser → Prop) (R : β → Parser → Prop)
    (hm : (m parser).Returns Q)
    (hf : ∀ value parser', Q value parser' → (f value parser').Returns R) :
    ((m >>= f) parser).Returns R := by
  show (ParserM.bind m f parser).Returns R
  unfold ParserM.bind
  cases h : m parser with
  | ok value parser' =>
    rw [h] at hm
    exact hf value parser' hm
  | thrown message => trivial
  | outOfRange parser' => rw [h] at hm; exact hm.elim
  | unfinished => rw [h] at hm; exact hm.elim

theorem Outcome.returns_pure {α : Type} (value : α) (parser : Parser)
    (Q : α → Parser → Prop) (h : Q value parser) :
    ((Pure.pure value : ParserM α) parser).Returns Q := h

theorem Outcome.returns_mono {α : Type} (outcome : Outcome α) (Q R : α → Parser → Prop)
    (h : outcome.Returns Q) (hQR : ∀ value parser, Q value parser → R value parser) :
    outcome.Returns R := by
  cases outcome with
  | ok value parser => exact hQR value parser h
  | thrown message => trivial
  | outOfRange parser => exact h.elim
  | unfinished => exact h.elim

theorem ScannerLike.length_pos (tokens : List Token) (h : ScannerLike tokens) :
    0 < tokens.length := by
  obtain ⟨pushed, last, rfl, _, _⟩ := h
  simp

theorem ScannerLike.index_of_end (tokens : List Token) (h : ScannerLike tokens)
    (j : Nat) (token : Token) (hj : tokens[j]? = some token) :
    (token.type = TokenType.END ↔ j + 1 = tokens.length) := by
  obtain ⟨pushed, last, rfl, hlast, hpushed⟩ := h
  have hlt : j < (pushed ++ [last]).length := by
    by_contra hge
    rw [List.getElem?_eq_none (by omega)] at hj
    exact absurd hj (by simp)
  by_cases hjp : j < pushed.length
  · rw [List.getElem?_append_left hjp] at hj
    have hmem : token ∈ pushed := List.getElem?_mem hj
    constructor
    · intro hend
      exact absurd hend (hpushed token hmem)
    · intro hlen
      simp only [List.length_append, List.length_singleton] at hlen
      omega
  · have hje : j = pushed.length := by
      simp only [List.length_append, List.length_singleton] at hlt
      omega
    subst hje
    simp only [List.getElem?_concat_length, Option.some.injEq] at hj
    subst hj
    simp [hlast]

theorem Parser.skipCommentsFrom_spec :
    ∀ (l : List Token) (i : Nat),
      i ≤ (Parser.skipCommentsFrom l i).1 ∧
      (Parser.skipCommentsFrom l i).1 ≤ i + l.length ∧
      ((Parser.skipCommentsFrom l i).2 = true →
        ∃ token, l[(Parser.skipCommentsFrom l i).1 - i]? = some token ∧
          token.type ≠ TokenType.COMMENT ∧ token.type ≠ TokenType.UNDEFINED) ∧
      ((Parser.skipCommentsFrom l i).2 = false →
        (Parser.skipCommentsFrom l i).1 = i + l.length ∧
          ∀ token ∈ l, token.type = TokenType.COMMENT ∨ token.type = TokenType.UNDEFINED) := by
  intro l
  induction l with
  | nil =>
    intro i
    simp [Parser.skipCommentsFrom]
  | cons token rest ih =>
    intro i
    unfold Parser.skipCommentsFrom
    by_cases hc : token.type = TokenType.COMMENT ∨ token.type = TokenType.UNDEFINED
    · rw [if_pos hc]
      obtain ⟨h1, h2, h3, h4⟩ := ih (i + 1)
      refine ⟨by omega, by simp only [List.length_cons]; omega, ?_, ?_⟩
      · intro hb
        obtain ⟨tok, htok, hne⟩ := h3 hb
        refine ⟨tok, ?_, hne⟩
        have : (Parser.skipCommentsFrom rest (i + 1)).1 - i =
            ((Parser.skipCommentsFrom rest (i + 1)).1 - (i + 1)) + 1 := by omega
        rw [this, List.getElem?_cons_succ]
        exact htok
      · intro hb
        obtain ⟨hlen, hall⟩ := h4 hb
        refine ⟨by simp only [List.length_cons]; omega, ?_⟩
        intro t ht
        rcases List.mem_cons.mp ht with rfl | ht
        · exact hc
        · exact hall t ht
    · rw [if_neg hc]
      refine ⟨le_refl _, by simp, fun _ => ⟨token, by simp, ?_⟩, fun hb => by simp at hb⟩
      exact ⟨fun h => hc (Or.inl h), fun h => hc (Or.inr h)⟩

theorem Parser.skipCommentsLoop_eq (parser : Parser) :
    ∀ (l : List Token) (i : Nat),
      Parser.skipCommentsLoop parser l i =
        if (Parser.skipCommentsFrom l i).2 = true then
          Outcome.ok () { parser with currentTokenIndex := (Parser.skipCommentsFrom l i).1 }
        else
          Outcome.outOfRange
            { parser with currentTokenIndex := (Parser.skipCommentsFrom l i).1 } := by
  intro l
  induction l with
  | nil => intro i; rfl
  | cons token rest ih =>
    intro i
    unfold Parser.skipCommentsLoop Parser.skipCommentsFrom
    by_cases hc : token.type = TokenType.COMMENT ∨ token.type = TokenType.UNDEFINED
    · rw [if_pos hc, if_pos hc]
      exact ih (i + 1)
    · rw [if_neg hc, if_neg hc]
      rfl

theorem Parser.skipCommentsFrom_settled (token : Token) (rest : List Token) (i : Nat)
    (h : token.type ≠ TokenType.COMMENT ∧ token.type ≠ TokenType.UNDEFINED) :
    Parser.skipCommentsFrom (token :: rest) i = (i, true) := by
  unfold Parser.skipCommentsFrom
  rw [if_neg (by rintro (hc | hc); exact h.1 hc; exact h.2 hc)]

/-- The method `skipComments` inside a token list that ends with `END`: it
returns at an index inside the tokens, at a settled token, and at the index it
started from when that token was settled already. -/
theorem Parser.skipComments_spec (tokens : List Token) (hts : ScannerLike tokens)
    (parser : Parser) (htokens : parser.tokens = tokens)
    (hlt : parser.currentTokenIndex < tokens.length) :
    ∃ j, Parser.skipComments parser = Outcome.ok () { parser with currentTokenIndex := j } ∧
      parser.currentTokenIndex ≤ j ∧ j < tokens.length ∧
      Parser.Settled { parser with currentTokenIndex := j } ∧
      (parser.Settled → j = parser.currentTokenIndex) := by
  subst htokens
  obtain ⟨h1, h2, h3, h4⟩ := Parser.skipCommentsFrom_spec
    (parser.tokens.drop parser.currentTokenIndex) parser.currentTokenIndex
  have hb : (Parser.skipCommentsFrom (parser.tokens.drop parser.currentTokenIndex)
      parser.currentTokenIndex).2 = true := by
    by_contra hb
    have hb' := h4 (by simpa using hb)
    obtain ⟨pushed, last, hpl, hlast, _⟩ := hts
    have hmem : last ∈ parser.tokens.drop parser.currentTokenIndex := by
      rw [hpl]
      have hle : parser.currentTokenIndex ≤ pushed.length := by
        rw [hpl] at hlt
        simp only [List.length_append, List.length_singleton] at hlt
        omega
      rw [List.drop_append_of_le_length hle]
      simp
    rcases hb'.2 last hmem with hc | hc
    · rw [hlast] at hc; exact absurd hc (by decide)
    · rw [hlast] at hc; exact absurd hc (by decide)
  obtain ⟨tok, htok, hne⟩ := h3 hb
  rw [List.getElem?_drop] at htok
  have hidx : parser.currentTokenIndex +
      ((Parser.skipCommentsFrom (parser.tokens.drop parser.currentTokenIndex)
        parser.currentTokenIndex).1 - parser.currentTokenIndex) =
      (Parser.skipCommentsFrom (parser.tokens.drop parser.currentTokenIndex)
        parser.currentTokenIndex).1 := by omega
  rw [hidx] at htok
  refine ⟨(Parser.skipCommentsFrom (parser.tokens.drop parser.currentTokenIndex)
    parser.currentTokenIndex).1, ?_, h1, ?_, ?_, ?_⟩
  · unfold Parser.skipComments
    rw [Parser.skipCommentsLoop_eq, if_pos hb]
  · by_contra hge
    rw [List.getElem?_eq_none (by omega)] at htok
    exact absurd htok (by simp)
  · intro token htoken
    have htoken' : parser.tokens[(Parser.skipCommentsFrom
        (parser.tokens.drop parser.currentTokenIndex) parser.currentTokenIndex).1]? =
        some token := htoken
    rw [htok] at htoken'
    simp only [Option.some.injEq] at htoken'
    subst htoken'
    exact hne
  · intro hsettled
    have hcur : parser.currentTokenIndex < parser.tokens.length := hlt
    have hdrop : parser.tokens.drop parser.currentTokenIndex =
        parser.tokens[parser.currentTokenIndex] ::
          parser.tokens.drop (parser.currentTokenIndex + 1) :=
      List.drop_eq_getElem_cons hcur
    rw [hdrop, Parser.skipCommentsFrom_settled _ _ _
      (hsettled _ (List.getElem?_eq_getElem hcur))]

theorem Outcome.readsPastEnd_bind {α β : Type} (m : ParserM α) (f : α → ParserM β)
    (parser : Parser) (Q : α → Parser → Prop) (E : Parser → Prop)
    (hm : (m parser).Returns Q)
    (hf : ∀ value parser', Q value parser' → (f value parser').ReadsPastEnd E) :
    ((m >>= f) parser).ReadsPastEnd E := by
  show (ParserM.bind m f parser).ReadsPastEnd E
  unfold ParserM.bind
  cases h : m parser with
  | ok value parser' =>
    rw [h] at hm
    exact hf value parser' hm
  | thrown message => trivial
  | outOfRange parser' => rw [h] at hm; exact hm.elim
  | unfinished => rw [h] at hm; exact hm.elim

theorem Parser.Inv.mono (tokens : List Token) (i j : Nat) (parser : Parser) (hij : i ≤ j)
    (h : Parser.Inv tokens j parser) : Parser.Inv tokens i parser :=
  ⟨h.1, le_trans hij h.2.1, h.2.2.1, h.2.2.2.1, h.2.2.2.2⟩

theorem Parser.skipComments_returns (tokens : List Token) (hts : ScannerLike tokens)
    (parser : Parser) (htokens : parser.tokens = tokens)
    (hlt : parser.currentTokenIndex < tokens.length) :
    (Parser.skipComments parser).Returns (fun _ parser' =>
      parser'.tokens = tokens ∧ parser'.datalogProgram = parser.datalogProgram ∧
      parser.currentTokenIndex ≤ parser'.currentTokenIndex ∧
      parser'.currentTokenIndex < tokens.length ∧ parser'.Settled) := by
  obtain ⟨j, hrun, hij, hjlt, hsettled, _⟩ :=
    Parser.skipComments_spec tokens hts parser htokens hlt
  rw [hrun]
  exact ⟨htokens, rfl, hij, hjlt, hsettled⟩

theorem Parser.currentToken_returns (tokens : List Token) (i : Nat) (parser : Parser)
    (h : Parser.Inv tokens i parser) :
    (Parser.currentToken parser).Returns (fun token parser' =>
      parser' = parser ∧ tokens[parser.currentTokenIndex]? = some token ∧
      token.type ≠ TokenType.COMMENT ∧ token.type ≠ TokenType.UNDEFINED) := by
  obtain ⟨htokens, _, hlt, hsettled, _⟩ := h
  subst htokens
  unfold Parser.currentToken
  rw [List.getElem?_eq_getElem hlt]
  exact ⟨rfl, rfl, hsettled _ (List.getElem?_eq_getElem hlt)⟩

/-- The method `match` for a type other than `END`, inside a token list that ends
with `END`: it returns or throws; when it returns, the index has moved on, the
state is settled, the program is unchanged, and the token that was current,
when it was settled, has the expected type. -/
theorem Parser.matchToken_spec (tokens : List Token) (hts : ScannerLike tokens)
    (expectedType : TokenType) (hT : expectedType ≠ TokenType.END) (i : Nat)
    (parser : Parser) (htokens : parser.tokens = tokens) (hi : i ≤ parser.currentTokenIndex)
    (hlt : parser.currentTokenIndex < tokens.length)
    (hprog : parser.datalogProgram.FromTokens tokens) :
    (Parser.matchToken expectedType parser).Returns (fun _ parser' =>
      Parser.Inv tokens (i + 1) parser' ∧
      (parser.Settled → ∃ token, tokens[parser.currentTokenIndex]? = some token ∧
        token.type = expectedType)) := by
  obtain ⟨j, hrun, hij, hjlt, hsettled, hsame⟩ :=
    Parser.skipComments_spec tokens hts parser htokens hlt
  unfold Parser.matchToken
  refine Outcome.returns_bind _ _ _ (fun _ parser' =>
    parser' = { parser with currentTokenIndex := j }) _ (by rw [hrun]; rfl) ?_
  rintro _ parser1 rfl
  have hinv1 : Parser.Inv tokens j { parser with currentTokenIndex := j } :=
    ⟨htokens, le_refl _, hjlt, hsettled, hprog⟩
  refine Outcome.returns_bind _ _ _ _ _ (Parser.currentToken_returns tokens j _ hinv1) ?_
  rintro token parser1 ⟨rfl, htoken, _⟩
  have htoken' : tokens[j]? = some token := htoken
  by_cases hty : token.type = expectedType
  · rw [if_pos hty]
    have hnext : j + 1 < tokens.length := by
      have hiff := ScannerLike.index_of_end tokens hts j token htoken'
      have hne : token.type ≠ TokenType.END := by rw [hty]; exact hT
      have : ¬ (j + 1 = tokens.length) := fun h => hne (hiff.mpr h)
      omega
    refine Outcome.returns_bind _ _ _ (fun _ parser' =>
      parser' = { parser with currentTokenIndex := j + 1 }) _ rfl ?_
    rintro _ parser2 rfl
    refine Outcome.returns_mono _ _ _
      (Parser.skipComments_returns tokens hts { parser with currentTokenIndex := j + 1 }
        htokens hnext) ?_
    rintro _ parser3 ⟨h1, h2, h3, h4, h5⟩
    have h3' : j + 1 ≤ parser3.currentTokenIndex := h3
    refine ⟨⟨h1, by omega, h4, h5, by rw [h2]; exact hprog⟩, fun hs => ?_⟩
    have hj := hsame hs
    subst hj
    exact ⟨token, htoken', hty⟩
  · rw [if_neg hty]
    trivial

theorem Parser.matchToken_returns (tokens : List Token) (hts : ScannerLike tokens)
    (expectedType : TokenType) (hT : expectedType ≠ TokenType.END) (i : Nat)
    (parser : Parser) (h : Parser.Inv tokens i parser) :
    (Parser.matchToken expectedType parser).Returns (fun _ parser' =>
      Parser.Inv tokens (i + 1) parser' ∧
      ∃ token, tokens[parser.currentTokenIndex]? = some token ∧
        token.type = expectedType) := by
  refine Outcome.returns_mono _ _ _
    (Parser.matchToken_spec tokens hts expectedType hT i parser h.1 h.2.1 h.2.2.1 h.2.2.2.2) ?_
  rintro _ parser' ⟨h1, h2⟩
  exact ⟨h1, h2 h.2.2.2.1⟩

/-- The method `match(END)` inside a token list that ends with `END`: it throws, or
the current token is the last one and, having advanced past it, `skipComments`
reads `tokens[tokens.size()]`. -/
theorem Parser.matchToken_end (tokens : List Token) (hts : ScannerLike tokens)
    (parser : Parser) (htokens : parser.tokens = tokens)
    (hlt : parser.currentTokenIndex < tokens.length) :
    (Parser.matchToken TokenType.END parser).ReadsPastEnd (fun parser' =>
      parser' = { parser with currentTokenIndex := tokens.length }) := by
  obtain ⟨j, hrun, hij, hjlt, hsettled, hsame⟩ :=
    Parser.skipComments_spec tokens hts parser htokens hlt
  unfold Parser.matchToken
  refine Outcome.readsPastEnd_bind _ _ _ (fun _ parser' =>
    parser' = { parser with currentTokenIndex := j }) _ (by rw [hrun]; rfl) ?_
  rintro _ parser1 rfl
  have hcur : Parser.currentToken { parser with currentTokenIndex := j } =
      Outcome.ok (tokens[j]) { parser with currentTokenIndex := j } := by
    unfold Parser.currentToken
    subst htokens
    simp only [List.getElem?_eq_getElem hjlt]
  refine Outcome.readsPastEnd_bind _ _ _ (fun token parser' =>
    token = tokens[j] ∧ parser' = { parser with currentTokenIndex := j }) _
    (by rw [hcur]; exact ⟨rfl, rfl⟩) ?_
  rintro token parser1 ⟨rfl, rfl⟩
  by_cases hty : (tokens[j]).type = TokenType.END
  · rw [if_pos hty]
    have hlast : j + 1 = tokens.length :=
      (ScannerLike.index_of_end tokens hts j _ (List.getElem?_eq_getElem hjlt)).mp hty
    refine Outcome.readsPastEnd_bind _ _ _ (fun _ parser' =>
      parser' = { parser with currentTokenIndex := j + 1 }) _ rfl ?_
    rintro _ parser2 rfl
    show (Parser.skipComments _).ReadsPastEnd _
    unfold Parser.skipComments
    subst htokens
    simp only [hlast, List.drop_length, Parser.skipCommentsLoop]
    rfl
  · rw [if_neg hty]
    trivial

theorem Predicate.fromTokens_addParameter (tokens : List Token) (allowed : List TokenType)
    (p : Predicate) (token : Token) (j : Nat) (hp : p.FromTokens tokens allowed)
    (hj : tokens[j]? = some token) (hty : token.type ∈ allowed) :
    (p.addParameter ⟨token.value⟩).FromTokens tokens allowed := by
  intro q hq
  simp only [Predicate.addParameter, List.mem_append, List.mem_singleton] at hq
  rcases hq with hq | rfl
  · exact hp q hq
  · exact ⟨token, List.getElem?_mem hj, hty, rfl⟩

theorem Predicate.fromTokens_nil (tokens : List Token) (allowed : List TokenType)
    (name : String) : (Predicate.mk name []).FromTokens tokens allowed := by
  intro q hq
  simp at hq

theorem Parser.idList_spec (tokens : List Token) (hts : ScannerLike tokens) :
    ∀ (fuel i : Nat) (p : Predicate) (parser : Parser),
      Parser.Inv tokens i parser → tokens.length < i + fuel →
      p.FromTokens tokens [TokenType.ID] →
      (Parser.idList fuel p parser).Returns (fun p' parser' =>
        Parser.Inv tokens i parser' ∧ p'.FromTokens tokens [TokenType.ID]) := by
  intro fuel
  induction fuel with
  | zero =>
    intro i p parser hinv hfuel _
    have := hinv.2.1
    have := hinv.2.2.1
    omega
  | succ fuel ih =>
    intro i p parser hinv hfuel hp
    unfold Parser.idList
    refine Outcome.returns_bind _ _ _ _ _ (Parser.currentToken_returns tokens i _ hinv) ?_
    rintro token parser0 ⟨rfl, _, _⟩
    by_cases hty : token.type = TokenType.RIGHT_PAREN
    · rw [if_pos hty]
      exact ⟨hinv, hp⟩
    · rw [if_neg hty]
      refine Outcome.returns_bind _ _ _ _ _
        (Parser.matchToken_returns tokens hts _ (by decide) i _ hinv) ?_
      rintro _ parser1 ⟨hinv1, _⟩
      refine Outcome.returns_bind _ _ _ _ _
        (Parser.currentToken_returns tokens (i + 1) _ hinv1) ?_
      rintro token1 parser1' ⟨rfl, htoken1, _⟩
      refine Outcome.returns_bind _ _ _ _ _
        (Parser.matchToken_returns tokens hts _ (by decide) (i + 1) _ hinv1) ?_
      rintro _ parser2 ⟨hinv2, token2, htoken2, hty2⟩
      rw [htoken1] at htoken2
      simp only [Option.some.injEq] at htoken2
      subst htoken2
      refine Outcome.returns_mono _ _ _
        (ih (i + 1) _ parser2 (Parser.Inv.mono tokens _ _ _ (by omega) hinv2) (by omega)
          (Predicate.fromTokens_addParameter tokens _ p token1 _ hp htoken1
            (by rw [hty2]; simp))) ?_
      rintro p' parser3 ⟨h1, h2⟩
      exact ⟨Parser.Inv.mono tokens _ _ _ (by omega) h1, h2⟩

theorem Parser.stringList_spec (tokens : List Token) (hts : ScannerLike tokens) :
    ∀ (fuel i : Nat) (p : Predicate) (parser : Parser),
      Parser.Inv tokens i parser → tokens.length < i + fuel →
      p.FromTokens tokens [TokenType.STRING] →
      (Parser.stringList fuel p parser).Returns (fun p' parser' =>
        Parser.Inv tokens i parser' ∧ p'.FromTokens tokens [TokenType.STRING]) := by
  intro fuel
  induction fuel with
  | zero =>
    intro i p parser hinv hfuel _
    have := hinv.2.1
    have := hinv.2.2.1
    omega
  | succ fuel ih =>
    intro i p parser hinv hfuel hp
    unfold Parser.stringList
    refine Outcome.returns_bind _ _ _ _ _ (Parser.currentToken_returns tokens i _ hinv) ?_
    rintro token parser0 ⟨rfl, _, _⟩
    by_cases hty : token.type = TokenType.RIGHT_PAREN
    · rw [if_pos hty]
      exact ⟨hinv, hp⟩
    · rw [if_neg hty]
      refine Outcome.returns_bind _ _ _ _ _
        (Parser.matchToken_returns tokens hts _ (by decide) i _ hinv) ?_
      rintro _ parser1 ⟨hinv1, _⟩
      refine Outcome.returns_bind _ _ _ _ _
        (Parser.currentToken_returns tokens (i + 1) _ hinv1) ?_
      rintro token1 parser1' ⟨rfl, htoken1, _⟩
      refine Outcome.returns_bind _ _ _ _ _
        (Parser.matchToken_returns tokens hts _ (by decide) (i + 1) _ hinv1) ?_
      rintro _ parser2 ⟨hinv2, token2, htoken2, hty2⟩
      rw [htoken1] at htoken2
      simp only [Option.some.injEq] at htoken2
      subst htoken2
      refine Outcome.returns_mono _ _ _
        (ih (i + 1) _ parser2 (Parser.Inv.mono tokens _ _ _ (by omega) hinv2) (by omega)
          (Predicate.fromTokens_addParameter tokens _ p token1 _ hp htoken1
            (by rw [hty2]; simp))) ?_
      rintro p' parser3 ⟨h1, h2⟩
      exact ⟨Parser.Inv.mono tokens _ _ _ (by omega) h1, h2⟩

theorem Parser.parameterList_spec (tokens : List Token) (hts : ScannerLike tokens) :
    ∀ (fuel i : Nat) (p : Predicate) (parser : Parser),
      Parser.Inv tokens i parser → tokens.length < i + fuel →
      p.FromTokens tokens [TokenType.STRING, TokenType.ID] →
      (Parser.parameterList fuel p parser).Returns (fun p' parser' =>
        Parser.Inv tokens i parser' ∧
          p'.FromTokens tokens [TokenType.STRING, TokenType.ID]) := by
  intro fuel
  induction fuel with
  | zero =>
    intro i p parser hinv hfuel _
    have := hinv.2.1
    have := hinv.2.2.1
    omega
  | succ fuel ih =>
    intro i p parser hinv hfuel hp
    unfold Parser.parameterList
    refine Outcome.returns_bind _ _ _ _ _ (Parser.currentToken_returns tokens i _ hinv) ?_
    rintro token parser0 ⟨rfl, _, _⟩
    by_cases hty : token.type = TokenType.RIGHT_PAREN
    · rw [if_pos hty]
      exact ⟨hinv, hp⟩
    · rw [if_neg hty]
      refine Outcome.returns_bind _ _ _ _ _
        (Parser.matchToken_returns tokens hts _ (by decide) i _ hinv) ?_
      rintro _ parser1 ⟨hinv1, _⟩
      refine Outcome.returns_bind _ _ _ _ _
        (Parser.currentToken_returns tokens (i + 1) _ hinv1) ?_
      rintro token1 parser1' ⟨rfl, htoken1, _⟩
      by_cases hstr : token1.type = TokenType.STRING
      · rw [if_pos hstr]
        refine Outcome.returns_bind _ _ _ _ _
          (Parser.matchToken_returns tokens hts _ (by decide) (i + 1) _ hinv1) ?_
        rintro _ parser2 ⟨hinv2, _⟩
        refine Outcome.returns_mono _ _ _
          (ih (i + 1) _ parser2 (Parser.Inv.mono tokens _ _ _ (by omega) hinv2) (by omega)
            (Predicate.fromTokens_addParameter tokens _ p token1 _ hp htoken1
              (by rw [hstr]; simp))) ?_
        rintro p' parser3 ⟨h1, h2⟩
        exact ⟨Parser.Inv.mono tokens _ _ _ (by omega) h1, h2⟩
      · rw [if_neg hstr]
        refine Outcome.returns_bind _ _ _ _ _
          (Parser.matchToken_returns tokens hts _ (by decide) (i + 1) _ hinv1) ?_
        rintro _ parser2 ⟨hinv2, token2, htoken2, hty2⟩
        rw [htoken1] at htoken2
        simp only [Option.some.injEq] at htoken2
        subst htoken2
        refine Outcome.returns_mono _ _ _
          (ih (i + 1) _ parser2 (Parser.Inv.mono tokens _ _ _ (by omega) hinv2) (by omega)
            (Predicate.fromTokens_addParameter tokens _ p token1 _ hp htoken1
              (by rw [hty2]; simp))) ?_
        rintro p' parser3 ⟨h1, h2⟩
        exact ⟨Parser.Inv.mono tokens _ _ _ (by omega) h1, h2⟩

theorem Outcome.readsPastEnd_mono {α : Type} (outcome : Outcome α) (E F : Parser → Prop)
    (h : outcome.ReadsPastEnd E) (hEF : ∀ parser, E parser → F parser) :
    outcome.ReadsPastEnd F := by
  cases outcome with
  | ok value parser => exact h.elim
  | thrown message => trivial
  | outOfRange parser => exact hEF parser h
  | unfinished => exact h.elim

theorem Parser.modifyProgram_returns (tokens : List Token) (i : Nat) (parser : Parser)
    (f : DatalogProgram → DatalogProgram) (h : Parser.Inv tokens i parser)
    (hf : (f parser.datalogProgram).FromTokens tokens) :
    (Parser.modifyProgram f parser).Returns (fun _ parser' => Parser.Inv tokens i parser') :=
  ⟨h.1, h.2.1, h.2.2.1, h.2.2.2.1, hf⟩

theorem Parser.headPredicate_spec (tokens : List Token) (hts : ScannerLike tokens)
    (fuel i : Nat) (parser : Parser) (hinv : Parser.Inv tokens i parser)
    (hfuel : tokens.length < i + fuel) :
    (Parser.headPredicate fuel parser).Returns (fun p parser' =>
      Parser.Inv tokens (i + 1) parser' ∧ p.FromTokens tokens [TokenType.ID]) := by
  unfold Parser.headPredicate
  refine Outcome.returns_bind _ _ _ _ _ (Parser.currentToken_returns tokens i _ hinv) ?_
  rintro nameToken parser0 ⟨rfl, _, _⟩
  refine Outcome.returns_bind _ _ _ _ _
    (Parser.matchToken_returns tokens hts _ (by decide) i _ hinv) ?_
  rintro _ parser1 ⟨hinv1, _⟩
  refine Outcome.returns_bind _ _ _ _ _
    (Parser.matchToken_returns tokens hts _ (by decide) (i + 1) _ hinv1) ?_
  rintro _ parser2 ⟨hinv2, _⟩
  refine Outcome.returns_bind _ _ _ _ _
    (Parser.currentToken_returns tokens _ _ hinv2) ?_
  rintro token parser2' ⟨rfl, htoken, _⟩
  refine Outcome.returns_bind _ _ _ _ _
    (Parser.matchToken_returns tokens hts _ (by decide) _ _ hinv2) ?_
  rintro _ parser3 ⟨hinv3, token', htoken', hty⟩
  rw [htoken] at htoken'
  simp only [Option.some.injEq] at htoken'
  subst htoken'
  refine Outcome.returns_bind _ _ _ _ _
    (Parser.idList_spec tokens hts fuel (i + 1) _ parser3
      (Parser.Inv.mono tokens _ _ _ (by omega) hinv3) (by omega)
      (Predicate.fromTokens_addParameter tokens _ _ token _
        (Predicate.fromTokens_nil tokens _ nameToken.value) htoken (by rw [hty]; simp))) ?_
  rintro p parser4 ⟨hinv4, hp⟩
  refine Outcome.returns_bind _ _ _ _ _
    (Parser.matchToken_returns tokens hts _ (by decide) _ _ hinv4) ?_
  rintro _ parser5 ⟨hinv5, _⟩
  exact ⟨Parser.Inv.mono tokens _ _ _ (by omega) hinv5, hp⟩

theorem Parser.scheme_spec (tokens : List Token) (hts : ScannerLike tokens)
    (fuel i : Nat) (parser : Parser) (hinv : Parser.Inv tokens i parser)
    (hfuel : tokens.length < i + fuel) :
    (Parser.scheme fuel parser).Returns (fun _ parser' =>
      Parser.Inv tokens (i + 1) parser') := by
  unfold Parser.scheme
  refine Outcome.returns_bind _ _ _ _ _ (Parser.currentToken_returns tokens i _ hinv) ?_
  rintro nameToken parser0 ⟨rfl, _, _⟩
  refine Outcome.returns_bind _ _ _ _ _
    (Parser.matchToken_returns tokens hts _ (by decide) i _ hinv) ?_
  rintro _ parser1 ⟨hinv1, _⟩
  refine Outcome.returns_bind _ _ _ _ _
    (Parser.matchToken_returns tokens hts _ (by decide) (i + 1) _ hinv1) ?_
  rintro _ parser2 ⟨hinv2, _⟩
  refine Outcome.returns_bind _ _ _ _ _
    (Parser.currentToken_returns tokens _ _ hinv2) ?_
  rintro token parser2' ⟨rfl, htoken, _⟩
  refine Outcome.returns_bind _ _ _ _ _
    (Parser.matchToken_returns tokens hts _ (by decide) _ _ hinv2) ?_
  rintro _ parser3 ⟨hinv3, token', htoken', hty⟩
  rw [htoken] at htoken'
  simp only [Option.some.injEq] at htoken'
  subst htoken'
  refine Outcome.returns_bind _ _ _ _ _
    (Parser.idList_spec tokens hts fuel (i + 1) _ parser3
      (Parser.Inv.mono tokens _ _ _ (by omega) hinv3) (by omega)
      (Predicate.fromTokens_addParameter tokens _ _ token _
        (Predicate.fromTokens_nil tokens _ nameToken.value) htoken (by rw [hty]; simp))) ?_
  rintro p parser4 ⟨hinv4, hp⟩
  refine Outcome.returns_bind _ _ _ _ _
    (Parser.matchToken_returns tokens hts _ (by decide) _ _ hinv4) ?_
  rintro _ parser5 ⟨hinv5, _⟩
  refine Parser.modifyProgram_returns tokens _ parser5 _
    (Parser.Inv.mono tokens _ _ _ (by omega) hinv5) ?_
  obtain ⟨h1, h2, h3, h4⟩ := hinv5.2.2.2.2
  refine ⟨?_, h2, h3, h4⟩
  intro s hs
  rcases List.mem_append.mp hs with hs | hs
  · exact h1 s hs
  · rw [List.mem_singleton.mp hs]
    exact hp

theorem Parser.fact_spec (tokens : List Token) (hts : ScannerLike tokens)
    (fuel i : Nat) (parser : Parser) (hinv : Parser.Inv tokens i parser)
    (hfuel : tokens.length < i + fuel) :
    (Parser.fact fuel parser).Returns (fun _ parser' =>
      Parser.Inv tokens (i + 1) parser') := by
  unfold Parser.fact
  refine Outcome.returns_bind _ _ _ _ _ (Parser.currentToken_returns tokens i _ hinv) ?_
  rintro nameToken parser0 ⟨rfl, _, _⟩
  refine Outcome.returns_bind _ _ _ _ _
    (Parser.matchToken_returns tokens hts _ (by decide) i _ hinv) ?_
  rintro _ parser1 ⟨hinv1, _⟩
  refine Outcome.returns_bind _ _ _ _ _
    (Parser.matchToken_returns tokens hts _ (by decide) (i + 1) _ hinv1) ?_
  rintro _ parser2 ⟨hinv2, _⟩
  refine Outcome.returns_bind _ _ _ _ _
    (Parser.currentToken_returns tokens _ _ hinv2) ?_
  rintro token parser2' ⟨rfl, htoken, _⟩
  refine Outcome.returns_bind _ _ _ _ _
    (Parser.matchToken_returns tokens hts _ (by decide) _ _ hinv2) ?_
  rintro _ parser3 ⟨hinv3, token', htoken', hty⟩
  rw [htoken] at htoken'
  simp only [Option.some.injEq] at htoken'
  subst htoken'
  refine Outcome.returns_bind _ _ _ _ _
    (Parser.stringList_spec tokens hts fuel (i + 1) _ parser3
      (Parser.Inv.mono tokens _ _ _ (by omega) hinv3) (by omega)
      (Predicate.fromTokens_addParameter tokens _ _ token _
        (Predicate.fromTokens_nil tokens _ nameToken.value) htoken (by rw [hty]; simp))) ?_
  rintro p parser4 ⟨hinv4, hp⟩
  refine Outcome.returns_bind _ _ _ _ _
    (Parser.matchToken_returns tokens hts _ (by decide) _ _ hinv4) ?_
  rintro _ parser5 ⟨hinv5, _⟩
  refine Outcome.returns_bind _ _ _ _ _
    (Parser.matchToken_returns tokens hts _ (by decide) _ _ hinv5) ?_
  rintro _ parser6 ⟨hinv6, _⟩
  refine Parser.modifyProgram_returns tokens _ parser6 _
    (Parser.Inv.mono tokens _ _ _ (by omega) hinv6) ?_
  obtain ⟨h1, h2, h3, h4⟩ := hinv6.2.2.2.2
  refine ⟨h1, ?_, h3, h4⟩
  intro s hs
  rcases List.mem_append.mp hs with hs | hs
  · exact h2 s hs
  · rw [List.mem_singleton.mp hs]
    exact hp

theorem Parser.predicate_spec (tokens : List Token) (hts : ScannerLike tokens)
    (fuel i : Nat) (parser : Parser) (hinv : Parser.Inv tokens i parser)
    (hfuel : tokens.length < i + fuel) :
    (Parser.predicate fuel parser).Returns (fun p parser' =>
      Parser.Inv tokens (i + 1) parser' ∧
        p.FromTokens tokens [TokenType.STRING, TokenType.ID]) := by
  unfold Parser.predicate
  refine Outcome.returns_bind _ _ _ _ _ (Parser.currentToken_returns tokens i _ hinv) ?_
  rintro nameToken parser0 ⟨rfl, _, _⟩
  refine Outcome.returns_bind _ _ _ _ _
    (Parser.matchToken_returns tokens hts _ (by decide) i _ hinv) ?_
  rintro _ parser1 ⟨hinv1, _⟩
  refine Outcome.returns_bind _ _ _ _ _
    (Parser.matchToken_returns tokens hts _ (by decide) (i + 1) _ hinv1) ?_
  rintro _ parser2 ⟨hinv2, _⟩
  refine Outcome.returns_bind _ _ _ _ _
    (Parser.currentToken_returns tokens _ _ hinv2) ?_
  rintro token parser2' ⟨rfl, htoken, _⟩
  by_cases hstr : token.type = TokenType.STRING
  · rw [if_pos hstr]
    refine Outcome.returns_bind _ _ _ _ _
      (Parser.matchToken_returns tokens hts _ (by decide) _ _ hinv2) ?_
    rintro _ parser3 ⟨hinv3, _⟩
    refine Outcome.returns_bind _ _ _ _ _
      (Parser.parameterList_spec tokens hts fuel (i + 1) _ parser3
        (Parser.Inv.mono tokens _ _ _ (by omega) hinv3) (by omega)
        (Predicate.fromTokens_addParameter tokens _ _ token _
          (Predicate.fromTokens_nil tokens _ nameToken.value) htoken (by rw [hstr]; simp))) ?_
    rintro p parser4 ⟨hinv4, hp⟩
    refine Outcome.returns_bind _ _ _ _ _
      (Parser.matchToken_returns tokens hts _ (by decide) _ _ hinv4) ?_
    rintro _ parser5 ⟨hinv5, _⟩
    exact ⟨Parser.Inv.mono tokens _ _ _ (by omega) hinv5, hp⟩
  · rw [if_neg hstr]
    refine Outcome.returns_bind _ _ _ _ _
      (Parser.matchToken_returns tokens hts _ (by decide) _ _ hinv2) ?_
    rintro _ parser3 ⟨hinv3, token', htoken', hty⟩
    rw [htoken] at htoken'
    simp only [Option.some.injEq] at htoken'
    subst htoken'
    refine Outcome.returns_bind _ _ _ _ _
      (Parser.parameterList_spec tokens hts fuel (i + 1) _ parser3
        (Parser.Inv.mono tokens _ _ _ (by omega) hinv3) (by omega)
        (Predicate.fromTokens_addParameter tokens _ _ token _
          (Predicate.fromTokens_nil tokens _ nameToken.value) htoken (by rw [hty]; simp))) ?_
    rintro p parser4 ⟨hinv4, hp⟩
    refine Outcome.returns_bind _ _ _ _ _
      (Parser.matchToken_returns tokens hts _ (by decide) _ _ hinv4) ?_
    rintro _ parser5 ⟨hinv5, _⟩
    exact ⟨Parser.Inv.mono tokens _ _ _ (by omega) hinv5, hp⟩

theorem Parser.predicateList_spec (tokens : List Token) (hts : ScannerLike tokens) :
    ∀ (fuel i : Nat) (r : Rule) (parser : Parser),
      Parser.Inv tokens i parser → tokens.length < i + fuel → r.FromTokens tokens →
      (Parser.predicateList fuel r parser).Returns (fun r' parser' =>
        Parser.Inv tokens i parser' ∧ r'.FromTokens tokens) := by
  intro fuel
  induction fuel with
  | zero =>
    intro i r parser hinv hfuel _
    have := hinv.2.1
    have := hinv.2.2.1
    omega
  | succ fuel ih =>
    intro i r parser hinv hfuel hr
    unfold Parser.predicateList
    refine Outcome.returns_bind _ _ _ _ _ (Parser.currentToken_returns tokens i _ hinv) ?_
    rintro token parser0 ⟨rfl, _, _⟩
    by_cases hty : token.type = TokenType.PERIOD
    · rw [if_pos hty]
      exact ⟨hinv, hr⟩
    · rw [if_neg hty]
      refine Outcome.returns_bind _ _ _ _ _
        (Parser.matchToken_returns tokens hts _ (by decide) i _ hinv) ?_
      rintro _ parser1 ⟨hinv1, _⟩
      refine Outcome.returns_bind _ _ _ _ _
        (Parser.predicate_spec tokens hts (fuel + 1) (i + 1) parser1 hinv1 (by omega)) ?_
      rintro p parser2 ⟨hinv2, hp⟩
      refine Outcome.returns_mono _ _ _
        (ih (i + 1) _ parser2 (Parser.Inv.mono tokens _ _ _ (by omega) hinv2) (by omega)
          ⟨hr.1, ?_⟩) ?_
      · intro b hb
        simp only [Rule.addBodyPredicate, List.mem_append, List.mem_singleton] at hb
        rcases hb with hb | rfl
        · exact hr.2 b hb
        · exact hp
      · rintro r' parser3 ⟨h1, h2⟩
        exact ⟨Parser.Inv.mono tokens _ _ _ (by omega) h1, h2⟩

theorem Parser.rule_spec (tokens : List Token) (hts : ScannerLike tokens)
    (fuel i : Nat) (parser : Parser) (hinv : Parser.Inv tokens i parser)
    (hfuel : tokens.length < i + fuel) :
    (Parser.rule fuel parser).Returns (fun _ parser' =>
      Parser.Inv tokens (i + 1) parser') := by
  unfold Parser.rule
  refine Outcome.returns_bind _ _ _ _ _
    (Parser.headPredicate_spec tokens hts fuel i parser hinv hfuel) ?_
  rintro head parser1 ⟨hinv1, hhead⟩
  refine Outcome.returns_bind _ _ _ _ _
    (Parser.matchToken_returns tokens hts _ (by decide) _ _ hinv1) ?_
  rintro _ parser2 ⟨hinv2, _⟩
  refine Outcome.returns_bind _ _ _ _ _
    (Parser.predicate_spec tokens hts fuel (i + 1) parser2
      (Parser.Inv.mono tokens _ _ _ (by omega) hinv2) (by omega)) ?_
  rintro p parser3 ⟨hinv3, hp⟩
  refine Outcome.returns_bind _ _ _ _ _
    (Parser.predicateList_spec tokens hts fuel (i + 1) _ parser3
      (Parser.Inv.mono tokens _ _ _ (by omega) hinv3) (by omega) ⟨hhead, ?_⟩) ?_
  · intro b hb
    simp only [Rule.addBodyPredicate, List.nil_append, List.mem_singleton] at hb
    rw [hb]
    exact hp
  rintro r parser4 ⟨hinv4, hr⟩
  refine Outcome.returns_bind _ _ _ _ _
    (Parser.matchToken_returns tokens hts _ (by decide) _ _ hinv4) ?_
  rintro _ parser5 ⟨hinv5, _⟩
  refine Parser.modifyProgram_returns tokens _ parser5 _
    (Parser.Inv.mono tokens _ _ _ (by omega) hinv5) ?_
  obtain ⟨h1, h2, h3, h4⟩ := hinv5.2.2.2.2
  refine ⟨h1, h2, ?_, h4⟩
  intro s hs
  rcases List.mem_append.mp hs with hs | hs
  · exact h3 s hs
  · rw [List.mem_singleton.mp hs]
    exact hr

theorem Parser.query_spec (tokens : List Token) (hts : ScannerLike tokens)
    (fuel i : Nat) (parser : Parser) (hinv : Parser.Inv tokens i parser)
    (hfuel : tokens.length < i + fuel) :
    (Parser.query fuel parser).Returns (fun _ parser' =>
      Parser.Inv tokens (i + 1) parser') := by
  unfold Parser.query
  refine Outcome.returns_bind _ _ _ _ _
    (Parser.predicate_spec tokens hts fuel i parser hinv hfuel) ?_
  rintro p parser1 ⟨hinv1, hp⟩
  refine Outcome.returns_bind _ _ _ _ _
    (Parser.matchToken_returns tokens hts _ (by decide) _ _ hinv1) ?_
  rintro _ parser2 ⟨hinv2, _⟩
  refine Parser.modifyProgram_returns tokens _ parser2 _
    (Parser.Inv.mono tokens _ _ _ (by omega) hinv2) ?_
  obtain ⟨h1, h2, h3, h4⟩ := hinv2.2.2.2.2
  refine ⟨h1, h2, h3, ?_⟩
  intro s hs
  rcases List.mem_append.mp hs with hs | hs
  · exact h4 s hs
  · rw [List.mem_singleton.mp hs]
    exact hp

theorem Parser.schemeList_spec (tokens : List Token) (hts : ScannerLike tokens) :
    ∀ (fuel i : Nat) (parser : Parser),
      Parser.Inv tokens i parser → tokens.length < i + fuel →
      (Parser.schemeList fuel parser).Returns (fun _ parser' =>
        Parser.Inv tokens i parser') := by
  intro fuel
  induction fuel with
  | zero =>
    intro i parser hinv hfuel
    have := hinv.2.1
    have := hinv.2.2.1
    omega
  | succ fuel ih =>
    intro i parser hinv hfuel
    unfold Parser.schemeList
    refine Outcome.returns_bind _ _ _ _ _ (Parser.currentToken_returns tokens i _ hinv) ?_
    rintro token parser0 ⟨rfl, _, _⟩
    by_cases hty : token.type = TokenType.FACTS
    · rw [if_pos hty]
      exact hinv
    · rw [if_neg hty]
      refine Outcome.returns_bind _ _ _ _ _
        (Parser.scheme_spec tokens hts (fuel + 1) i _ hinv hfuel) ?_
      rintro _ parser1 hinv1
      refine Outcome.returns_mono _ _ _ (ih (i + 1) parser1 hinv1 (by omega)) ?_
      rintro _ parser2 hinv2
      exact Parser.Inv.mono tokens _ _ _ (by omega) hinv2

theorem Parser.factList_spec (tokens : List Token) (hts : ScannerLike tokens) :
    ∀ (fuel i : Nat) (parser : Parser),
      Parser.Inv tokens i parser → tokens.length < i + fuel →
      (Parser.factList fuel parser).Returns (fun _ parser' =>
        Parser.Inv tokens i parser') := by
  intro fuel
  induction fuel with
  | zero =>
    intro i parser hinv hfuel
    have := hinv.2.1
    have := hinv.2.2.1
    omega
  | succ fuel ih =>
    intro i parser hinv hfuel
    unfold Parser.factList
    refine Outcome.returns_bind _ _ _ _ _ (Parser.currentToken_returns tokens i _ hinv) ?_
    rintro token parser0 ⟨rfl, _, _⟩
    by_cases hty : token.type = TokenType.RULES
    · rw [if_pos hty]
      exact hinv
    · rw [if_neg hty]
      refine Outcome.returns_bind _ _ _ _ _
        (Parser.fact_spec tokens hts (fuel + 1) i _ hinv hfuel) ?_
      rintro _ parser1 hinv1
      refine Outcome.returns_mono _ _ _ (ih (i + 1) parser1 hinv1 (by omega)) ?_
      rintro _ parser2 hinv2
      exact Parser.Inv.mono tokens _ _ _ (by omega) hinv2

theorem Parser.ruleList_spec (tokens : List Token) (hts : ScannerLike tokens) :
    ∀ (fuel i : Nat) (parser : Parser),
      Parser.Inv tokens i parser → tokens.length < i + fuel →
      (Parser.ruleList fuel parser).Returns (fun _ parser' =>
        Parser.Inv tokens i parser') := by
  intro fuel
  induction fuel with
  | zero =>
    intro i parser hinv hfuel
    have := hinv.2.1
    have := hinv.2.2.1
    omega
  | succ fuel ih =>
    intro i parser hinv hfuel
    unfold Parser.ruleList
    refine Outcome.returns_bind _ _ _ _ _ (Parser.currentToken_returns tokens i _ hinv) ?_
    rintro token parser0 ⟨rfl, _, _⟩
    by_cases hty : token.type = TokenType.QUERIES
    · rw [if_pos hty]
      exact hinv
    · rw [if_neg hty]
      refine Outcome.returns_bind _ _ _ _ _
        (Parser.rule_spec tokens hts (fuel + 1) i _ hinv hfuel) ?_
      rintro _ parser1 hinv1
      refine Outcome.returns_mono _ _ _ (ih (i + 1) parser1 hinv1 (by omega)) ?_
      rintro _ parser2 hinv2
      exact Parser.Inv.mono tokens _ _ _ (by omega) hinv2

theorem Parser.queryList_spec (tokens : List Token) (hts : ScannerLike tokens) :
    ∀ (fuel i : Nat) (parser : Parser),
      Parser.Inv tokens i parser → tokens.length < i + fuel →
      (Parser.queryList fuel parser).Returns (fun _ parser' =>
        Parser.Inv tokens i parser') := by
  intro fuel
  induction fuel with
  | zero =>
    intro i parser hinv hfuel
    have := hinv.2.1
    have := hinv.2.2.1
    omega
  | succ fuel ih =>
    intro i parser hinv hfuel
    unfold Parser.queryList
    refine Outcome.returns_bind _ _ _ _ _ (Parser.currentToken_returns tokens i _ hinv) ?_
    rintro token parser0 ⟨rfl, _, _⟩
    by_cases hty : token.type = TokenType.END
    · rw [if_pos hty]
      exact hinv
    · rw [if_neg hty]
      refine Outcome.returns_bind _ _ _ _ _
        (Parser.query_spec tokens hts (fuel + 1) i _ hinv hfuel) ?_
      rintro _ parser1 hinv1
      refine Outcome.returns_mono _ _ _ (ih (i + 1) parser1 hinv1 (by omega)) ?_
      rintro _ parser2 hinv2
      exact Parser.Inv.mono tokens _ _ _ (by omega) hinv2

theorem Parser.datalogProgramParse_spec (tokens : List Token) (hts : ScannerLike tokens)
    (fuel : Nat) (parser : Parser) (htokens : parser.tokens = tokens)
    (hlt : parser.currentTokenIndex < tokens.length)
    (hprog : parser.datalogProgram.FromTokens tokens) (hfuel : tokens.length < fuel) :
    (Parser.datalogProgramParse fuel parser).ReadsPastEnd (fun parser' =>
      parser'.tokens = tokens ∧ parser'.currentTokenIndex = tokens.length ∧
      parser'.datalogProgram.FromTokens tokens) := by
  unfold Parser.datalogProgramParse
  refine Outcome.readsPastEnd_bind _ _ _ _ _
    (Parser.matchToken_spec tokens hts _ (by decide) 0 parser htokens (Nat.zero_le _) hlt
      hprog) ?_
  rintro _ parser1 ⟨hinv1, _⟩
  refine Outcome.readsPastEnd_bind _ _ _ _ _
    (Parser.matchToken_returns tokens hts _ (by decide) _ _ hinv1) ?_
  rintro _ parser2 ⟨hinv2, _⟩
  refine Outcome.readsPastEnd_bind _ _ _ _ _
    (Parser.scheme_spec tokens hts fuel 0 parser2
      (Parser.Inv.mono tokens _ _ _ (by omega) hinv2) (by omega)) ?_
  rintro _ parser3 hinv3
  refine Outcome.readsPastEnd_bind _ _ _ _ _
    (Parser.schemeList_spec tokens hts fuel 0 parser3
      (Parser.Inv.mono tokens _ _ _ (by omega) hinv3) (by omega)) ?_
  rintro _ parser4 hinv4
  refine Outcome.readsPastEnd_bind _ _ _ _ _
    (Parser.matchToken_returns tokens hts _ (by decide) _ _ hinv4) ?_
  rintro _ parser5 ⟨hinv5, _⟩
  refine Outcome.readsPastEnd_bind _ _ _ _ _
    (Parser.matchToken_returns tokens hts _ (by decide) _ _ hinv5) ?_
  rintro _ parser6 ⟨hinv6, _⟩
  refine Outcome.readsPastEnd_bind _ _ _ _ _
    (Parser.factList_spec tokens hts fuel 0 parser6
      (Parser.Inv.mono tokens _ _ _ (by omega) hinv6) (by omega)) ?_
  rintro _ parser7 hinv7
  refine Outcome.readsPastEnd_bind _ _ _ _ _
    (Parser.matchToken_returns tokens hts _ (by decide) _ _ hinv7) ?_
  rintro _ parser8 ⟨hinv8, _⟩
  refine Outcome.readsPastEnd_bind _ _ _ _ _
    (Parser.matchToken_returns tokens hts _ (by decide) _ _ hinv8) ?_
  rintro _ parser9 ⟨hinv9, _⟩
  refine Outcome.readsPastEnd_bind _ _ _ _ _
    (Parser.ruleList_spec tokens hts fuel 0 parser9
      (Parser.Inv.mono tokens _ _ _ (by omega) hinv9) (by omega)) ?_
  rintro _ parser10 hinv10
  refine Outcome.readsPastEnd_bind _ _ _ _ _
    (Parser.matchToken_returns tokens hts _ (by decide) _ _ hinv10) ?_
  rintro _ parser11 ⟨hinv11, _⟩
  refine Outcome.readsPastEnd_bind _ _ _ _ _
    (Parser.matchToken_returns tokens hts _ (by decide) _ _ hinv11) ?_
  rintro _ parser12 ⟨hinv12, _⟩
  refine Outcome.readsPastEnd_bind _ _ _ _ _
    (Parser.query_spec tokens hts fuel 0 parser12
      (Parser.Inv.mono tokens _ _ _ (by omega) hinv12) (by omega)) ?_
  rintro _ parser13 hinv13
  refine Outcome.readsPastEnd_bind _ _ _ _ _
    (Parser.queryList_spec tokens hts fuel 0 parser13
      (Parser.Inv.mono tokens _ _ _ (by omega) hinv13) (by omega)) ?_
  rintro _ parser14 hinv14
  refine Outcome.readsPastEnd_mono _ _ _
    (Parser.matchToken_end tokens hts parser14 hinv14.1 hinv14.2.2.1) ?_
  rintro parser15 rfl
  exact ⟨hinv14.1, rfl, hinv14.2.2.2.2⟩

/-- The method `parse` on a token list that ends with its only `END`: it never
returns.  It throws, all its reads having been inside the tokens, or it goes
through the whole grammar and its last action is the read of
`tokens[tokens.size()]` by `skipComments`; the program built by then takes
every parameter from a token of the type the grammar asks for. -/
theorem Parser.parse_spec (tokens : List Token) (hts : ScannerLike tokens) :
    (Parser.parse tokens).ReadsPastEnd (fun parser =>
      parser.tokens = tokens ∧ parser.currentTokenIndex = tokens.length ∧
      parser.datalogProgram.FromTokens tokens) := by
  unfold Parser.parse
  refine Parser.datalogProgramParse_spec tokens hts _ _ rfl
    (ScannerLike.length_pos tokens hts) ?_ (by omega)
  refine ⟨?_, ?_, ?_, ?_⟩ <;> intro p hp <;> simp at hp

theorem Scanner.scannerLike_scan (input : String) : ScannerLike (Scanner.scan input) := by
  obtain ⟨pushed, lineNumber, hscan, hall⟩ := Scanner.scan_eq input
  exact ⟨pushed, _, hscan, rfl, fun token h => (hall token h).1⟩

theorem Scanner.emitted_of_mem_scan (input : String) (token : Token)
    (h : token ∈ Scanner.scan input) (hty : token.type ≠ TokenType.END) :
    Scanner.Emitted token := by
  obtain ⟨pushed, lineNumber, hscan, hall⟩ := Scanner.scan_eq input
  rw [hscan] at h
  rcases List.mem_append.mp h with h | h
  · exact hall token h
  · rw [List.mem_singleton.mp h] at hty
    exact absurd rfl hty

theorem Scanner.isalpha_ne_quote (c : Char) (h : Scanner.isalpha c = true) : c ≠ quote := by
  intro hc
  rw [hc] at h
  exact absurd h (by decide)

theorem Scanner.string_token (input : String) (token : Token)
    (h : token ∈ Scanner.scan input) (hty : token.type = TokenType.STRING) :
    2 ≤ token.value.length ∧ token.value.data.head? = some quote ∧
    token.value.data.getLast? = some quote ∧ startsWithQuote token.value = true := by
  obtain ⟨_, hstr, _⟩ := Scanner.emitted_of_mem_scan input token h (by rw [hty]; decide)
  obtain ⟨body, hvalue⟩ := hstr hty
  rw [hvalue]
  refine ⟨?_, ?_, ?_, ?_⟩
  · show 2 ≤ (quote :: body ++ [quote]).length
    simp
  · rfl
  · show (quote :: body ++ [quote]).getLast? = some quote
    exact List.getLast?_concat _
  · simp [startsWithQuote]

theorem Scanner.id_token (input : String) (token : Token)
    (h : token ∈ Scanner.scan input) (hty : token.type = TokenType.ID) :
    token.value ≠ "" ∧
    (∃ c, token.value.data.head? = some c ∧ Scanner.isalpha c = true ∧ c ≠ quote) ∧
    startsWithQuote token.value = false := by
  obtain ⟨_, _, hid⟩ := Scanner.emitted_of_mem_scan input token h (by rw [hty]; decide)
  obtain ⟨c, cs, hvalue, hc⟩ := hid hty
  have hq := Scanner.isalpha_ne_quote c hc
  rw [hvalue]
  refine ⟨?_, ⟨c, rfl, hc, hq⟩, ?_⟩
  · intro hempty
    have := congrArg String.data hempty
    simp at this
  · simp [startsWithQuote, hq]

theorem Parser.fromTokens_parsed (tokens : List Token) (hts : ScannerLike tokens)
    (program : DatalogProgram) (h : Parser.parsed tokens = some program) :
    program.FromTokens tokens := by
  have hspec := Parser.parse_spec tokens hts
  unfold Parser.parsed at h
  cases hrun : Parser.parse tokens with
  | ok value parser => rw [hrun] at hspec; exact hspec.elim
  | thrown message => rw [hrun] at h; simp at h
  | outOfRange parser =>
    rw [hrun] at h hspec
    simp only [Option.some.injEq] at h
    rw [← h]
    exact hspec.2.2
  | unfinished => rw [hrun] at h; simp at h

/-- C23: every token `scan` emits with the type `STRING` has a value of length at
least 2 that begins and ends with the quote, and every token with the type `ID`
has a non-empty value whose first character is a letter and not the quote.
Hence, in the program the parser builds from these tokens, every parameter of
a query or of a body atom is the value of a `STRING` or `ID` token, and the
test of `evaluateQuery` (the first character is the quote) is true of it
exactly when that token is a `STRING`. -/
theorem scan_keeps_literals_and_variables_apart (input : String) :
    (∀ token ∈ Scanner.scan input,
      (token.type = TokenType.STRING →
        2 ≤ token.value.length ∧ token.value.data.head? = some quote ∧
        token.value.data.getLast? = some quote ∧ startsWithQuote token.value = true) ∧
      (token.type = TokenType.ID →
        token.value ≠ "" ∧
        (∃ c, token.value.data.head? = some c ∧ Scanner.isalpha c = true ∧ c ≠ quote) ∧
        startsWithQuote token.value = false)) ∧
    (∀ program, Parser.parsed (Scanner.scan input) = some program →
      ∀ p, (p ∈ program.queries ∨ ∃ r ∈ program.rules, p ∈ r.bodyPredicates) →
      ∀ q ∈ p.parameters, ∃ token ∈ Scanner.scan input,
        (token.type = TokenType.STRING ∨ token.type = TokenType.ID) ∧
        token.value = q.value ∧
        (startsWithQuote q.value = true ↔ token.type = TokenType.STRING)) := by
  refine ⟨fun token h => ⟨Scanner.string_token input token h, Scanner.id_token input token h⟩,
    ?_⟩
  intro program hprogram p hp q hq
  obtain ⟨_, _, hrules, hqueries⟩ :=
    Parser.fromTokens_parsed _ (Scanner.scannerLike_scan input) program hprogram
  have hfrom : p.FromTokens (Scanner.scan input) [TokenType.STRING, TokenType.ID] := by
    rcases hp with hp | ⟨r, hr, hp⟩
    · exact hqueries p hp
    · exact (hrules r hr).2 p hp
  obtain ⟨token, hmem, hty, hvalue⟩ := hfrom q hq
  have hty' : token.type = TokenType.STRING ∨ token.type = TokenType.ID := by
    simpa using hty
  refine ⟨token, hmem, hty', hvalue, ?_⟩
  rw [← hvalue]
  rcases hty' with hs | hi
  · simp [hs, (Scanner.string_token input token hmem hs).2.2.2]
  · simp [hi, (Scanner.id_token input token hmem hi).2.2]

-- The texts of the programs used at the failing inputs, and the text of
-- scenario 3, are accepted by the grammar, and the parser builds these programs
-- from them.
set_option maxRecDepth 1000000 in
theorem parsed_sample_programs :
    Parser.parsed (Scanner.scan
      "Schemes: p(A) q(A,B)  Facts: p('x').  Rules: q(X,Y) :- p(X,Y).  Queries: p(X)?") =
        some shortTupleProgram ∧
    Parser.parsed (Scanner.scan "Schemes: p(A,B) Facts: p('x'). Rules: Queries: p(X,Y)?") =
      some shortFactProgram ∧
    Parser.parsed (Scanner.scan
      "Schemes: p(A,B) q(A)  Facts: p('x','y').  Rules: q(X,Y) :- p(X,Y).  Queries: q(X)?") =
        some longHeadProgram ∧
    Parser.parsed (Scanner.scan "Schemes: p(A)  Facts: p('x').  Rules:  Queries: p(X,Y)?") =
      some longQueryProgram ∧
    Parser.parsed (Scanner.scan scenario3Text) = some scenario3Program := by
  refine ⟨by decide, by decide, by decide, by decide, by decide⟩

/-- C24 (the code at the failing input): the 18 tokens of `smallProgramText` end
with `END`; `parse` goes through the whole grammar, `match(END)` advances
`currentTokenIndex` to 18 and its `skipComments` reads `tokens[18]`, one past
the last token.  So it is for every input: on the tokens of `scan`, `parse`
never returns; it throws, or it ends by the read of `tokens[tokens.size()]`. -/
theorem parse_reads_past_the_tokens :
    (Scanner.scan smallProgramText).length = 18 ∧
    (Scanner.scan smallProgramText).getLast? = some ⟨TokenType.END, "", 1⟩ ∧
    Parser.parse (Scanner.scan smallProgramText) =
      Outcome.outOfRange ⟨Scanner.scan smallProgramText, smallProgram, 18⟩ ∧
    (∀ input : String, ∀ value parser,
      Parser.parse (Scanner.scan input) ≠ Outcome.ok value parser) ∧
    (∀ input : String, ∀ parser,
      Parser.parse (Scanner.scan input) = Outcome.outOfRange parser →
        parser.currentTokenIndex = (Scanner.scan input).length) := by
  refine ⟨by decide, by decide, by decide, ?_, ?_⟩
  · intro input value parser h
    have hspec := Parser.parse_spec _ (Scanner.scannerLike_scan input)
    rw [h] at hspec
    exact hspec
  · intro input parser h
    have hspec := Parser.parse_spec _ (Scanner.scannerLike_scan input)
    rw [h] at hspec
    exact hspec.2.1

end Datalog
